import Mathlib

/-!
# Rogue: RSSI segment header, memory fabric, stream pool and DMA adapters

A shallow embedding of

* `src/rogue/protocols/rssi/Header.cpp` (`setUInt16`, `getUInt16`, `compSum`, `verify`, `update`),
* `src/rogue/interfaces/memory/Hub.cpp` (`doTransaction`),
* `src/rogue/hardware/rce/MapMemory.cpp` (`addMap`, `findSpace`, `doTransaction`),
* `src/rogue/interfaces/stream/Pool.cpp` (`acceptReq`, `retBuffer`, `enBufferPool`, `allocBuffer`,
  `createBuffer`, `decCounter`),
* `src/rogue/hardware/pgp/PgpCard.cpp` (`acceptReq`, `acceptFrame`, `retBuffer`, `runThread`) and
  `src/rogue/hardware/rce/AxiStream.cpp` (`acceptReq`, `acceptFrame`, `retBuffer`),

followed by the properties established about them.  Machine integers are natural numbers with
explicit reductions modulo `2 ^ w` wherever the C++ code can truncate or wrap.
-/

namespace rogue.protocols.rssi

/-- Modelled from the spec: the constant `Header::HeaderSize` of `Header.h`, the length in bytes
of a header without SYN. -/
def HeaderSize : Nat := 8

/-- Modelled from the spec: the constant `Header::SynSize` of `Header.h`, the length in bytes
of a header with SYN. -/
def SynSize : Nat := 24

/-- Modelled from the spec: the part of `stream::Buffer` that `Header` goes through
(`Buffer.h` / `Buffer.cpp`).  `rawPayload` is `getRawPayload()` (capacity after the head room),
`payload` is `getPayload()` / `setPayload()` (used length in payload space) and `data` is the
byte memory at `getPayloadData()`, indexed from that pointer. -/
structure Buffer where
  rawPayload : Nat
  payload : Nat
  data : Nat → Nat

/-- The data members of `rpr::Header`: the decoded fields and the send counter `count_`.
The wall-clock stamp `time_` is not modelled.  The pointer `data_` and the frame are the
`Buffer` passed along with the header. -/
structure Header where
  syn : Bool
  ack : Bool
  rst : Bool
  nul : Bool
  busy : Bool
  sequence : Nat
  acknowledge : Nat
  version : Nat
  chk : Bool
  maxOutstandingSegments : Nat
  maxSegmentSize : Nat
  retransmissionTimeout : Nat
  cumulativeAckTimeout : Nat
  nullTimeout : Nat
  maxRetransmissions : Nat
  maxCumulativeAck : Nat
  timeoutUnit : Nat
  connectionId : Nat
  count : Nat

/-- The field widths of `Header.h` as given by the spec: 8-bit `sequence`, `acknowledge`,
`version`, `maxOutstandingSegments`, `maxRetransmissions`, `maxCumulativeAck`, `timeoutUnit`,
`connectionId`; 16-bit `maxSegmentSize` and the three timeouts. -/
abbrev Header.inRange (h : Header) : Prop :=
  h.sequence < 256 ∧ h.acknowledge < 256 ∧ h.version < 256 ∧ h.maxOutstandingSegments < 256 ∧
  h.maxSegmentSize < 65536 ∧ h.retransmissionTimeout < 65536 ∧ h.cumulativeAckTimeout < 65536 ∧
  h.nullTimeout < 65536 ∧ h.maxRetransmissions < 256 ∧ h.maxCumulativeAck < 256 ∧
  h.timeoutUnit < 256 ∧ h.connectionId < 256

/-- Store of one byte: `data_[i] = v` with `v` converted to `uint8_t`. -/
def setByte (data : Nat → Nat) (i v : Nat) : Nat → Nat :=
  fun j => if j = i then v % 256 else data j

/-- The call `memset(data_, 0, size)`. -/
def memset0 (data : Nat → Nat) (size : Nat) : Nat → Nat :=
  fun j => if j < size then 0 else data j

/-- The method `Header::setUInt16`: stores `htons(value)` at `data_[byte]`, that is the high byte of the
16-bit value first. -/
def setUInt16 (data : Nat → Nat) (byte value : Nat) : Nat → Nat :=
  setByte (setByte data byte (value % 65536 / 256)) (byte + 1) (value % 65536)

/-- The method `Header::getUInt16`: `ntohs` of the two bytes at `data_[byte]`. -/
def getUInt16 (data : Nat → Nat) (byte : Nat) : Nat :=
  data byte * 256 + data (byte + 1)

/-- The loop of `Header::compSum`: `for (x=0; x < size-2; x = x+2) sum += getUInt16(x)`,
with `x` a `uint8_t`, `size` a `uint8_t` promoted to `int` in `size-2`, and `sum` a `uint32_t`. -/
def compSumLoop (data : Nat → Nat) (size x sum : Nat) : Nat :=
  if x + 2 < size % 256 then
    compSumLoop data size ((x + 2) % 256) ((sum + getUInt16 data x) % 2 ^ 32)
  else sum
termination_by size % 256 - x
decreasing_by
  have hx : x + 2 < 256 := by omega
  rw [Nat.mod_eq_of_lt hx]
  omega

/-- The method `Header::compSum`: the folded sum, exclusive-or 0xFFFF, returned as `uint16_t`. -/
def compSum (data : Nat → Nat) (size : Nat) : Nat :=
  let sum := compSumLoop data size 0 0
  let sum := (sum % 0x10000 + sum / 0x10000) % 2 ^ 32
  let sum := sum ^^^ 0xFFFF
  sum % 2 ^ 16

/-- Decoding of the five flags at the start of `Header::verify`
(`syn = data_[0] & 0x80` and so on, converted to `bool`). -/
def Header.decodeFlags (h : Header) (data : Nat → Nat) : Header :=
  { h with
    syn := (data 0 &&& 0x80) != 0
    ack := (data 0 &&& 0x40) != 0
    rst := (data 0 &&& 0x10) != 0
    nul := (data 0 &&& 0x08) != 0
    busy := (data 0 &&& 0x01) != 0 }

/-- Decoding of the SYN-only fields at the end of `Header::verify`. -/
def Header.decodeSyn (h : Header) (data : Nat → Nat) : Header :=
  { h with
    version := data 4 >>> 4
    chk := (data 4 &&& 0x04) != 0
    maxOutstandingSegments := data 5
    maxSegmentSize := getUInt16 data 6
    retransmissionTimeout := getUInt16 data 8
    cumulativeAckTimeout := getUInt16 data 10
    nullTimeout := getUInt16 data 12
    maxRetransmissions := data 14
    maxCumulativeAck := data 15
    timeoutUnit := data 17
    connectionId := data 18 }

/-- The local `size = (syn)?SynSize:HeaderSize` of `Header::update` and `Header::verify`,
a `uint8_t`. -/
def Header.size (h : Header) : Nat :=
  (if h.syn then SynSize else HeaderSize) % 256

/-- The method `Header::verify`: the returned flag together with the header object after the call. -/
def Header.verify (h : Header) (buf : Buffer) : Bool × Header :=
  if buf.payload < HeaderSize then (false, h)
  else
    let h1 := h.decodeFlags buf.data
    let size := h1.size
    if buf.data 1 ≠ size then (false, h1)
    else if buf.payload < size then (false, h1)
    else if getUInt16 buf.data (size - 2) ≠ compSum buf.data size then (false, h1)
    else
      let h2 := { h1 with sequence := buf.data 2, acknowledge := buf.data 3 }
      if h2.syn = false then (true, h2)
      else (true, h2.decodeSyn buf.data)

/-- The first block of `Header::update` after the room check: `memset`, the length byte, the
flags `ack`, `rst`, `nul`, `busy` or-ed into byte 0, then `sequence` and `acknowledge`. -/
def Header.writeFlags (h : Header) (data : Nat → Nat) (size : Nat) : Nat → Nat :=
  let d := memset0 data size
  let d := setByte d 1 size
  let d := if h.ack then setByte d 0 (d 0 ||| 0x40) else d
  let d := if h.rst then setByte d 0 (d 0 ||| 0x10) else d
  let d := if h.nul then setByte d 0 (d 0 ||| 0x08) else d
  let d := if h.busy then setByte d 0 (d 0 ||| 0x01) else d
  let d := setByte d 2 h.sequence
  setByte d 3 h.acknowledge

/-- The block `if ( syn ) { ... }` of `Header::update`. -/
def Header.writeSyn (h : Header) (d : Nat → Nat) : Nat → Nat :=
  let d := setByte d 0 (d 0 ||| 0x80)
  let d := setByte d 4 (d 4 ||| 0x08)
  let d := setByte d 4 (d 4 ||| (h.version <<< 4))
  let d := if h.chk then setByte d 4 (d 4 ||| 0x04) else d
  let d := setByte d 5 h.maxOutstandingSegments
  let d := setUInt16 d 6 h.maxSegmentSize
  let d := setUInt16 d 8 h.retransmissionTimeout
  let d := setUInt16 d 10 h.cumulativeAckTimeout
  let d := setUInt16 d 12 h.nullTimeout
  let d := setByte d 14 h.maxRetransmissions
  let d := setByte d 15 h.maxCumulativeAck
  let d := setByte d 17 h.timeoutUnit
  setByte d 18 h.connectionId

/-- The header bytes written by `Header::update` before the checksum. -/
def Header.writeFields (h : Header) (data : Nat → Nat) (size : Nat) : Nat → Nat :=
  let d := h.writeFlags data size
  if h.syn then h.writeSyn d else d

/-- The method `Header::update`: `none` is the boundary exception thrown when the buffer has no room for
the header; otherwise the buffer and the header object after the call (`count_` incremented as
a `uint32_t`; the time stamp is not modelled). -/
def Header.update (h : Header) (buf : Buffer) : Option (Buffer × Header) :=
  let size := h.size
  if buf.rawPayload < size then none
  else
    let payload := if buf.payload = 0 then size else buf.payload
    let d := h.writeFields buf.data size
    let d := setUInt16 d (size - 2) (compSum d size)
    some ({ buf with payload := payload, data := d }, { h with count := (h.count + 1) % 2 ^ 32 })

/-- The flag byte of the wire layout, in the order of the spec:
bit 7 SYN, bit 6 ACK, bit 4 RST, bit 3 NUL, bit 0 BUSY. -/
def flagByte (h : Header) : Nat :=
  (if h.syn then 0x80 else 0) ||| (if h.ack then 0x40 else 0) ||| (if h.rst then 0x10 else 0) |||
    (if h.nul then 0x08 else 0) ||| (if h.busy then 0x01 else 0)

/-- The flag byte as `Header::update` has it before the SYN block: ACK, RST, NUL and BUSY. -/
def lowFlags (h : Header) : Nat :=
  (if h.ack then 0x40 else 0) ||| (if h.rst then 0x10 else 0) |||
    (if h.nul then 0x08 else 0) ||| (if h.busy then 0x01 else 0)

/-- Byte 4 of a SYN header as `Header::update` computes it: 0x08, then `version << 4` or-ed in
and truncated to a byte, then 0x04 when `chk` is set. -/
def verByte (h : Header) : Nat :=
  if h.chk then ((8 ||| h.version <<< 4) % 256 ||| 4) % 256 else (8 ||| h.version <<< 4) % 256

/-- The 24 bytes of a SYN header before the checksum is written (bytes 22 and 23 still 0). -/
def synBytes (h : Header) : List Nat :=
  [flagByte h, 24, h.sequence % 256, h.acknowledge % 256, verByte h,
   h.maxOutstandingSegments % 256,
   h.maxSegmentSize % 65536 / 256 % 256, h.maxSegmentSize % 65536 % 256,
   h.retransmissionTimeout % 65536 / 256 % 256, h.retransmissionTimeout % 65536 % 256,
   h.cumulativeAckTimeout % 65536 / 256 % 256, h.cumulativeAckTimeout % 65536 % 256,
   h.nullTimeout % 65536 / 256 % 256, h.nullTimeout % 65536 % 256,
   h.maxRetransmissions % 256, h.maxCumulativeAck % 256, 0, h.timeoutUnit % 256,
   h.connectionId % 256, 0, 0, 0, 0, 0]

/-- The 8 bytes of a header without SYN before the checksum is written. -/
def plainBytes (h : Header) : List Nat :=
  [flagByte h, 8, h.sequence % 256, h.acknowledge % 256, 0, 0, 0, 0]

/-- The sum of the first `n` big-endian 16-bit words of the byte memory `d`, as a natural
number (no wrap-around): the reference sum of the checksum rule. -/
def wordSum (d : Nat → Nat) (n : Nat) : Nat :=
  ((List.range n).map (fun k => 256 * d (2 * k) + d (2 * k + 1))).sum

/-- Bitwise NOT of a 32-bit word. -/
def not32 (x : Nat) : Nat := 2 ^ 32 - 1 - x % 2 ^ 32

/-- The bytes of the header that `Header::update` leaves in the buffer, checksum included. -/
def Header.wire (h : Header) (data : Nat → Nat) : Nat → Nat :=
  setUInt16 (h.writeFields data h.size) (h.size - 2) (compSum (h.writeFields data h.size) h.size)

/-- The SYN header of the spec's scenario "RSSI SYN decode". -/
def synExample : Header :=
  { syn := true, ack := false, rst := false, nul := false, busy := false, sequence := 5,
    acknowledge := 0, version := 1, chk := false, maxOutstandingSegments := 16,
    maxSegmentSize := 1000, retransmissionTimeout := 500, cumulativeAckTimeout := 250,
    nullTimeout := 2000, maxRetransmissions := 8, maxCumulativeAck := 4, timeoutUnit := 3,
    connectionId := 7, count := 0 }

/-- An empty buffer with room for `rawPayload` bytes, its memory filled with 0xAA. -/
def emptyBuffer (rawPayload : Nat) : Buffer :=
  { rawPayload := rawPayload, payload := 0, data := fun _ => 0xAA }

/-- A header object as the constructor `Header::Header` leaves it: the five flags false and
`count_` zero.  The other members are not initialised by the constructor; 0 stands in for them. -/
def freshHeader : Header :=
  { syn := false, ack := false, rst := false, nul := false, busy := false, sequence := 0,
    acknowledge := 0, version := 0, chk := false, maxOutstandingSegments := 0,
    maxSegmentSize := 0, retransmissionTimeout := 0, cumulativeAckTimeout := 0,
    nullTimeout := 0, maxRetransmissions := 0, maxCumulativeAck := 0, timeoutUnit := 0,
    connectionId := 0, count := 0 }

/-- A buffer holding 8 payload bytes: the flag byte 0x40 (ACK) followed by zeros, so that the
length byte is 0 and not 8. -/
def ackOnlyBuffer : Buffer :=
  { rawPayload := 8, payload := 8, data := fun j => if j = 0 then 0x40 else 0 }

/-- Replacement of the byte at index `i` by `v`, every other byte kept. -/
def alterByte (d : Nat → Nat) (i v : Nat) : Nat → Nat :=
  fun j => if j = i then v else d j

end rogue.protocols.rssi

namespace rogue.interfaces.memory

/-- The arguments of one call of `Slave::doTransaction(id, master, address, size, type)`.
The master is identified by a number. -/
structure Transaction where
  id : Nat
  master : Nat
  address : Nat
  size : Nat
  type : Nat
  deriving DecidableEq, Repr

/-- The method `Hub::doTransaction` of a hub with offset `offset_`: the list of calls it makes
on its downstream slave `getSlave()`.  `outAddress = offset_ | address` on `uint64_t` values. -/
def Hub.doTransaction (offset : Nat) (id master address size type : Nat) : List Transaction :=
  let outAddress := offset ||| address
  [{ id := id, master := master, address := outAddress, size := size, type := type }]

/-- A stack of memory slaves: an endpoint that records the transactions it is given, or a Hub
with its offset over a downstream slave. -/
inductive Slave where
  | endpoint : Slave
  | hub (offset : Nat) (slave : Slave) : Slave

/-- The transactions that reach the endpoint when `doTransaction` is called on the top of a
stack: a Hub hands each of its downstream calls to its downstream slave. -/
def Slave.doTransaction : Slave → Transaction → List Transaction
  | .endpoint, t => [t]
  | .hub offset slave, t =>
    (Hub.doTransaction offset t.id t.master t.address t.size t.type).flatMap slave.doTransaction

/-- The stack of hubs with offsets `offs`, the first on top, over an endpoint. -/
def hubStack : List Nat → Slave
  | [] => .endpoint
  | off :: offs => .hub off (hubStack offs)

end rogue.interfaces.memory

namespace rogue.hardware.rce

/-- One mapped window (`rhr::Map` of `MapMemory.h`): 32-bit `base` and `size`, and the pointer
`ptr` returned by `mmap`, as an address. -/
structure Map where
  base : Nat
  size : Nat
  ptr : Nat
  deriving DecidableEq, Repr

/-- The constants of `rogue/interfaces/memory/Constants.h` that `MapMemory` uses; the file is not
part of the sources at hand, so their values are parameters. -/
structure Constants where
  Write : Nat
  Post : Nat
  AddressError : Nat

/-- The calls `MapMemory::doTransaction` makes on the requesting master. -/
inductive MasterCall where
  | getTransactionData (id ptr offset width : Nat)
  | setTransactionData (id ptr offset width : Nat)
  | doneTransaction (id status : Nat)
  deriving DecidableEq, Repr

/-- The method `MapMemory::findSpace(uint32_t base, uint32_t size)`: the first window of
`maps_`, in index order, with `base >= maps_[x].base` and
`((base - maps_[x].base) + size) < maps_[x].size`, the sum being a `uint32_t`; the result is the
window's pointer advanced by `base - maps_[x].base`, and `none` is the `NULL` result. -/
def findSpace : List Map → Nat → Nat → Option Nat
  | [], _, _ => none
  | m :: maps, base, size =>
    if base ≥ m.base ∧ ((base - m.base) + size) % 2 ^ 32 < m.size then
      some (m.ptr + (base - m.base))
    else findSpace maps base size

/-- The loop `while ( count < size ) { ...; count += 4; }` of `MapMemory::doTransaction`, with
`count` a `uint32_t`, run for at most `fuel` tests of the loop condition; `none` when the loop
has not ended by then. -/
def transferLoop (c : Constants) (id ptr size type : Nat) : Nat → Nat → Option (List MasterCall)
  | 0, _ => none
  | fuel + 1, count =>
    if count < size then
      let call :=
        if type = c.Write ∨ type = c.Post then MasterCall.getTransactionData id (ptr + count) count 4
        else MasterCall.setTransactionData id (ptr + count) count 4
      (transferLoop c id ptr size type fuel ((count + 4) % 2 ^ 32)).map (fun calls => call :: calls)
    else some []

/-- The method `MapMemory::doTransaction`: the calls made on the `master` argument, in order.
The `uint64_t` address is converted to the `uint32_t` parameter of `findSpace`.  `none` when the
transfer loop has not ended within `fuel` tests of its condition. -/
def doTransaction (c : Constants) (maps : List Map) (fuel : Nat)
    (id address size type : Nat) : Option (List MasterCall) :=
  match findSpace maps (address % 2 ^ 32) size with
  | none => some [MasterCall.doneTransaction id c.AddressError]
  | some ptr =>
    (transferLoop c id ptr size type fuel 0).map
      (fun calls => calls ++ [MasterCall.doneTransaction id 0])

/-- The reference lookup of the spec: a window that holds the whole range
`[address, address + size)`, computed on natural numbers. -/
abbrev Map.covers (m : Map) (address size : Nat) : Prop :=
  m.base ≤ address ∧ address + size ≤ m.base + m.size

/-- The window of the spec's scenario "Hub stack": base 0x40010000, size 0x1000, mapped at
the address 0x7000. -/
def windowExample : Map := { base := 0x40010000, size := 0x1000, ptr := 0x7000 }

/-- A window at base 0 of size 0x1000, mapped at the address 0x7000. -/
def lowWindow : Map := { base := 0, size := 0x1000, ptr := 0x7000 }

/-- A window at base 0 of the largest 32-bit size, mapped at the address 0x7000. -/
def fullWindow : Map := { base := 0, size := 0xFFFFFFFF, ptr := 0x7000 }

/-- The data call of iteration `i` of the transfer loop: transaction offset `4 * i`, width 4,
pointer `ptr + 4 * i`; `getTransactionData` for Write and Post, `setTransactionData` otherwise. -/
def dataCall (c : Constants) (id ptr type i : Nat) : MasterCall :=
  if type = c.Write ∨ type = c.Post then MasterCall.getTransactionData id (ptr + 4 * i) (4 * i) 4
  else MasterCall.setTransactionData id (ptr + 4 * i) (4 * i) 4

end rogue.hardware.rce

namespace rogue

/-- The exceptions of `rogue/GeneralError.h` thrown by the code modelled here: the plain
constructor `GeneralError(src, text)` and the factories `allocation(src, size)` and
`timeout(src, time)`.  The source string and the text are left out. -/
inductive GeneralError where
  | general : GeneralError
  | allocation (size : Nat) : GeneralError
  | timeout (time : Nat) : GeneralError
  deriving DecidableEq, Repr

end rogue

namespace rogue.interfaces.stream

/-- Modelled from the spec: the members of `stream::Buffer` (`Buffer.h` / `Buffer.cpp`) that the
pool and the device adapters go through.  `data` is the handle to the raw bytes as an address
(0 is `NULL`), `meta` the 32-bit meta word (`getMeta` / `setMeta`), `rawSize` the capacity
(`getRawSize`), `allocSize` the size of the region accounted by the pool, `count` the used
length (`getCount`, set by `setSize`), `flags` the flags word (`getFlags`) and `error` the error
word (`getError` / `setError`), 0 on a new buffer. -/
structure Buffer where
  data : Nat
  meta : Nat
  rawSize : Nat
  allocSize : Nat
  count : Nat
  flags : Nat
  error : Nat := 0
  deriving DecidableEq, Repr

/-- Modelled from the spec: `Buffer::create(source, data, meta, size, alloc)`, a buffer over
`data` with capacity `size` inside a region of `alloc` bytes, nothing used yet and no flags. -/
def Buffer.create (data meta size alloc : Nat) : Buffer :=
  { data := data, meta := meta, rawSize := size, allocSize := alloc, count := 0, flags := 0 }

/-- The data members of `stream::Pool` (`Pool.h`): the 32-bit counters `allocMeta_`,
`allocBytes_`, `allocCount_`, the queue `dataQ_` of region pointers (front first), `fixedSize_`
and `maxCount_`.  The list `freed` is bookkeeping added to the model: the pointers handed to
`free`, in order. -/
structure Pool where
  allocMeta : Nat
  allocBytes : Nat
  allocCount : Nat
  dataQ : List Nat
  fixedSize : Nat
  maxCount : Nat
  freed : List Nat
  deriving DecidableEq, Repr

/-- The constructor `Pool::Pool()`. -/
def Pool.create : Pool :=
  { allocMeta := 0, allocBytes := 0, allocCount := 0, dataQ := [], fixedSize := 0, maxCount := 0,
    freed := [] }

/-- The method `Pool::enBufferPool(size, count)`; `none` is the exception
"Method can only be called once!", thrown before anything is changed. -/
def Pool.enBufferPool (p : Pool) (size count : Nat) : Option Pool :=
  if p.fixedSize ≠ 0 then none
  else some { p with fixedSize := size, maxCount := count }

/-- The method `Pool::decCounter(alloc)`: `allocBytes_ -= alloc; allocCount_--;` on `uint32_t`
members. -/
def Pool.decCounter (p : Pool) (alloc : Nat) : Pool :=
  { p with
    allocBytes := (p.allocBytes + 2 ^ 32 - alloc % 2 ^ 32) % 2 ^ 32
    allocCount := (p.allocCount + 2 ^ 32 - 1) % 2 ^ 32 }

/-- The method `Pool::retBuffer(data, meta, rawSize)`: a non-`NULL` region is pushed on the queue
when `rawSize == fixedSize_ && maxCount_ > dataQ_.size()` and handed to `free` otherwise; then
the counters are decremented. -/
def Pool.retBuffer (p : Pool) (data meta rawSize : Nat) : Pool :=
  let _ := meta
  let p1 :=
    if data ≠ 0 then
      if rawSize = p.fixedSize ∧ p.maxCount > p.dataQ.length then
        { p with dataQ := p.dataQ ++ [data] }
      else { p with freed := p.freed ++ [data] }
    else p
  { p1 with
    allocBytes := (p1.allocBytes + 2 ^ 32 - rawSize % 2 ^ 32) % 2 ^ 32
    allocCount := (p1.allocCount + 2 ^ 32 - 1) % 2 ^ 32 }

/-- The method `Pool::allocBuffer(size, total)`.  `mallocResult` is the pointer `malloc(bAlloc)`
returns should it be called (0 for `NULL`); `total` is the value behind the pointer `total`
(`none` for `NULL`).  The result is the pool, the buffer and the new value behind `total`, or
the allocation exception, thrown before anything is changed. -/
def Pool.allocBuffer (p : Pool) (size : Nat) (total : Option Nat) (mallocResult : Nat) :
    Except GeneralError (Pool × Buffer × Option Nat) :=
  let bAlloc := if p.fixedSize > 0 then p.fixedSize else size
  let bSize := if p.fixedSize > 0 then (if size > p.fixedSize then p.fixedSize else size) else size
  let taken : Option (Nat × List Nat) :=
    match p.dataQ with
    | data :: q => some (data, q)
    | [] => if mallocResult = 0 then none else some (mallocResult, [])
  match taken with
  | none => .error (GeneralError.allocation bAlloc)
  | some (data, q) =>
    let meta := p.allocMeta
    let p1 : Pool :=
      { p with
        dataQ := q
        allocMeta := ((p.allocMeta + 1) % 2 ^ 32) &&& 0xFFFFFF
        allocBytes := (p.allocBytes + bAlloc) % 2 ^ 32
        allocCount := (p.allocCount + 1) % 2 ^ 32 }
    .ok (p1, Buffer.create data meta bSize bAlloc, total.map (fun t => (t + bSize) % 2 ^ 32))

/-- The method `Pool::createBuffer(data, meta, size, alloc)`. -/
def Pool.createBuffer (p : Pool) (data meta size alloc : Nat) : Pool × Buffer :=
  ({ p with
      allocBytes := (p.allocBytes + alloc) % 2 ^ 32
      allocCount := (p.allocCount + 1) % 2 ^ 32 },
    Buffer.create data meta size alloc)

/-- The loop `while ( frSize < size ) ret->appendBuffer(allocBuffer(bSize,&frSize));` of
`Pool::acceptReq`, with `frSize` a `uint32_t`, run for at most `fuel` tests of its condition.
`heap k` is the pointer `malloc` returns on the allocation for buffer number `k` of the frame.
`none` when the loop has not ended within the fuel. -/
def Pool.acceptReqLoop (size bSize : Nat) (heap : Nat → Nat) :
    Nat → Pool → List Buffer → Nat → Option (Except GeneralError (Pool × List Buffer))
  | 0, _, _, _ => none
  | fuel + 1, p, frame, frSize =>
    if frSize < size then
      match p.allocBuffer bSize (some frSize) (heap frame.length) with
      | .error e => some (.error e)
      | .ok (p1, buff, total) =>
        Pool.acceptReqLoop size bSize heap fuel p1 (frame ++ [buff]) (total.getD frSize)
    else some (.ok (p, frame))

/-- The method `Pool::acceptReq(size, zeroCopyEn, maxBuffSize)`: the pool after the call and the
buffers of the returned frame, in order. -/
def Pool.acceptReq (p : Pool) (heap : Nat → Nat) (fuel : Nat) (size : Nat) (zeroCopyEn : Bool)
    (maxBuffSize : Nat) : Option (Except GeneralError (Pool × List Buffer)) :=
  let _ := zeroCopyEn
  let bSize := if maxBuffSize = 0 then size else maxBuffSize
  Pool.acceptReqLoop size bSize heap fuel p [] 0

/-- A call made on a pool by the code that uses it: `allocBuffer(size, NULL)`, with the pointer
`malloc` would return, or `retBuffer(data, meta, rawSize)`. -/
inductive PoolCall where
  | allocBuffer (size mallocResult : Nat) : PoolCall
  | retBuffer (data meta rawSize : Nat) : PoolCall
  deriving DecidableEq, Repr

/-- One call on the pool: the pool after it and the buffer it dispensed, if any.  An
`allocBuffer` that throws leaves the pool as it was. -/
def Pool.call (p : Pool) : PoolCall → Pool × Option Buffer
  | .allocBuffer size mallocResult =>
    match p.allocBuffer size none mallocResult with
    | .error _ => (p, none)
    | .ok (p1, buff, _) => (p1, some buff)
  | .retBuffer data meta rawSize => (p.retBuffer data meta rawSize, none)

/-- A sequence of calls on the pool: the pool after them and the buffers dispensed, in order. -/
def Pool.run : Pool → List PoolCall → Pool × List Buffer
  | p, [] => (p, [])
  | p, c :: cs =>
    match (p.call c).2 with
    | none => ((p.call c).1).run cs
    | some buff => ((((p.call c).1).run cs).1, buff :: (((p.call c).1).run cs).2)

/-- The drop of a buffer as a call on its pool: `retBuffer` with the buffer's handle, meta
word and allocation size. -/
def Buffer.drop (b : Buffer) : PoolCall :=
  PoolCall.retBuffer b.data b.meta b.allocSize

/-- A call in the life of the buffers of a pool: a buffer is dispensed by `allocBuffer` or
`createBuffer`, and the live buffer at position `i` is given back through `retBuffer` or
`decCounter` with its allocation size; `enBufferPool` may come in between. -/
inductive LedgerCall where
  | allocBuffer (size mallocResult : Nat) : LedgerCall
  | createBuffer (data meta size alloc : Nat) : LedgerCall
  | retBuffer (i : Nat) : LedgerCall
  | decCounter (i : Nat) : LedgerCall
  | enBufferPool (size count : Nat) : LedgerCall
  deriving DecidableEq, Repr

/-- A pool together with the buffers it has dispensed that have not been given back. -/
structure Ledger where
  pool : Pool
  live : List Buffer
  deriving DecidableEq, Repr

/-- One step of the ledger.  A call that throws, or that names no live buffer, changes
nothing; a buffer given back leaves the live list, so it is given back at most once. -/
def Ledger.step (l : Ledger) : LedgerCall → Ledger
  | .allocBuffer size mallocResult =>
    match l.pool.allocBuffer size none mallocResult with
    | .error _ => l
    | .ok (p1, buff, _) => { pool := p1, live := l.live ++ [buff] }
  | .createBuffer data meta size alloc =>
    { pool := (l.pool.createBuffer data meta size alloc).1,
      live := l.live ++ [(l.pool.createBuffer data meta size alloc).2] }
  | .retBuffer i =>
    match l.live[i]? with
    | none => l
    | some b => { pool := l.pool.retBuffer b.data b.meta b.allocSize, live := l.live.eraseIdx i }
  | .decCounter i =>
    match l.live[i]? with
    | none => l
    | some b => { pool := l.pool.decCounter b.allocSize, live := l.live.eraseIdx i }
  | .enBufferPool size count =>
    match l.pool.enBufferPool size count with
    | none => l
    | some p1 => { l with pool := p1 }

/-- The ledger after a sequence of calls. -/
def Ledger.run (l : Ledger) (calls : List LedgerCall) : Ledger :=
  calls.foldl Ledger.step l

end rogue.interfaces.stream

namespace rogue.interfaces.stream

/-- The size `bAlloc` that `allocBuffer(size, ...)` accounts and allocates: the fixed size when
fixed-size mode is on, the requested size otherwise. -/
def Pool.allocSizeOf (p : Pool) (size : Nat) : Nat :=
  if p.fixedSize > 0 then p.fixedSize else size

/-- The capacity `bSize` of the buffer that `allocBuffer(size, ...)` dispenses: the requested
size, clamped to the fixed size when fixed-size mode is on. -/
def Pool.bufSizeOf (p : Pool) (size : Nat) : Nat :=
  if p.fixedSize > 0 then (if size > p.fixedSize then p.fixedSize else size) else size

/-- The malloc results used in the examples: allocation number `k` returns `0x1000 + 0x100 * k`,
never `NULL`. -/
def heapExample (k : Nat) : Nat := 0x1000 + 0x100 * k

/-- A pool in fixed-size mode, as `enBufferPool(1024, 2)` leaves a new pool. -/
def fixedPool : Pool := { Pool.create with fixedSize := 1024, maxCount := 2 }

end rogue.interfaces.stream

namespace rogue.interfaces.stream

/-- The calls `allocBuffer(16, NULL)` made `n` times in a row, `malloc` returning the distinct
regions `0x1000 + 16 * j`, with no buffer returned in between. -/
def manyAllocs (n : Nat) : List PoolCall :=
  (List.range n).map (fun j => PoolCall.allocBuffer 16 (0x1000 + 16 * j))

end rogue.interfaces.stream

namespace rogue.interfaces.stream

/-- The calls of the recycling scenario on a pool after `enBufferPool(s, c)`: one
`allocBuffer(s, NULL)` per region of `regions` (the pointers `malloc` returns), the drop of
every buffer dispensed, in allocation order, then one `allocBuffer(s, NULL)` per entry of
`later` (the pointers `malloc` would return).  The result is the pool after the drops, the
pool at the end, and the buffers dispensed by the later allocations. -/
def recycle (s c : Nat) (regions later : List Nat) : Option (Pool × Pool × List Buffer) :=
  match Pool.create.enBufferPool s c with
  | none => none
  | some p0 =>
    let r1 := p0.run (regions.map (PoolCall.allocBuffer s))
    let p2 := (r1.1.run (r1.2.map Buffer.drop)).1
    let r3 := p2.run (later.map (PoolCall.allocBuffer s))
    some (p2, r3.1, r3.2)

end rogue.interfaces.stream

namespace rogue.hardware

/-- A call on the DMA driver (`PgpDriver.h`, `AxisDriver.h`, `select`), with its arguments apart
from the descriptor: `select(fd_+1, NULL, &fds, NULL, &tout)` waiting for write-readiness with
the time-out `sec` / `usec`, `dmaGetIndex`, `dmaWriteIndex(index, size, flags, dest)`,
`dmaWrite(buf, size, flags, dest)` and `dmaRetIndex(index)`. -/
inductive DmaCall where
  | select (sec usec : Nat) : DmaCall
  | dmaGetIndex : DmaCall
  | dmaWriteIndex (index size flags dest : Nat) : DmaCall
  | dmaWrite (data size flags dest : Nat) : DmaCall
  | dmaRetIndex (index : Nat) : DmaCall
  deriving DecidableEq, Repr

/-- The DMA backend: the value a driver call returns, given the calls made before it. -/
abbrev Backend := List DmaCall → DmaCall → Int

/-- The flag and destination encoders of the driver headers (`pgpSetFlags`, `pgpSetDest`,
`axisSetFlags`); the headers are not part of the sources at hand, so they are parameters. -/
structure Driver where
  pgpSetFlags : Nat → Nat
  pgpSetDest : Nat → Nat → Nat
  axisSetFlags : Nat → Nat → Nat → Nat

/-- What a call of `acceptFrame` leaves behind: the buffers of the frame, the driver calls made
so far, and the exception it threw, if any. -/
structure Sent where
  frame : List rogue.interfaces.stream.Buffer
  trace : List DmaCall
  error : Option rogue.GeneralError
  deriving DecidableEq, Repr

/-- A backend that is always ready and accepts every write: `select` returns 1, `dmaWriteIndex`
and `dmaWrite` return the byte count they were given, every other call returns 0. -/
def echoBackend : Backend := fun _ call =>
  match call with
  | .select _ _ => 1
  | .dmaWriteIndex _ size _ _ => size
  | .dmaWrite _ size _ _ => size
  | _ => 0

/-- Stand-ins for the encoders of the driver headers: the continue flag as the flags word,
`lane * 4 + vc` as the destination, `fuser | (luser << 8)` as the AXI stream flags. -/
def plainDriver : Driver :=
  { pgpSetFlags := fun cont => cont
    pgpSetDest := fun lane vc => lane * 4 + vc
    axisSetFlags := fun fuser luser _ => fuser ||| (luser <<< 8) }

/-- A zero-copy buffer over DMA index 5 (meta bit 31 set, bit 30 clear) with nothing written. -/
def zeroCopyBuffer : rogue.interfaces.stream.Buffer :=
  { data := 0x5000, meta := 0x80000005, rawSize := 2048, allocSize := 2048, count := 0,
    flags := 0 }

/-- A buffer allocated by the pool (meta bit 31 clear) holding 64 bytes. -/
def softwareBuffer : rogue.interfaces.stream.Buffer :=
  { data := 0x6000, meta := 0, rawSize := 2048, allocSize := 2048, count := 64, flags := 0 }

/-- The wait of the write loops: `tv_sec` and `tv_usec` as set from `timeout_`. -/
def selectCall (timeout : Nat) : DmaCall :=
  DmaCall.select (if timeout > 0 then timeout / 1000000 else 0)
    (if timeout > 0 then timeout % 1000000 else 10000)

end rogue.hardware

namespace rogue.hardware.pgp

open rogue.interfaces.stream rogue.hardware

/-- The data members of `PgpCard` used here: the base-class `Pool`, the descriptor `fd_`,
`lane_`, `vc_`, `timeout_`, `zeroCopyEn_`, the table `rawBuff_` of DMA buffer addresses (`none`
for `NULL`) and the DMA buffer size `bSize_`. -/
structure PgpCard where
  pool : Pool
  fd : Int
  lane : Nat
  vc : Nat
  timeout : Nat
  zeroCopyEn : Bool
  rawBuff : Option (List Nat)
  bSize : Nat

/-- An open PGP card on lane 0, virtual channel 0, as the constructor leaves it (time-out
10000000, zero copy enabled), over a new pool and a DMA table of four buffers of 2048 bytes. -/
def pgpExample : PgpCard :=
  { pool := Pool.create, fd := 3, lane := 0, vc := 0, timeout := 10000000, zeroCopyEn := true,
    rawBuff := some [0x2000, 0x3000, 0x4000, 0x5000], bSize := 2048 }

/-- The method `PgpCard::retBuffer(data, meta, size)`: the adapter after the call and the driver
calls made. -/
def PgpCard.retBuffer (card : PgpCard) (data meta size : Nat) : PgpCard × List DmaCall :=
  if meta &&& 0x80000000 ≠ 0 then
    let calls :=
      if card.fd ≥ 0 ∧ meta &&& 0x40000000 = 0 then [DmaCall.dmaRetIndex (meta &&& 0x3FFFFFFF)]
      else []
    ({ card with pool := card.pool.decCounter size }, calls)
  else ({ card with pool := card.pool.retBuffer data meta size }, [])

/-- The `do { ... } while ( res == 0 )` loop of `PgpCard::acceptFrame` for a buffer copied by
the driver, run for at most `fuel` rounds: the driver calls made and the exception thrown, if
any; `none` when the loop has not ended within the fuel.  The assignment is
`res = dmaWrite(...) < 0`, as the parentheses of the source have it. -/
def PgpCard.writeLoop (card : PgpCard) (drv : Driver) (be : Backend) (buff : Buffer)
    (cont : Nat) : Nat → List DmaCall → Option (List DmaCall × Option rogue.GeneralError)
  | 0, _ => none
  | fuel + 1, tr =>
    let sel := selectCall card.timeout
    if be tr sel ≤ 0 then
      if card.timeout > 0 then some (tr ++ [sel], some (rogue.GeneralError.timeout card.timeout))
      else PgpCard.writeLoop card drv be buff cont fuel (tr ++ [sel])
    else
      let wr := DmaCall.dmaWrite buff.data buff.count (drv.pgpSetFlags cont)
        (drv.pgpSetDest card.lane card.vc)
      let res : Int := if be (tr ++ [sel]) wr < 0 then 1 else 0
      if res ≠ 0 then some (tr ++ [sel, wr], some rogue.GeneralError.general)
      else if res = 0 then PgpCard.writeLoop card drv be buff cont fuel (tr ++ [sel, wr])
      else some (tr ++ [sel, wr], none)

/-- The loop over the buffers of `PgpCard::acceptFrame`: `done` are the buffers gone through,
the second list the buffers still to go.  `none` when a write loop has not ended within
`fuel` rounds. -/
def PgpCard.acceptBuffers (card : PgpCard) (drv : Driver) (be : Backend) (fuel : Nat) :
    List Buffer → List Buffer → List DmaCall → Option Sent
  | done, [], tr => some { frame := done, trace := tr, error := none }
  | done, buff :: rest, tr =>
    let cont := if rest = [] then 0 else 1
    let meta := buff.meta
    if meta &&& 0x80000000 ≠ 0 then
      if meta &&& 0x40000000 = 0 then
        let wr := DmaCall.dmaWriteIndex (meta &&& 0x3FFFFFFF) buff.count (drv.pgpSetFlags cont)
          (drv.pgpSetDest card.lane card.vc)
        if be tr wr ≤ 0 then
          some { frame := done ++ buff :: rest, trace := tr ++ [wr],
                 error := some rogue.GeneralError.general }
        else
          PgpCard.acceptBuffers card drv be fuel
            (done ++ [{ buff with meta := meta ||| 0x40000000 }]) rest (tr ++ [wr])
      else PgpCard.acceptBuffers card drv be fuel (done ++ [buff]) rest tr
    else
      match PgpCard.writeLoop card drv be buff cont fuel tr with
      | none => none
      | some (tr1, some e) => some { frame := done ++ buff :: rest, trace := tr1, error := some e }
      | some (tr1, none) => PgpCard.acceptBuffers card drv be fuel (done ++ [buff]) rest tr1

/-- The method `PgpCard::acceptFrame(frame)`, started after the driver calls `tr`. -/
def PgpCard.acceptFrame (card : PgpCard) (drv : Driver) (be : Backend) (fuel : Nat)
    (frame : List Buffer) (tr : List DmaCall) : Option Sent :=
  PgpCard.acceptBuffers card drv be fuel [] frame tr

end rogue.hardware.pgp

namespace rogue.hardware.rce

open rogue.interfaces.stream rogue.hardware

/-- The data members of `AxiStream` used here: the base-class `Pool`, the descriptor `fd_`,
`dest_`, `timeout_`, `enSsi_`, the table `rawBuff_` of DMA buffer addresses (`none` for `NULL`)
and the DMA buffer size `bSize_`. -/
structure AxiStream where
  pool : Pool
  fd : Int
  dest : Nat
  timeout : Nat
  enSsi : Bool
  rawBuff : Option (List Nat)
  bSize : Nat

/-- An open AXI stream adapter on destination 0, as the constructor leaves it (time-out
1000000), without SSI, over a new pool and a DMA table of four buffers of 2048 bytes. -/
def axiExample : AxiStream :=
  { pool := Pool.create, fd := 3, dest := 0, timeout := 1000000, enSsi := false,
    rawBuff := some [0x2000, 0x3000, 0x4000, 0x5000], bSize := 2048 }

/-- The method `AxiStream::retBuffer(data, meta, size)`: the adapter after the call and the
driver calls made. -/
def AxiStream.retBuffer (card : AxiStream) (data meta size : Nat) : AxiStream × List DmaCall :=
  if meta &&& 0x80000000 ≠ 0 then
    let calls :=
      if card.fd ≥ 0 ∧ meta &&& 0x40000000 = 0 then [DmaCall.dmaRetIndex (meta &&& 0x3FFFFFFF)]
      else []
    ({ card with pool := card.pool.decCounter size }, calls)
  else ({ card with pool := card.pool.retBuffer data meta size }, [])

/-- The flags word `AxiStream::acceptFrame` passes to the driver for a buffer: `fuser` from bits
0-7 of the buffer flags, with 0x2 or-ed in under SSI, and `luser` from bits 8-15. -/
def AxiStream.txFlags (card : AxiStream) (drv : Driver) (buff : Buffer) : Nat :=
  let flags := buff.flags
  let fuser := flags &&& 0xFF
  let luser := (flags >>> 8) &&& 0xFF
  let fuser := if card.enSsi then fuser ||| 0x2 else fuser
  drv.axisSetFlags fuser luser 0

/-- The `do { ... } while ( res == 0 )` loop of `AxiStream::acceptFrame` for a buffer copied by
the driver, run for at most `fuel` rounds; `none` when it has not ended within the fuel. -/
def AxiStream.writeLoop (card : AxiStream) (drv : Driver) (be : Backend) (buff : Buffer) :
    Nat → List DmaCall → Option (List DmaCall × Option rogue.GeneralError)
  | 0, _ => none
  | fuel + 1, tr =>
    let sel := selectCall card.timeout
    if be tr sel ≤ 0 then
      if card.timeout > 0 then some (tr ++ [sel], some (rogue.GeneralError.timeout card.timeout))
      else AxiStream.writeLoop card drv be buff fuel (tr ++ [sel])
    else
      let wr := DmaCall.dmaWrite buff.data buff.count (card.txFlags drv buff) card.dest
      let res : Int := be (tr ++ [sel]) wr
      if res < 0 then some (tr ++ [sel, wr], some rogue.GeneralError.general)
      else if res = 0 then AxiStream.writeLoop card drv be buff fuel (tr ++ [sel, wr])
      else some (tr ++ [sel, wr], none)

/-- The loop over the buffers of `AxiStream::acceptFrame`; `none` when a write loop has not
ended within `fuel` rounds. -/
def AxiStream.acceptBuffers (card : AxiStream) (drv : Driver) (be : Backend) (fuel : Nat) :
    List Buffer → List Buffer → List DmaCall → Option Sent
  | done, [], tr => some { frame := done, trace := tr, error := none }
  | done, buff :: rest, tr =>
    let meta := buff.meta
    if meta &&& 0x80000000 ≠ 0 then
      if meta &&& 0x40000000 = 0 then
        let wr := DmaCall.dmaWriteIndex (meta &&& 0x3FFFFFFF) buff.count (card.txFlags drv buff)
          card.dest
        if be tr wr ≤ 0 then
          some { frame := done ++ buff :: rest, trace := tr ++ [wr],
                 error := some rogue.GeneralError.general }
        else
          AxiStream.acceptBuffers card drv be fuel
            (done ++ [{ buff with meta := meta ||| 0x40000000 }]) rest (tr ++ [wr])
      else AxiStream.acceptBuffers card drv be fuel (done ++ [buff]) rest tr
    else
      match AxiStream.writeLoop card drv be buff fuel tr with
      | none => none
      | some (tr1, some e) => some { frame := done ++ buff :: rest, trace := tr1, error := some e }
      | some (tr1, none) => AxiStream.acceptBuffers card drv be fuel (done ++ [buff]) rest tr1

/-- The method `AxiStream::acceptFrame(frame)`, started after the driver calls `tr`. -/
def AxiStream.acceptFrame (card : AxiStream) (drv : Driver) (be : Backend) (fuel : Nat)
    (frame : List Buffer) (tr : List DmaCall) : Option Sent :=
  AxiStream.acceptBuffers card drv be fuel [] frame tr

end rogue.hardware.rce

namespace rogue.protocols.rssi

/-- One fold of a sum of 16-bit words: the low 16 bits plus the carries above them, the step
`(sum % 0x10000) + (sum / 0x10000)` of `Header::compSum`. -/
def fold16 (s : Nat) : Nat := s % 0x10000 + s / 0x10000

/-- The reference 16-bit one's-complement sum (end-around carry): the carries are folded back in
until none is left.  For a sum below `2 ^ 32` two folds are enough. -/
def endAroundSum (s : Nat) : Nat := fold16 (fold16 s)

/-- The reference 16-bit one's-complement checksum of a word sum: the bitwise NOT, on 16 bits,
of the end-around-carry sum. -/
def onesComplement16 (s : Nat) : Nat := 0xFFFF - endAroundSum s % 0x10000

/-- A SYN header whose eleven words before the checksum add up to 0x1FFFF: version 1, 8
outstanding segments, segment size 1024, time-outs 0xFFFF, 0x63E0 and 0. -/
def carryHeader : Header :=
  { syn := true, ack := false, rst := false, nul := false, busy := false, sequence := 0,
    acknowledge := 0, version := 1, chk := false, maxOutstandingSegments := 8,
    maxSegmentSize := 1024, retransmissionTimeout := 0xFFFF, cumulativeAckTimeout := 0x63E0,
    nullTimeout := 0, maxRetransmissions := 0, maxCumulativeAck := 0, timeoutUnit := 0,
    connectionId := 0, count := 0 }

end rogue.protocols.rssi

namespace rogue.hardware.rce

/-- The value `MAP_FAILED` of `<sys/mman.h>`, `(void *) -1`, which `mmap` returns when it
fails, on a machine with pointers of `ptrBits` bits. -/
def MAP_FAILED (ptrBits : Nat) : Nat := 2 ^ ptrBits - 1

/-- The data members of `MapMemory` that `addMap` goes through: the descriptor `fd_` of
`/dev/mem` and the windows `maps_`. -/
structure MapMemory where
  fd : Int
  maps : List Map
  deriving DecidableEq, Repr

/-- The method `MapMemory::addMap(address, size)`; `mmapResult` is the pointer the call of
`mmap` returns (0 for `NULL`).  The log messages are not modelled. -/
def MapMemory.addMap (m : MapMemory) (address size mmapResult : Nat) : MapMemory :=
  let map : Map := { base := address, size := size, ptr := 0 }
  if m.fd ≥ 0 then
    let map := { map with ptr := mmapResult }
    if map.ptr = 0 then m
    else { m with maps := m.maps ++ [map] }
  else m

/-- An open `MapMemory` with no window. -/
def openMemory : MapMemory := { fd := 3, maps := [] }

/-- The bytes `[ptr, ptr + width)` lie inside the mapping of the window. -/
abbrev Map.holds (m : Map) (ptr width : Nat) : Prop :=
  m.ptr ≤ ptr ∧ ptr + width ≤ m.ptr + m.size

end rogue.hardware.rce

namespace rogue.interfaces.stream

/-- Modelled from the spec: the members of `stream::Frame` (`Frame.h`; `Frame.cpp` is not part
of the sources at hand) that the receive loop goes through: the buffers in order, the error
word (`getError` / `setError`) and the flags word. -/
structure Frame where
  buffers : List Buffer
  error : Nat
  flags : Nat
  deriving DecidableEq, Repr

/-- Modelled from the spec: `Frame::create()`, an empty frame with no error and no flags. -/
def Frame.create : Frame := { buffers := [], error := 0, flags := 0 }

/-- A buffer dispensed by `allocBuffer` together with the size of the memory region its handle
points to (the argument of the `malloc` that made the region).  The region size is bookkeeping
added to the model. -/
structure Tracked where
  buffer : Buffer
  region : Nat
  deriving DecidableEq, Repr

/-- A pool with the sizes of the regions held in its queue (`queued`, in the order of `dataQ_`)
and the buffers dispensed and not yet returned, each with the size of its region. -/
structure Regions where
  pool : Pool
  queued : List Nat
  live : List Tracked
  deriving DecidableEq, Repr

/-- A call on a pool whose regions are tracked: `enBufferPool(size, count)`,
`allocBuffer(size, NULL)` with the pointer `malloc` would return, and the return of the live
buffer at position `i` through `retBuffer` with its own handle, meta word and allocation
size. -/
inductive RegionCall where
  | enBufferPool (size count : Nat) : RegionCall
  | allocBuffer (size mallocResult : Nat) : RegionCall
  | retBuffer (i : Nat) : RegionCall
  deriving DecidableEq, Repr

/-- One call on a pool whose regions are tracked.  `allocBuffer` takes the region at the front
of the queue when the queue is not empty and the region made by `malloc(bAlloc)` otherwise;
`retBuffer` moves the region of the buffer to the back of the queue when the pool queues its
handle.  A call that throws, or that names no live buffer, changes nothing. -/
def Regions.step (st : Regions) : RegionCall → Regions
  | .enBufferPool size count =>
    match st.pool.enBufferPool size count with
    | none => st
    | some p1 => { st with pool := p1 }
  | .allocBuffer size mallocResult =>
    match st.pool.allocBuffer size none mallocResult with
    | .error _ => st
    | .ok (p1, buff, _) =>
      match st.pool.dataQ, st.queued with
      | _ :: _, r :: rs => { pool := p1, queued := rs, live := st.live ++ [⟨buff, r⟩] }
      | _, _ =>
        { pool := p1, queued := st.queued, live := st.live ++ [⟨buff, st.pool.allocSizeOf size⟩] }
  | .retBuffer i =>
    match st.live[i]? with
    | none => st
    | some t =>
      let p1 := st.pool.retBuffer t.buffer.data t.buffer.meta t.buffer.allocSize
      { pool := p1
        queued := if p1.dataQ.length > st.pool.dataQ.length then st.queued ++ [t.region]
                  else st.queued
        live := st.live.eraseIdx i }

/-- A sequence of calls on a new pool whose regions are tracked. -/
def Regions.run (calls : List RegionCall) : Regions :=
  calls.foldl Regions.step { pool := Pool.create, queued := [], live := [] }

end rogue.interfaces.stream

namespace rogue.hardware

open rogue.interfaces.stream

/-- What a call of `acceptReq` of a device adapter returns: the pool of the adapter after the
call, the buffers of the frame and the driver calls made so far. -/
structure Requested where
  pool : Pool
  frame : List Buffer
  trace : List DmaCall
  deriving DecidableEq, Repr

/-- The loop `do { ... } while (res < 0)` of `acceptReq` (the same text in `PgpCard::acceptReq`
and `AxiStream::acceptReq`), run for at most `fuel` rounds: the wait for write-readiness, then
`dmaGetIndex`.  The result is the driver calls made so far and either the time-out exception or
the value of `res` with which the loop is left; `none` when the loop has not ended within the
fuel. -/
def getIndexLoop (timeout : Nat) (be : Backend) :
    Nat → List DmaCall → Option (List DmaCall × Except rogue.GeneralError Int)
  | 0, _ => none
  | fuel + 1, tr =>
    let sel := selectCall timeout
    if be tr sel ≤ 0 then
      if timeout > 0 then some (tr ++ [sel], .error (rogue.GeneralError.timeout timeout))
      else
        let res : Int := 0
        if res < 0 then getIndexLoop timeout be fuel (tr ++ [sel])
        else some (tr ++ [sel], .ok res)
    else
      let res : Int := be (tr ++ [sel]) DmaCall.dmaGetIndex
      if res < 0 then getIndexLoop timeout be fuel (tr ++ [sel, DmaCall.dmaGetIndex])
      else some (tr ++ [sel, DmaCall.dmaGetIndex], .ok res)

/-- The loop `while ( alloc < size ) { ... }` of `acceptReq` (the same text in both adapters),
with `alloc` a `uint32_t`, run for at most `n` tests of its condition, each inner loop for at
most `fuel` rounds: `createBuffer(rawBuff_[res], 0x80000000 | res, buffSize, bSize_)` for the
`res` the inner loop is left with.  `rawBuff` is the table of DMA buffer addresses; an index
outside the table reads as 0.  `none` when a loop has not ended within its fuel. -/
def zeroCopyLoop (timeout : Nat) (be : Backend) (fuel : Nat) (rawBuff : List Nat)
    (bSize buffSize size : Nat) :
    Nat → Pool → List Buffer → Nat → List DmaCall →
      Option (Except rogue.GeneralError Requested)
  | 0, _, _, _, _ => none
  | n + 1, p, frame, alloc, tr =>
    if alloc < size then
      match getIndexLoop timeout be fuel tr with
      | none => none
      | some (_, .error e) => some (.error e)
      | some (tr1, .ok res) =>
        let created :=
          p.createBuffer (rawBuff.getD res.toNat 0) (0x80000000 ||| res.toNat) buffSize bSize
        zeroCopyLoop timeout be fuel rawBuff bSize buffSize size n created.1
          (frame ++ [created.2]) ((alloc + buffSize) % 2 ^ 32) tr1
    else some (.ok { pool := p, frame := frame, trace := tr })

/-- The branch `frame = ris::Pool::acceptReq(size,false,buffSize)` of `acceptReq`: no driver
call is made. -/
def poolReq (p : Pool) (heap : Nat → Nat) (fuel size buffSize : Nat) (tr : List DmaCall) :
    Option (Except rogue.GeneralError Requested) :=
  (p.acceptReq heap fuel size false buffSize).map
    (fun r => r.map (fun x => { pool := x.1, frame := x.2, trace := tr }))

/-- A backend that is always ready and hands out the DMA indices 1, 2, 3, ... in turn:
`select` returns 1, the `k`-th `dmaGetIndex` call returns `k`, writes return the byte count. -/
def indexBackend : Backend := fun tr call =>
  match call with
  | .select _ _ => 1
  | .dmaGetIndex => (tr.count DmaCall.dmaGetIndex : Nat) + 1
  | .dmaWriteIndex _ size _ _ => size
  | .dmaWrite _ size _ _ => size
  | _ => 0

/-- A backend like `indexBackend` whose first wait, and only that one, runs out of time:
`select` returns 0 when no driver call has been made yet. -/
def lateBackend : Backend := fun tr call =>
  match call with
  | .select _ _ => if tr = [] then 0 else 1
  | _ => indexBackend tr call

/-- Whether the driver call `call`, made after the calls `hist`, gives the DMA buffer `index`
back to the backend: 1 for a `dmaWriteIndex` on that index that succeeds (result above 0) and
for a `dmaRetIndex` on that index, 0 otherwise. -/
def handBack (be : Backend) (index : Nat) (hist : List DmaCall) : DmaCall → Nat
  | .dmaWriteIndex i size flags dest =>
    if i = index ∧ be hist (.dmaWriteIndex i size flags dest) > 0 then 1 else 0
  | .dmaRetIndex i => if i = index then 1 else 0
  | _ => 0

/-- The number of times the backend is given the DMA buffer `index` back by the driver calls
`calls`, made after the calls `hist`. -/
def handBacks (be : Backend) (index : Nat) : List DmaCall → List DmaCall → Nat
  | _, [] => 0
  | hist, call :: calls =>
    handBack be index hist call + handBacks be index (hist ++ [call]) calls

/-- A driver call that hands a DMA buffer over: `dmaWriteIndex` or `dmaRetIndex`. -/
def DmaCall.isHandBack : DmaCall → Bool
  | .dmaWriteIndex _ _ _ _ => true
  | .dmaRetIndex _ => true
  | _ => false

/-- A zero-copy buffer over DMA index 5 with 64 bytes written. -/
def filledBuffer : Buffer :=
  { data := 0x5000, meta := 0x80000005, rawSize := 2048, allocSize := 2048, count := 64,
    flags := 0 }

end rogue.hardware

namespace rogue.hardware.pgp

open rogue.interfaces.stream rogue.hardware

/-- The method `PgpCard::acceptReq(size, zeroCopyEn, maxBuffSize)`, started after the driver
calls `tr`: the result, or the exception thrown.  `heap` gives the pointers `malloc` returns in
the pool branch; `none` when a loop has not ended within `fuel`. -/
def PgpCard.acceptReq (card : PgpCard) (be : Backend) (heap : Nat → Nat) (fuel : Nat)
    (size : Nat) (zeroCopyEn : Bool) (maxBuffSize : Nat) (tr : List DmaCall) :
    Option (Except rogue.GeneralError Requested) :=
  let buffSize :=
    if maxBuffSize > card.bSize ∨ maxBuffSize = 0 then card.bSize else maxBuffSize
  if card.zeroCopyEn = false ∨ zeroCopyEn = false ∨ card.rawBuff = none then
    poolReq card.pool heap fuel size buffSize tr
  else
    zeroCopyLoop card.timeout be fuel (card.rawBuff.getD []) card.bSize buffSize size fuel
      card.pool [] 0 tr

/-- The frame after `n` calls of `PgpCard::acceptFrame` on it in a row (a call that throws
leaves the frame to the caller, who may send it again) and the driver calls made; `none` when
a call has not returned within `fuel`. -/
def PgpCard.resend (card : PgpCard) (drv : Driver) (be : Backend) (fuel : Nat) :
    Nat → List Buffer → List DmaCall → Option (List Buffer × List DmaCall)
  | 0, frame, tr => some (frame, tr)
  | n + 1, frame, tr =>
    match card.acceptFrame drv be fuel frame tr with
    | none => none
    | some s => PgpCard.resend card drv be fuel n s.frame s.trace

/-- One round of the `while(1)` loop of `PgpCard::runThread`, as the driver answers it: `idle`
when `select` reports nothing to read; `read` when it reports data, with the result `res` of
`dmaRead` / `dmaReadIndex`, the words the call stores in `flags`, `error` and (zero-copy read)
`meta`, and the pointer `malloc` would return to `allocBuffer`. -/
inductive Round where
  | idle : Round
  | read (res : Int) (flags error meta mallocResult : Nat) : Round
  deriving DecidableEq, Repr

/-- The state of the receive thread: the adapter with its pool, the local `buff`, the frame
being filled, the frames passed to `sendFrame` so far, the driver calls made by buffer
releases, and the exception that ended the thread, if any. -/
structure Receiver where
  pool : Pool
  buff : Option Buffer
  frame : Frame
  sent : List Frame
  released : List DmaCall
  error : Option rogue.GeneralError
  deriving DecidableEq, Repr

/-- The assignment of a new buffer to the local `buff`: the buffer held before, if any, is
released through `PgpCard::retBuffer` with its handle, meta word and allocation size. -/
def PgpCard.assignBuff (card : PgpCard) (st : Receiver) (p : Pool) (b : Buffer) : Receiver :=
  match st.buff with
  | none => { st with pool := p, buff := some b }
  | some old =>
    let r := PgpCard.retBuffer { card with pool := p } old.data old.meta old.allocSize
    { st with pool := r.1.pool, buff := some b, released := st.released ++ r.2 }

/-- The block `if ( res > 0 ) { ... }` of `PgpCard::runThread`: the buffer gets its size and
error, the frame error is or-ed, the buffer is appended, and the frame is passed to `sendFrame`
and replaced by a new one when the continue flag is 0.  The setters `Buffer::setSize` and
`Buffer::setError` and the frame methods are modelled from the spec (`Buffer.cpp` and
`Frame.cpp` are not part of the sources at hand): they store the used length and the error
word. -/
def PgpCard.deliver (st : Receiver) (res : Int) (error cont : Nat) : Receiver :=
  if res > 0 then
    match st.buff with
    | none => st
    | some b =>
      let b1 : Buffer := { b with count := res.toNat, error := error }
      let frame : Frame :=
        { st.frame with error := error ||| st.frame.error, buffers := st.frame.buffers ++ [b1] }
      if cont = 0 then
        { st with buff := none, frame := Frame.create, sent := st.sent ++ [frame] }
      else { st with buff := none, frame := frame }
  else st

/-- One round of the `while(1)` loop of `PgpCard::runThread`.  `pgpGetCont` is the decoder of
the continue flag of `PgpDriver.h`, a parameter since the header is not part of the sources at
hand.  An exception of `allocBuffer` ends the thread. -/
def PgpCard.round (card : PgpCard) (pgpGetCont : Nat → Nat) (st : Receiver) :
    Round → Receiver
  | .idle => st
  | .read res flags error meta mallocResult =>
    if st.error.isSome then st
    else if card.zeroCopyEn = false ∨ card.rawBuff = none then
      match st.pool.allocBuffer card.bSize none mallocResult with
      | .error e => { st with error := some e }
      | .ok (p1, b, _) =>
        let st1 := card.assignBuff st p1 b
        let cont := pgpGetCont flags
        PgpCard.deliver st1 res error cont
    else
      if res > 0 then
        let cont := pgpGetCont flags
        let created :=
          st.pool.createBuffer ((card.rawBuff.getD []).getD meta 0) (0x80000000 ||| meta)
            card.bSize card.bSize
        let st1 := card.assignBuff st created.1 created.2
        PgpCard.deliver st1 res error cont
      else st

/-- The receive thread `PgpCard::runThread` over a sequence of rounds, started with a new
empty frame and the pool of the adapter. -/
def PgpCard.runThread (card : PgpCard) (pgpGetCont : Nat → Nat) (rounds : List Round) :
    Receiver :=
  rounds.foldl (card.round pgpGetCont)
    { pool := card.pool, buff := none, frame := Frame.create, sent := [], released := [],
      error := none }

/-- The successful read of a round, if any: payload size, error word and flags word. -/
def Round.success : Round → Option (Nat × Nat × Nat)
  | .idle => none
  | .read res flags error _ _ => if res > 0 then some (res.toNat, error, flags) else none

/-- The reference framing of a sequence of reads: the maximal runs of consecutive reads that
end at a read for which `last` holds, in order; `cur` holds the reads of the run being
collected. -/
def frameRuns {α : Type} (last : α → Bool) : List α → List α → List (List α)
  | _, [] => []
  | cur, x :: xs =>
    if last x then (cur ++ [x]) :: frameRuns last [] xs else frameRuns last (cur ++ [x]) xs

/-- The reads left over by the reference framing: those after the last read for which `last`
holds. -/
def frameRest {α : Type} (last : α → Bool) : List α → List α → List α
  | cur, [] => cur
  | cur, x :: xs => if last x then frameRest last [] xs else frameRest last (cur ++ [x]) xs

/-- The bitwise OR of the error words of the buffers of a frame. -/
def errorsOr (bufs : List Buffer) : Nat :=
  bufs.foldl (fun acc b => b.error ||| acc) 0

/-- A PGP card without DMA table, so that reads go through buffers of the pool. -/
def pgpSoftware : PgpCard := { pgpExample with rawBuff := none }

/-- A PGP card with the time-out switched off by `setTimeout(0)`. -/
def pgpNoTimeout : PgpCard := { pgpExample with timeout := 0 }

end rogue.hardware.pgp

namespace rogue.hardware.rce

open rogue.interfaces.stream rogue.hardware

/-- The method `AxiStream::acceptReq(size, zeroCopyEn, maxBuffSize)`, started after the driver
calls `tr`: the result, or the exception thrown.  `heap` gives the pointers `malloc` returns in
the pool branch; `none` when a loop has not ended within `fuel`. -/
def AxiStream.acceptReq (card : AxiStream) (be : Backend) (heap : Nat → Nat) (fuel : Nat)
    (size : Nat) (zeroCopyEn : Bool) (maxBuffSize : Nat) (tr : List DmaCall) :
    Option (Except rogue.GeneralError Requested) :=
  let buffSize :=
    if maxBuffSize > card.bSize ∨ maxBuffSize = 0 then card.bSize else maxBuffSize
  if zeroCopyEn = false ∨ card.rawBuff = none then
    poolReq card.pool heap fuel size buffSize tr
  else
    zeroCopyLoop card.timeout be fuel (card.rawBuff.getD []) card.bSize buffSize size fuel
      card.pool [] 0 tr

/-- The frame after `n` calls of `AxiStream::acceptFrame` on it in a row (a call that throws
leaves the frame to the caller, who may send it again) and the driver calls made; `none` when
a call has not returned within `fuel`. -/
def AxiStream.resend (card : AxiStream) (drv : Driver) (be : Backend) (fuel : Nat) :
    Nat → List Buffer → List DmaCall → Option (List Buffer × List DmaCall)
  | 0, frame, tr => some (frame, tr)
  | n + 1, frame, tr =>
    match card.acceptFrame drv be fuel frame tr with
    | none => none
    | some s => AxiStream.resend card drv be fuel n s.frame s.trace

/-- An AXI stream adapter with the time-out switched off by `setTimeout(0)`. -/
def axiNoTimeout : AxiStream := { axiExample with timeout := 0 }

end rogue.hardware.rce

namespace rogue.hardware

open rogue.interfaces.stream

/-- The driver calls of `k` rounds of the request loop in which the wait succeeds at once: `k`
times the wait followed by `dmaGetIndex`. -/
def readyRounds (timeout k : Nat) : List DmaCall :=
  (List.replicate k [selectCall timeout, DmaCall.dmaGetIndex]).flatten

/-- The DMA index the backend hands out in round `k` of such a request, started after the
driver calls `tr`: its answer to the `dmaGetIndex` call of that round. -/
def obtained (timeout : Nat) (be : Backend) (tr : List DmaCall) (k : Nat) : Nat :=
  (be (tr ++ readyRounds timeout k ++ [selectCall timeout]) DmaCall.dmaGetIndex).toNat

end rogue.hardware

namespace rogue.interfaces.stream

/-- The region-size invariant of a pool whose regions are tracked: the queue is empty and
cannot grow while no fixed size is set, every queued region has exactly the fixed size, and
every live buffer has its allocation size equal to the size of its region and a capacity
within it. -/
abbrev Regions.sound (st : Regions) : Prop :=
  (st.pool.fixedSize = 0 → st.pool.maxCount = 0 ∧ st.pool.dataQ = []) ∧
    st.queued.length = st.pool.dataQ.length ∧
    (∀ r ∈ st.queued, r = st.pool.fixedSize) ∧
    (∀ t ∈ st.live, t.buffer.allocSize = t.region ∧ t.buffer.rawSize ≤ t.region)

end rogue.interfaces.stream

namespace rogue.hardware

open rogue.interfaces.stream

/-- A buffer as `acceptFrame` may leave it: as it was, or, for a zero-copy buffer (bit 31 set)
not yet handed over (bit 30 clear), with bit 30 of the meta word set. -/
def sentAs (b b1 : Buffer) : Prop :=
  b1 = b ∨ (b.meta &&& 0x80000000 ≠ 0 ∧ b.meta &&& 0x40000000 = 0 ∧
    b1 = { b with meta := b.meta ||| 0x40000000 })

/-- The buffer is a zero-copy buffer over the DMA buffer `index`: bit 31 of the meta word is
set and the index bits are `index`. -/
def carries (index : Nat) (b : Buffer) : Prop :=
  b.meta &&& 0x80000000 ≠ 0 ∧ b.meta &&& 0x3FFFFFFF = index

/-- The buffer is a zero-copy buffer over the DMA buffer `index` that is marked as handed
over to the hardware (bit 30 set). -/
def isHandedOver (index : Nat) (b : Buffer) : Bool :=
  decide (b.meta &&& 0x80000000 ≠ 0 ∧ b.meta &&& 0x40000000 ≠ 0 ∧
    b.meta &&& 0x3FFFFFFF = index)

/-- The number of buffers of a frame that are marked as handed over and are over the DMA
buffer `index`. -/
def handedOver (index : Nat) (frame : List Buffer) : Nat :=
  frame.countP (isHandedOver index)

end rogue.hardware

/-! ## RSSI segment header: supporting lemmas -/

namespace rogue.protocols.rssi

theorem xor_ffff_mod (f : Nat) : (f ^^^ 0xFFFF) % 2 ^ 16 = 65535 - f % 65536 := by
  apply Nat.eq_of_testBit_eq
  intro i
  have h : f % 65536 < 2 ^ 16 := Nat.mod_lt _ (by norm_num)
  have e : 65535 - f % 65536 = 2 ^ 16 - (f % 65536 + 1) := by omega
  rw [e, Nat.testBit_two_pow_sub_succ h, Nat.testBit_mod_two_pow, Nat.testBit_xor]
  have e2 : (0xFFFF : Nat) = 2 ^ 16 - 1 := by norm_num
  rw [e2, Nat.testBit_two_pow_sub_one]
  have e3 : (65536 : Nat) = 2 ^ 16 := by norm_num
  rw [e3, Nat.testBit_mod_two_pow]
  by_cases hi : i < 16 <;> simp [hi]

theorem and_two_pow_ne_zero (b i : Nat) : ((b &&& 2 ^ i) != 0) = b.testBit i := by
  rw [Nat.and_two_pow]
  cases b.testBit i <;> simp

theorem compSumLoop_eight (d : Nat → Nat) :
    compSumLoop d 8 0 0 = (getUInt16 d 0 + getUInt16 d 2 + getUInt16 d 4) % 2 ^ 32 := by
  rw [compSumLoop]; simp
  rw [compSumLoop]; simp
  rw [compSumLoop]; simp
  rw [compSumLoop]; simp

theorem compSumLoop_syn (d : Nat → Nat) :
    compSumLoop d 24 0 0 =
      (getUInt16 d 0 + getUInt16 d 2 + getUInt16 d 4 + getUInt16 d 6 + getUInt16 d 8 +
        getUInt16 d 10 + getUInt16 d 12 + getUInt16 d 14 + getUInt16 d 16 + getUInt16 d 18 +
        getUInt16 d 20) % 2 ^ 32 := by
  rw [compSumLoop]; simp
  rw [compSumLoop]; simp
  rw [compSumLoop]; simp
  rw [compSumLoop]; simp
  rw [compSumLoop]; simp
  rw [compSumLoop]; simp
  rw [compSumLoop]; simp
  rw [compSumLoop]; simp
  rw [compSumLoop]; simp
  rw [compSumLoop]; simp
  rw [compSumLoop]; simp
  rw [compSumLoop]; simp

theorem wordSum_three (d : Nat → Nat) :
    wordSum d 3 = getUInt16 d 0 + getUInt16 d 2 + getUInt16 d 4 := by
  simp [wordSum, getUInt16, List.range_succ]
  ring

theorem wordSum_eleven (d : Nat → Nat) :
    wordSum d 11 = getUInt16 d 0 + getUInt16 d 2 + getUInt16 d 4 + getUInt16 d 6 + getUInt16 d 8 +
        getUInt16 d 10 + getUInt16 d 12 + getUInt16 d 14 + getUInt16 d 16 + getUInt16 d 18 +
        getUInt16 d 20 := by
  simp [wordSum, getUInt16, List.range_succ]
  ring

/-- The loop of `compSum` adds up the words before the checksum, modulo `2 ^ 32`. -/
theorem compSumLoop_eq_wordSum (d : Nat → Nat) (size : Nat) (hs : size = 8 ∨ size = 24) :
    compSumLoop d size 0 0 = wordSum d ((size - 2) / 2) % 2 ^ 32 := by
  rcases hs with rfl | rfl
  · rw [compSumLoop_eight, ← wordSum_three]
  · rw [compSumLoop_syn, ← wordSum_eleven]

/-- The reference sum reads only the bytes below `2 * n`. -/
theorem wordSum_congr (d e : Nat → Nat) (n : Nat) (h : ∀ j, j < 2 * n → d j = e j) :
    wordSum d n = wordSum e n := by
  unfold wordSum
  congr 1
  apply List.map_congr_left
  intro k hk
  rw [List.mem_range] at hk
  rw [h (2 * k) (by omega), h (2 * k + 1) (by omega)]

/-- A word sum over bytes is bounded by `65535` per word. -/
theorem wordSum_le (d : Nat → Nat) (n : Nat) (h : ∀ j, j < 2 * n → d j < 256) :
    wordSum d n ≤ 65535 * n := by
  induction n with
  | zero => simp [wordSum]
  | succ n ih =>
    have h1 := h (2 * n) (by omega)
    have h2 := h (2 * n + 1) (by omega)
    have ih2 := ih (fun j hj => h j (by omega))
    unfold wordSum at ih2 ⊢
    rw [List.range_succ, List.map_append, List.sum_append]
    simp only [List.map_cons, List.map_nil, List.sum_cons, List.sum_nil]
    omega

theorem flagByte_lt (h : Header) : flagByte h < 256 := by
  obtain ⟨syn, ack, rst, nul, busy, _⟩ := h
  cases syn <;> cases ack <;> cases rst <;> cases nul <;> cases busy <;> simp [flagByte]

theorem verByte_lt (h : Header) : verByte h < 256 := by
  unfold verByte
  split_ifs <;> exact Nat.mod_lt _ (by norm_num)

/-- Closed form of the first block of `update`. -/
theorem writeFlags_eq (h : Header) (data : Nat → Nat) (size : Nat) (hsz : 4 ≤ size) :
    h.writeFlags data size = fun j =>
      if j = 0 then lowFlags h else if j = 1 then size % 256
      else if j = 2 then h.sequence % 256
      else if j = 3 then h.acknowledge % 256 else if j < size then 0 else data j := by
  funext j
  have h0 : 0 < size := by omega
  unfold Header.writeFlags lowFlags
  cases h.ack <;> cases h.rst <;> cases h.nul <;> cases h.busy <;>
    simp [setByte, memset0, h0] <;> split_ifs <;> first | rfl | omega

theorem flagByte_or_syn (h : Header) (hs : h.syn = true) :
    (lowFlags h ||| 0x80) % 256 = flagByte h := by
  unfold flagByte lowFlags
  rw [hs]
  cases h.ack <;> cases h.rst <;> cases h.nul <;> cases h.busy <;> simp

theorem flagByte_noSyn (h : Header) (hs : h.syn = false) : lowFlags h = flagByte h := by
  unfold flagByte lowFlags
  rw [hs]
  cases h.ack <;> cases h.rst <;> cases h.nul <;> cases h.busy <;> simp

/-- The bytes of a SYN header before the checksum is written. -/
theorem writeFields_syn (h : Header) (data : Nat → Nat) (hs : h.syn = true) (j : Nat) :
    h.writeFields data 24 j = if j < 24 then (synBytes h).getD j 0 else data j := by
  have hf := flagByte_or_syn h hs
  unfold Header.writeFields
  rw [if_pos hs, writeFlags_eq h data 24 (by norm_num)]
  unfold Header.writeSyn synBytes verByte
  by_cases hj : j < 24
  · rw [if_pos hj]
    cases h.chk <;> interval_cases j <;> simp [setByte, setUInt16, hf]
  · rw [if_neg hj]
    obtain ⟨k, rfl⟩ : ∃ k, j = k + 24 := ⟨j - 24, by omega⟩
    cases h.chk <;> simp [setByte, setUInt16]

/-- The bytes of a header without SYN before the checksum is written. -/
theorem writeFields_noSyn (h : Header) (data : Nat → Nat) (hs : h.syn = false) (j : Nat) :
    h.writeFields data 8 j = if j < 8 then (plainBytes h).getD j 0 else data j := by
  have hf := flagByte_noSyn h hs
  unfold Header.writeFields plainBytes
  rw [hs, writeFlags_eq h data 8 (by norm_num)]
  by_cases hj : j < 8
  · rw [if_pos hj]
    interval_cases j <;> simp [hf]
  · rw [if_neg hj]
    obtain ⟨k, rfl⟩ : ∃ k, j = k + 8 := ⟨j - 8, by omega⟩
    simp

theorem size_eq (h : Header) : h.size = if h.syn then 24 else 8 := by
  unfold Header.size SynSize HeaderSize
  cases h.syn <;> rfl

theorem update_eq (h : Header) (buf : Buffer) (hroom : h.size ≤ buf.rawPayload) :
    h.update buf = some
      ({ buf with payload := if buf.payload = 0 then h.size else buf.payload,
                  data := h.wire buf.data },
       { h with count := (h.count + 1) % 2 ^ 32 }) := by
  unfold Header.update Header.wire
  simp only []
  rw [if_neg (by omega)]

theorem update_none (h : Header) (buf : Buffer) (hroom : buf.rawPayload < h.size) :
    h.update buf = none := by
  unfold Header.update
  simp only []
  rw [if_pos hroom]

theorem size_cases (h : Header) : (h.syn = false ∧ h.size = 8) ∨ (h.syn = true ∧ h.size = 24) := by
  rw [size_eq]
  cases h.syn <;> simp

/-- The bytes written by `update` before the checksum, for either header length. -/
theorem writeFields_apply (h : Header) (data : Nat → Nat) (j : Nat) :
    h.writeFields data h.size j =
      if j < h.size then (if h.syn then synBytes h else plainBytes h).getD j 0 else data j := by
  rcases size_cases h with ⟨hs, hz⟩ | ⟨hs, hz⟩
  · rw [hz, writeFields_noSyn h data hs, hs]; rfl
  · rw [hz, writeFields_syn h data hs, hs]; rfl

theorem synBytes_lt (h : Header) (j : Nat) : (synBytes h).getD j 0 < 256 := by
  have h1 := flagByte_lt h
  have h2 := verByte_lt h
  by_cases hj : j < 24
  · interval_cases j <;> simp [synBytes] <;> omega
  · obtain ⟨k, rfl⟩ : ∃ k, j = k + 24 := ⟨j - 24, by omega⟩
    simp [synBytes]

theorem plainBytes_lt (h : Header) (j : Nat) : (plainBytes h).getD j 0 < 256 := by
  have h1 := flagByte_lt h
  by_cases hj : j < 8
  · interval_cases j <;> simp [plainBytes] <;> omega
  · obtain ⟨k, rfl⟩ : ∃ k, j = k + 8 := ⟨j - 8, by omega⟩
    simp [plainBytes]

theorem writeFields_lt (h : Header) (data : Nat → Nat) (j : Nat) (hj : j < h.size) :
    h.writeFields data h.size j < 256 := by
  rw [writeFields_apply, if_pos hj]
  cases h.syn
  · exact plainBytes_lt h j
  · exact synBytes_lt h j

theorem compSum_lt (d : Nat → Nat) (size : Nat) : compSum d size < 65536 := by
  unfold compSum
  exact Nat.mod_lt _ (by norm_num)

/-- Below the checksum the final header bytes are the bytes written before it. -/
theorem wire_low (h : Header) (data : Nat → Nat) (j : Nat) (hj : j < h.size - 2) :
    h.wire data j = h.writeFields data h.size j := by
  unfold Header.wire setUInt16 setByte
  rw [if_neg (by omega), if_neg (by omega)]

/-- Past the header the buffer bytes are untouched. -/
theorem wire_high (h : Header) (data : Nat → Nat) (j : Nat) (hj : h.size ≤ j) :
    h.wire data j = data j := by
  have hz := size_cases h
  unfold Header.wire setUInt16 setByte
  rw [if_neg (by omega), if_neg (by omega), writeFields_apply, if_neg (by omega)]

theorem wire_sum_hi (h : Header) (data : Nat → Nat) :
    h.wire data (h.size - 2) = compSum (h.writeFields data h.size) h.size / 256 := by
  have hz := size_cases h
  have hc := compSum_lt (h.writeFields data h.size) h.size
  unfold Header.wire setUInt16 setByte
  rw [if_neg (by omega)]
  simp only [if_true]
  omega

theorem wire_sum_lo (h : Header) (data : Nat → Nat) :
    h.wire data (h.size - 1) = compSum (h.writeFields data h.size) h.size % 256 := by
  have hz := size_cases h
  have hc := compSum_lt (h.writeFields data h.size) h.size
  unfold Header.wire setUInt16 setByte
  rw [if_pos (by omega)]
  omega

theorem wire_lt (h : Header) (data : Nat → Nat) (j : Nat) (hj : j < h.size) :
    h.wire data j < 256 := by
  have hz := size_cases h
  have hc := compSum_lt (h.writeFields data h.size) h.size
  by_cases h1 : j < h.size - 2
  · rw [wire_low h data j h1]; exact writeFields_lt h data j hj
  · have h2 : j = h.size - 2 ∨ j = h.size - 1 := by omega
    rcases h2 with rfl | rfl
    · rw [wire_sum_hi]; omega
    · rw [wire_sum_lo]; omega

/-- `compSum` of an 8- or 24-byte header through the reference word sum. -/
theorem compSum_eq (d : Nat → Nat) (size : Nat) (hs : size = 8 ∨ size = 24)
    (hb : ∀ j, j < size - 2 → d j < 256) :
    compSum d size =
      65535 - (wordSum d ((size - 2) / 2) % 65536 + wordSum d ((size - 2) / 2) / 65536) % 65536 := by
  have hle := wordSum_le d ((size - 2) / 2) (fun j hj => hb j (by omega))
  have hn : (size - 2) / 2 ≤ 11 := by omega
  have hle2 : wordSum d ((size - 2) / 2) ≤ 65535 * 11 := by
    calc wordSum d ((size - 2) / 2) ≤ 65535 * ((size - 2) / 2) := hle
      _ ≤ 65535 * 11 := Nat.mul_le_mul_left _ hn
  unfold compSum
  simp only []
  rw [xor_ffff_mod, compSumLoop_eq_wordSum d size hs]
  generalize wordSum d ((size - 2) / 2) = S at hle2 ⊢
  omega

/-- `compSum` reads only the bytes before the checksum. -/
theorem compSum_congr (d e : Nat → Nat) (size : Nat) (hs : size = 8 ∨ size = 24)
    (h : ∀ j, j < size - 2 → d j = e j) : compSum d size = compSum e size := by
  unfold compSum
  simp only []
  rw [compSumLoop_eq_wordSum d size hs, compSumLoop_eq_wordSum e size hs,
    wordSum_congr d e ((size - 2) / 2) (fun j hj => h j (by omega))]

theorem size_or (h : Header) : h.size = 8 ∨ h.size = 24 := by
  rcases size_cases h with ⟨_, hz⟩ | ⟨_, hz⟩
  · exact Or.inl hz
  · exact Or.inr hz

/-- The checksum computed over the final header equals the one stored in it. -/
theorem compSum_wire (h : Header) (data : Nat → Nat) :
    compSum (h.wire data) h.size = compSum (h.writeFields data h.size) h.size :=
  compSum_congr _ _ _ (size_or h) (fun j hj => wire_low h data j hj)

theorem getUInt16_wire (h : Header) (data : Nat → Nat) :
    getUInt16 (h.wire data) (h.size - 2) = compSum (h.wire data) h.size := by
  have hz := size_or h
  have hc := compSum_lt (h.writeFields data h.size) h.size
  unfold getUInt16
  have e : h.size - 2 + 1 = h.size - 1 := by omega
  rw [e, wire_sum_hi, wire_sum_lo, compSum_wire]
  omega

theorem verByte_eq (h : Header) (hv : h.version < 16) :
    verByte h = (h.version <<< 4 ||| 0x08 ||| (if h.chk then 0x04 else 0)) := by
  unfold verByte
  generalize h.version = v at hv
  cases h.chk <;> interval_cases v <;> rfl

theorem verByte_version (h : Header) (hv : h.version < 16) : verByte h >>> 4 = h.version := by
  unfold verByte
  generalize h.version = v at hv
  cases h.chk <;> interval_cases v <;> rfl

theorem verByte_chk (h : Header) (hv : h.version < 16) : ((verByte h &&& 0x04) != 0) = h.chk := by
  unfold verByte
  generalize h.version = v at hv
  cases h.chk <;> interval_cases v <;> rfl

/-- Every byte of the final header before the checksum, by index. -/
theorem wire_byte (h : Header) (data : Nat → Nat) (j : Nat) (hj : j < h.size - 2) :
    h.wire data j = (if h.syn then synBytes h else plainBytes h).getD j 0 := by
  rw [wire_low h data j hj, writeFields_apply, if_pos (by omega)]

end rogue.protocols.rssi

/-! ## RSSI segment header: wire layout and checksum -/

namespace rogue.protocols.rssi

/-- C3 (RSSI wire layout): for a header with fields in range and, with SYN, `version < 16`, and a
buffer with room, `Header::update` succeeds and leaves byte 0 = the flag byte (SYN 0x80, ACK 0x40,
RST 0x10, NUL 0x08, BUSY 0x01), byte 1 = 8 or 24, byte 2 = sequence, byte 3 = acknowledge; without
SYN bytes 4 and 5 are 0; with SYN byte 4 = `(version << 4) | 0x08 | (chk ? 0x04 : 0)`, byte 5 =
maxOutstandingSegments, bytes 6-13 the four big-endian 16-bit fields, bytes 14, 15, 17, 18 the
remaining fields, bytes 16, 19, 20, 21 zero, and bytes 6-7 are 0x03 0xE8 for maxSegmentSize 1000. -/
theorem update_wire_layout (h : Header) (buf : Buffer) (hr : h.inRange)
    (hv : h.syn = true → h.version < 16) (hroom : h.size ≤ buf.rawPayload) :
    ∃ buf' h', h.update buf = some (buf', h') ∧
      buf'.data 0 = ((if h.syn then 0x80 else 0) ||| (if h.ack then 0x40 else 0) |||
        (if h.rst then 0x10 else 0) ||| (if h.nul then 0x08 else 0) |||
        (if h.busy then 0x01 else 0)) ∧
      buf'.data 1 = (if h.syn then 24 else 8) ∧
      buf'.data 2 = h.sequence ∧ buf'.data 3 = h.acknowledge ∧
      (h.syn = false → buf'.data 4 = 0 ∧ buf'.data 5 = 0) ∧
      (h.syn = true →
        buf'.data 4 = (h.version <<< 4 ||| 0x08 ||| (if h.chk then 0x04 else 0)) ∧
        buf'.data 5 = h.maxOutstandingSegments ∧
        buf'.data 6 = h.maxSegmentSize / 256 ∧ buf'.data 7 = h.maxSegmentSize % 256 ∧
        buf'.data 8 = h.retransmissionTimeout / 256 ∧
        buf'.data 9 = h.retransmissionTimeout % 256 ∧
        buf'.data 10 = h.cumulativeAckTimeout / 256 ∧
        buf'.data 11 = h.cumulativeAckTimeout % 256 ∧
        buf'.data 12 = h.nullTimeout / 256 ∧ buf'.data 13 = h.nullTimeout % 256 ∧
        buf'.data 14 = h.maxRetransmissions ∧ buf'.data 15 = h.maxCumulativeAck ∧
        buf'.data 16 = 0 ∧ buf'.data 17 = h.timeoutUnit ∧ buf'.data 18 = h.connectionId ∧
        buf'.data 19 = 0 ∧ buf'.data 20 = 0 ∧ buf'.data 21 = 0 ∧
        (h.maxSegmentSize = 1000 → buf'.data 6 = 0x03 ∧ buf'.data 7 = 0xE8)) := by
  obtain ⟨h1, h2, h3, h4, h5, h6, h7, h8, h9, h10, h11, h12⟩ := hr
  refine ⟨_, _, update_eq h buf hroom, ?_⟩
  simp only []
  rcases size_cases h with ⟨hs, hz⟩ | ⟨hs, hz⟩
  · have hb : ∀ j, j < 6 → h.wire buf.data j = (plainBytes h).getD j 0 := by
      intro j hj
      rw [wire_byte h buf.data j (by omega), hs]; rfl
    rw [hb 0 (by norm_num), hb 1 (by norm_num), hb 2 (by norm_num), hb 3 (by norm_num),
      hb 4 (by norm_num), hb 5 (by norm_num)]
    simp [plainBytes, flagByte, hs, Nat.mod_eq_of_lt h1, Nat.mod_eq_of_lt h2]
  · have hb : ∀ j, j < 22 → h.wire buf.data j = (synBytes h).getD j 0 := by
      intro j hj
      rw [wire_byte h buf.data j (by omega), hs]; rfl
    have hver := verByte_eq h (hv hs)
    rw [hb 0 (by norm_num), hb 1 (by norm_num), hb 2 (by norm_num), hb 3 (by norm_num),
      hb 4 (by norm_num), hb 5 (by norm_num), hb 6 (by norm_num), hb 7 (by norm_num),
      hb 8 (by norm_num), hb 9 (by norm_num), hb 10 (by norm_num), hb 11 (by norm_num),
      hb 12 (by norm_num), hb 13 (by norm_num), hb 14 (by norm_num), hb 15 (by norm_num),
      hb 16 (by norm_num), hb 17 (by norm_num), hb 18 (by norm_num), hb 19 (by norm_num),
      hb 20 (by norm_num), hb 21 (by norm_num)]
    simp only [synBytes, List.getD_cons_zero, List.getD_cons_succ, hver, flagByte, hs,
      Nat.mod_eq_of_lt h1, Nat.mod_eq_of_lt h2, Nat.mod_eq_of_lt h4, Nat.mod_eq_of_lt h5,
      Nat.mod_eq_of_lt h6, Nat.mod_eq_of_lt h7, Nat.mod_eq_of_lt h8, Nat.mod_eq_of_lt h9,
      Nat.mod_eq_of_lt h10, Nat.mod_eq_of_lt h11, Nat.mod_eq_of_lt h12]
    refine ⟨trivial, by simp, trivial, trivial, by simp, fun _ => ?_⟩
    refine ⟨trivial, trivial, by omega, trivial, by omega, trivial, by omega, trivial, by omega,
      trivial, trivial, trivial, trivial, trivial, trivial, trivial, trivial, trivial, ?_⟩
    intro hm
    omega

/-- Witness of `update_wire_layout`: the SYN header of the spec's scenario 4 serialises with
byte 1 = 24 and bytes 6-7 = 0x03 0xE8. -/
theorem update_wire_layout_witness :
    ∃ buf' h', synExample.update (emptyBuffer 24) = some (buf', h') ∧
      buf'.data 0 = 0x80 ∧ buf'.data 1 = 24 ∧ buf'.data 6 = 0x03 ∧ buf'.data 7 = 0xE8 := by
  obtain ⟨buf', h', hu, h0, h1, _, _, _, hsyn⟩ :=
    update_wire_layout synExample (emptyBuffer 24) (by decide) (by decide) (by decide)
  have hm := (hsyn rfl).2.2.2.2.2.2.2.2.2.2.2.2.2.2.2.2.2.2 rfl
  exact ⟨buf', h', hu, h0, h1, hm.1, hm.2⟩

/-- C4 (RSSI checksum value): after `Header::update` on a buffer with room, the last two header
bytes, read big-endian, are the low 16 bits of the bitwise NOT of
`(sum mod 2^16) + (sum div 2^16)`, `sum` being the sum of the big-endian 16-bit words of the header
bytes before the checksum: 3 words for an 8-byte header, 11 for a 24-byte SYN header. -/
theorem update_checksum_value (h : Header) (buf : Buffer)
    (hroom : (if h.syn then 24 else 8) ≤ buf.rawPayload) :
    ∃ buf' h', h.update buf = some (buf', h') ∧
      256 * buf'.data ((if h.syn then 24 else 8) - 2) + buf'.data ((if h.syn then 24 else 8) - 1) =
        not32 (wordSum buf'.data (if h.syn then 11 else 3) % 2 ^ 16 +
          wordSum buf'.data (if h.syn then 11 else 3) / 2 ^ 16) % 2 ^ 16 := by
  rw [← size_eq] at hroom
  refine ⟨_, _, update_eq h buf hroom, ?_⟩
  simp only []
  have hn : (if h.syn then 11 else 3) = (h.size - 2) / 2 := by
    rcases size_cases h with ⟨hs, hz⟩ | ⟨hs, hz⟩ <;> rw [hs, hz] <;> rfl
  rw [← size_eq, hn]
  have hz := size_or h
  have hg := getUInt16_wire h buf.data
  have hb : ∀ j, j < h.size - 2 → h.wire buf.data j < 256 :=
    fun j hj => wire_lt h buf.data j (by omega)
  rw [compSum_eq (h.wire buf.data) h.size hz hb] at hg
  have hle := wordSum_le (h.wire buf.data) ((h.size - 2) / 2) (fun j hj => hb j (by omega))
  have hle2 : wordSum (h.wire buf.data) ((h.size - 2) / 2) ≤ 65535 * 11 := by
    have hn2 : (h.size - 2) / 2 ≤ 11 := by omega
    calc wordSum (h.wire buf.data) ((h.size - 2) / 2) ≤ 65535 * ((h.size - 2) / 2) := hle
      _ ≤ 65535 * 11 := Nat.mul_le_mul_left _ hn2
  unfold getUInt16 at hg
  have e : h.size - 2 + 1 = h.size - 1 := by omega
  rw [e] at hg
  unfold not32
  generalize wordSum (h.wire buf.data) ((h.size - 2) / 2) = S at hg hle2 ⊢
  omega

/-- Witness of `update_checksum_value` at the SYN header of the spec's scenario 4: bytes 22-23
hold the folded, complemented sum of the eleven words before them. -/
theorem update_checksum_value_witness :
    ∃ buf' h', synExample.update (emptyBuffer 24) = some (buf', h') ∧
      256 * buf'.data 22 + buf'.data 23 =
        not32 (wordSum buf'.data 11 % 2 ^ 16 + wordSum buf'.data 11 / 2 ^ 16) % 2 ^ 16 :=
  update_checksum_value synExample (emptyBuffer 24) (by decide)

end rogue.protocols.rssi

/-! ## RSSI segment header: validation -/

namespace rogue.protocols.rssi

theorem decodeFlags_syn (h : Header) (d : Nat → Nat) :
    (h.decodeFlags d).syn = (d 0).testBit 7 := by
  unfold Header.decodeFlags
  exact and_two_pow_ne_zero (d 0) 7

theorem decodeFlags_size (h : Header) (d : Nat → Nat) :
    (h.decodeFlags d).size = if (d 0).testBit 7 then 24 else 8 := by
  rw [size_eq, decodeFlags_syn]

/-- The four checks of `verify`, read off the buffer. -/
theorem verify_checks (h : Header) (buf : Buffer) :
    (h.verify buf).1 = true ↔
      8 ≤ buf.payload ∧
      buf.data 1 = (if (buf.data 0).testBit 7 then 24 else 8) ∧
      (if (buf.data 0).testBit 7 then 24 else 8) ≤ buf.payload ∧
      256 * buf.data ((if (buf.data 0).testBit 7 then 24 else 8) - 2) +
          buf.data ((if (buf.data 0).testBit 7 then 24 else 8) - 1) =
        compSum buf.data (if (buf.data 0).testBit 7 then 24 else 8) := by
  have hsz := decodeFlags_size h buf.data
  unfold Header.verify
  simp only [HeaderSize]
  rw [hsz]
  generalize (if (buf.data 0).testBit 7 then 24 else 8) = L at *
  have hL : L = 8 ∨ L = 24 := by
    have := size_or (h.decodeFlags buf.data)
    rwa [hsz] at this
  have e : L - 2 + 1 = L - 1 := by omega
  unfold getUInt16
  rw [e]
  split_ifs <;> simp <;> omega

/-- C5: `Header::verify` returns true exactly when the payload is at least 8, byte 1 is 8 with
bit 7 of byte 0 clear and 24 with it set, the payload is at least that header length, and the
big-endian word in the last two header bytes equals `compSum` of the header. -/
theorem verify_true_iff (h : Header) (buf : Buffer) :
    (h.verify buf).1 = true ↔
      8 ≤ buf.payload ∧
      buf.data 1 = (if (buf.data 0).testBit 7 then 24 else 8) ∧
      (if (buf.data 0).testBit 7 then 24 else 8) ≤ buf.payload ∧
      256 * buf.data ((if (buf.data 0).testBit 7 then 24 else 8) - 2) +
          buf.data ((if (buf.data 0).testBit 7 then 24 else 8) - 1) =
        compSum buf.data (if (buf.data 0).testBit 7 then 24 else 8) :=
  verify_checks h buf

/-- The header object after a call of `verify` that passes every check. -/
theorem verify_ok (h : Header) (buf : Buffer) (hlen : 8 ≤ buf.payload)
    (h1 : buf.data 1 = (h.decodeFlags buf.data).size)
    (h2 : (h.decodeFlags buf.data).size ≤ buf.payload)
    (h3 : getUInt16 buf.data ((h.decodeFlags buf.data).size - 2) =
      compSum buf.data (h.decodeFlags buf.data).size) :
    h.verify buf =
      (true,
        if (h.decodeFlags buf.data).syn = false then
          { h.decodeFlags buf.data with sequence := buf.data 2, acknowledge := buf.data 3 }
        else
          Header.decodeSyn
            { h.decodeFlags buf.data with sequence := buf.data 2, acknowledge := buf.data 3 }
            buf.data) := by
  unfold Header.verify
  simp only [HeaderSize]
  rw [if_neg (by omega), if_neg (by simpa using h1), if_neg (by omega),
    if_neg (by simpa using h3)]
  split_ifs <;> rfl

/-- Decoding the flag byte written by `update` gives back the five flags. -/
theorem decodeFlags_flagByte (h0 h : Header) (d : Nat → Nat) (hd : d 0 = flagByte h) :
    (h0.decodeFlags d).syn = h.syn ∧ (h0.decodeFlags d).ack = h.ack ∧
      (h0.decodeFlags d).rst = h.rst ∧ (h0.decodeFlags d).nul = h.nul ∧
      (h0.decodeFlags d).busy = h.busy := by
  unfold Header.decodeFlags
  simp only [hd, flagByte]
  cases h.syn <;> cases h.ack <;> cases h.rst <;> cases h.nul <;> cases h.busy <;> simp <;> decide

theorem wire_zero (h : Header) (data : Nat → Nat) : h.wire data 0 = flagByte h := by
  rcases size_cases h with ⟨hs, hz⟩ | ⟨hs, hz⟩
  · rw [wire_byte h data 0 (by omega), hs]; rfl
  · rw [wire_byte h data 0 (by omega), hs]; rfl

theorem wire_one (h : Header) (data : Nat → Nat) : h.wire data 1 = h.size := by
  rcases size_cases h with ⟨hs, hz⟩ | ⟨hs, hz⟩
  · rw [wire_byte h data 1 (by omega), hs, hz]; rfl
  · rw [wire_byte h data 1 (by omega), hs, hz]; rfl

theorem decodeFlags_wire_size (h0 h : Header) (data : Nat → Nat) :
    (h0.decodeFlags (h.wire data)).size = h.size := by
  have hf := (decodeFlags_flagByte h0 h (h.wire data) (wire_zero h data)).1
  rw [size_eq, size_eq, hf]

/-- C1 (RSSI header round trip): for every header with fields in range (and `version < 16` with
SYN), every buffer with room for the header and payload 0, and every header object `h0` on the
receiving side, `Header::update` succeeds and `Header::verify` on `h0` over the written bytes
returns true and decodes the five flags, `sequence` and `acknowledge`, and with SYN every
SYN-only field, exactly as they were in the sent header. -/
theorem update_verify_roundtrip (h : Header) (buf : Buffer) (h0 : Header) (hr : h.inRange)
    (hv : h.syn = true → h.version < 16) (hroom : (if h.syn then 24 else 8) ≤ buf.rawPayload)
    (hp : buf.payload = 0) :
    ∃ buf' h', h.update buf = some (buf', h') ∧
      (h0.verify buf').1 = true ∧
      (h0.verify buf').2.syn = h.syn ∧ (h0.verify buf').2.ack = h.ack ∧
      (h0.verify buf').2.rst = h.rst ∧ (h0.verify buf').2.nul = h.nul ∧
      (h0.verify buf').2.busy = h.busy ∧ (h0.verify buf').2.sequence = h.sequence ∧
      (h0.verify buf').2.acknowledge = h.acknowledge ∧
      (h.syn = true →
        (h0.verify buf').2.version = h.version ∧ (h0.verify buf').2.chk = h.chk ∧
        (h0.verify buf').2.maxOutstandingSegments = h.maxOutstandingSegments ∧
        (h0.verify buf').2.maxSegmentSize = h.maxSegmentSize ∧
        (h0.verify buf').2.retransmissionTimeout = h.retransmissionTimeout ∧
        (h0.verify buf').2.cumulativeAckTimeout = h.cumulativeAckTimeout ∧
        (h0.verify buf').2.nullTimeout = h.nullTimeout ∧
        (h0.verify buf').2.maxRetransmissions = h.maxRetransmissions ∧
        (h0.verify buf').2.maxCumulativeAck = h.maxCumulativeAck ∧
        (h0.verify buf').2.timeoutUnit = h.timeoutUnit ∧
        (h0.verify buf').2.connectionId = h.connectionId) := by
  obtain ⟨r1, r2, r3, r4, r5, r6, r7, r8, r9, r10, r11, r12⟩ := hr
  rw [← size_eq] at hroom
  refine ⟨_, _, update_eq h buf hroom, ?_⟩
  have hz := size_cases h
  have hds := decodeFlags_wire_size h0 h buf.data
  obtain ⟨f1, f2, f3, f4, f5⟩ := decodeFlags_flagByte h0 h (h.wire buf.data) (wire_zero h buf.data)
  rw [verify_ok h0 _ (by simp only [hp, if_true]; omega)
    (by simp only []; rw [hds, wire_one])
    (by simp only [hp, if_true]; rw [hds])
    (by simp only []; rw [hds, getUInt16_wire])]
  simp only []
  rcases hz with ⟨hs, hz⟩ | ⟨hs, hz⟩
  · have hb : ∀ j, j < 6 → h.wire buf.data j = (plainBytes h).getD j 0 := by
      intro j hj
      rw [wire_byte h buf.data j (by omega), hs]; rfl
    rw [f1, hs]
    simp only [if_true, f2, f3, f4, f5, hb 2 (by norm_num), hb 3 (by norm_num)]
    simp [plainBytes, Nat.mod_eq_of_lt r1, Nat.mod_eq_of_lt r2]
  · have hb : ∀ j, j < 22 → h.wire buf.data j = (synBytes h).getD j 0 := by
      intro j hj
      rw [wire_byte h buf.data j (by omega), hs]; rfl
    have hv1 := verByte_version h (hv hs)
    have hv2 := verByte_chk h (hv hs)
    rw [f1, hs]
    simp only [Bool.true_eq_false, if_false, Header.decodeSyn, getUInt16, f2, f3, f4, f5,
      hb 2 (by norm_num), hb 3 (by norm_num),
      hb 4 (by norm_num), hb 5 (by norm_num), hb 6 (by norm_num), hb 7 (by norm_num),
      hb 8 (by norm_num), hb 9 (by norm_num), hb 10 (by norm_num), hb 11 (by norm_num),
      hb 12 (by norm_num), hb 13 (by norm_num), hb 14 (by norm_num), hb 15 (by norm_num),
      hb 17 (by norm_num), hb 18 (by norm_num)]
    simp only [synBytes, List.getD_cons_zero, List.getD_cons_succ, hv1, hv2,
      Nat.mod_eq_of_lt r1, Nat.mod_eq_of_lt r2, Nat.mod_eq_of_lt r4, Nat.mod_eq_of_lt r5,
      Nat.mod_eq_of_lt r6, Nat.mod_eq_of_lt r7, Nat.mod_eq_of_lt r8, Nat.mod_eq_of_lt r9,
      Nat.mod_eq_of_lt r10, Nat.mod_eq_of_lt r11, Nat.mod_eq_of_lt r12]
    refine ⟨trivial, trivial, trivial, trivial, trivial, trivial, trivial, trivial, fun _ => ?_⟩
    refine ⟨trivial, trivial, trivial, ?_, ?_, ?_, ?_, trivial, trivial, trivial, trivial⟩ <;> omega

/-- Witness of `update_verify_roundtrip` at the SYN header of the spec's scenario 4, decoded by
a fresh header object. -/
theorem update_verify_roundtrip_witness :
    ∃ buf' h', synExample.update (emptyBuffer 24) = some (buf', h') ∧
      (freshHeader.verify buf').1 = true ∧ (freshHeader.verify buf').2.syn = true ∧
      (freshHeader.verify buf').2.sequence = 5 ∧
      (freshHeader.verify buf').2.maxSegmentSize = 1000 ∧
      (freshHeader.verify buf').2.connectionId = 7 := by
  obtain ⟨buf', h', hu, hv, hsyn, _, _, _, _, hseq, _, hrest⟩ :=
    update_verify_roundtrip synExample (emptyBuffer 24) freshHeader (by decide) (by decide)
      (by decide) rfl
  exact ⟨buf', h', hu, hv, hsyn, hseq, (hrest rfl).2.2.2.1, (hrest rfl).2.2.2.2.2.2.2.2.2.2⟩

/-- C6, counterexample: on a buffer with 8 payload bytes whose length byte is wrong, `verify`
returns false and has nevertheless overwritten the flag `ack` (false before, true after). -/
theorem verify_false_changes_ack :
    (freshHeader.verify ackOnlyBuffer).1 = false ∧ freshHeader.ack = false ∧
      (freshHeader.verify ackOnlyBuffer).2.ack = true := by
  decide

/-- C6, amended: whenever `Header::verify` returns false, `sequence`, `acknowledge`, every
SYN-only field and the send count keep their values; the five flags keep their values when the
payload is below 8, and otherwise hold bits 7, 6, 4, 3 and 0 of byte 0. -/
theorem verify_false_fields (h : Header) (buf : Buffer) (hf : (h.verify buf).1 = false) :
    (h.verify buf).2.sequence = h.sequence ∧ (h.verify buf).2.acknowledge = h.acknowledge ∧
      (h.verify buf).2.version = h.version ∧ (h.verify buf).2.chk = h.chk ∧
      (h.verify buf).2.maxOutstandingSegments = h.maxOutstandingSegments ∧
      (h.verify buf).2.maxSegmentSize = h.maxSegmentSize ∧
      (h.verify buf).2.retransmissionTimeout = h.retransmissionTimeout ∧
      (h.verify buf).2.cumulativeAckTimeout = h.cumulativeAckTimeout ∧
      (h.verify buf).2.nullTimeout = h.nullTimeout ∧
      (h.verify buf).2.maxRetransmissions = h.maxRetransmissions ∧
      (h.verify buf).2.maxCumulativeAck = h.maxCumulativeAck ∧
      (h.verify buf).2.timeoutUnit = h.timeoutUnit ∧
      (h.verify buf).2.connectionId = h.connectionId ∧
      (h.verify buf).2.count = h.count ∧
      (buf.payload < 8 → (h.verify buf).2 = h) ∧
      (8 ≤ buf.payload →
        (h.verify buf).2.syn = (buf.data 0).testBit 7 ∧
        (h.verify buf).2.ack = (buf.data 0).testBit 6 ∧
        (h.verify buf).2.rst = (buf.data 0).testBit 4 ∧
        (h.verify buf).2.nul = (buf.data 0).testBit 3 ∧
        (h.verify buf).2.busy = (buf.data 0).testBit 0) := by
  have b7 := and_two_pow_ne_zero (buf.data 0) 7
  have b6 := and_two_pow_ne_zero (buf.data 0) 6
  have b4 := and_two_pow_ne_zero (buf.data 0) 4
  have b3 := and_two_pow_ne_zero (buf.data 0) 3
  have b0 := and_two_pow_ne_zero (buf.data 0) 0
  norm_num at b7 b6 b4 b3 b0
  unfold Header.verify at hf ⊢
  simp only [HeaderSize] at hf ⊢
  by_cases hp : buf.payload < 8
  · rw [if_pos hp]
    simp [hp]
  · rw [if_neg hp] at hf ⊢
    have hp2 : 8 ≤ buf.payload := by omega
    split_ifs at hf ⊢ <;>
      first
      | (exfalso; simp at hf; done)
      | simp [Header.decodeFlags, hp, hp2, b7, b6, b4, b3, b0]

/-- Witness of `verify_false_fields`: the rejected 8-byte buffer with flag byte 0x40. -/
theorem verify_false_fields_witness :
    (freshHeader.verify ackOnlyBuffer).1 = false ∧
      (freshHeader.verify ackOnlyBuffer).2.sequence = freshHeader.sequence ∧
      (freshHeader.verify ackOnlyBuffer).2.ack = (ackOnlyBuffer.data 0).testBit 6 :=
  ⟨by decide, (verify_false_fields freshHeader ackOnlyBuffer (by decide)).1,
    ((verify_false_fields freshHeader ackOnlyBuffer (by decide)).2.2.2.2.2.2.2.2.2.2.2.2.2.2.2
      (by decide)).2.1⟩

theorem wordSum_succ (d : Nat → Nat) (n : Nat) :
    wordSum d (n + 1) = wordSum d n + (256 * d (2 * n) + d (2 * n + 1)) := by
  unfold wordSum
  rw [List.range_succ, List.map_append, List.sum_append]
  simp

theorem alterByte_ne (d : Nat → Nat) (i v j : Nat) (hj : j ≠ i) : alterByte d i v j = d j := by
  unfold alterByte
  rw [if_neg hj]

theorem alterByte_same (d : Nat → Nat) (i v : Nat) : alterByte d i v i = v := by
  unfold alterByte
  rw [if_pos rfl]

/-- Changing one byte below `2 * n` moves the word sum by the change, times 256 for a high
byte. -/
theorem wordSum_alter (d : Nat → Nat) (i v n : Nat) (hi : i < 2 * n) :
    wordSum (alterByte d i v) n + d i * (if i % 2 = 0 then 256 else 1) =
      wordSum d n + v * (if i % 2 = 0 then 256 else 1) := by
  induction n with
  | zero => omega
  | succ n ih =>
    rw [wordSum_succ, wordSum_succ]
    by_cases h1 : i < 2 * n
    · have ih1 := ih h1
      rw [alterByte_ne d i v (2 * n) (by omega), alterByte_ne d i v (2 * n + 1) (by omega)]
      omega
    · have hc := wordSum_congr (alterByte d i v) d n
        (fun j hj => alterByte_ne d i v j (by omega))
      rw [hc]
      have h2 : i = 2 * n ∨ i = 2 * n + 1 := by omega
      rcases h2 with rfl | rfl
      · rw [alterByte_same, alterByte_ne d (2 * n) v (2 * n + 1) (by omega),
          if_pos (by omega)]
        omega
      · rw [alterByte_same, alterByte_ne d (2 * n + 1) v (2 * n) (by omega),
          if_neg (by omega)]
        omega

/-- Two word sums of at most eleven words that differ by the change of one byte have different
folded checksums. -/
theorem fold_alter_ne (S S' x v m : Nat) (hS : S ≤ 65535 * 11) (hS' : S' ≤ 65535 * 11)
    (hm : m = 256 ∨ m = 1) (hx : x < 256) (hv : v < 256) (hne : v ≠ x)
    (hrel : S' + x * m = S + v * m) :
    65535 - (S % 65536 + S / 65536) % 65536 ≠ 65535 - (S' % 65536 + S' / 65536) % 65536 := by
  have e1 := Nat.div_add_mod S 65536
  have e2 := Nat.div_add_mod S' 65536
  have l1 := Nat.mod_lt S (show 0 < 65536 by norm_num)
  have l2 := Nat.mod_lt S' (show 0 < 65536 by norm_num)
  have b1 : S / 65536 ≤ 10 := by omega
  have b2 : S' / 65536 ≤ 10 := by omega
  generalize S / 65536 = q at *
  generalize S' / 65536 = q' at *
  generalize S % 65536 = r at *
  generalize S' % 65536 = r' at *
  have f1 : (r + q) % 65536 = if r + q < 65536 then r + q else r + q - 65536 := by
    split_ifs <;> omega
  have f2 : (r' + q') % 65536 = if r' + q' < 65536 then r' + q' else r' + q' - 65536 := by
    split_ifs <;> omega
  rw [f1, f2]
  rcases hm with rfl | rfl
  · split_ifs <;> omega
  · split_ifs <;> omega

theorem testBit_flagByte (h : Header) : (flagByte h).testBit 7 = h.syn := by
  have h1 := decodeFlags_syn h (fun _ => flagByte h)
  have h2 := (decodeFlags_flagByte h h (fun _ => flagByte h) rfl).1
  rw [← h1, h2]

/-- C2 (RSSI rejection): for every header written by `Header::update` into a buffer with room,
every byte index `i` below the header length and every byte value `v` different from the byte at
`i`, `Header::verify` (on any header object `h0`) returns false on the buffer with byte `i`
replaced by `v`.  The payload is whatever `update` left (the header length when it was 0). -/
theorem verify_rejects_altered (h : Header) (buf : Buffer)
    (hroom : (if h.syn then 24 else 8) ≤ buf.rawPayload) :
    ∃ buf' h', h.update buf = some (buf', h') ∧
      ∀ (i v : Nat) (h0 : Header), i < (if h.syn then 24 else 8) → v < 256 → v ≠ buf'.data i →
        (h0.verify { buf' with data := alterByte buf'.data i v }).1 = false := by
  rw [← size_eq] at hroom ⊢
  refine ⟨_, _, update_eq h buf hroom, ?_⟩
  intro i v h0 hi hv hne
  simp only [] at hne ⊢
  have hz := size_or h
  by_contra hcon
  rw [Bool.not_eq_false, verify_checks] at hcon
  obtain ⟨_, c1, _, c3⟩ := hcon
  simp only [] at c1 c3
  have hw1 := wire_one h buf.data
  have hw0 := wire_zero h buf.data
  have hbit := testBit_flagByte h
  -- the header length decoded from the altered bytes is the one written
  have hL : (if (alterByte (h.wire buf.data) i v 0).testBit 7 then 24 else 8) = h.size := by
    by_cases hi1 : i = 1
    · subst hi1
      exfalso
      have ha0 : alterByte (h.wire buf.data) 1 v 0 = flagByte h := by
        rw [alterByte_ne _ 1 v 0 (by omega), hw0]
      simp only [alterByte_same, ha0, hbit] at c1
      rw [← size_eq] at c1
      exact hne (by rw [c1, hw1])
    · rw [alterByte_ne _ i v 1 (by omega), hw1] at c1
      exact c1.symm
  rw [hL] at c1 c3
  have hi1 : i ≠ 1 := by
    rintro rfl
    rw [alterByte_same] at c1
    exact hne (by rw [c1, hw1])
  have hg := getUInt16_wire h buf.data
  unfold getUInt16 at hg
  have e : h.size - 2 + 1 = h.size - 1 := by omega
  rw [e] at hg
  have hwlt := wire_lt h buf.data
  by_cases hlow : i < h.size - 2
  · -- a byte under the checksum: the stored word is unchanged, the computed sum moves
    rw [alterByte_ne _ i v (h.size - 2) (by omega), alterByte_ne _ i v (h.size - 1) (by omega)]
      at c3
    have hba : ∀ j, j < h.size - 2 → alterByte (h.wire buf.data) i v j < 256 := by
      intro j hj
      by_cases hji : j = i
      · rw [hji, alterByte_same]; exact hv
      · rw [alterByte_ne _ i v j hji]; exact hwlt j (by omega)
    have hbw : ∀ j, j < h.size - 2 → h.wire buf.data j < 256 := fun j hj => hwlt j (by omega)
    rw [compSum_eq _ h.size hz hba] at c3
    rw [compSum_eq _ h.size hz hbw] at hg
    have hn2 : (h.size - 2) / 2 ≤ 11 := by omega
    have hle := le_trans (wordSum_le _ ((h.size - 2) / 2) (fun j hj => hbw j (by omega)))
      (Nat.mul_le_mul_left 65535 hn2)
    have hle' := le_trans (wordSum_le _ ((h.size - 2) / 2) (fun j hj => hba j (by omega)))
      (Nat.mul_le_mul_left 65535 hn2)
    have hrel := wordSum_alter (h.wire buf.data) i v ((h.size - 2) / 2) (by omega)
    have hm : (if i % 2 = 0 then 256 else 1) = 256 ∨ (if i % 2 = 0 then 256 else 1) = 1 := by
      split_ifs
      · exact Or.inl rfl
      · exact Or.inr rfl
    exact fold_alter_ne _ _ _ _ _ hle hle' hm (hwlt i hi) hv hne hrel (by omega)
  · -- a checksum byte: the computed sum is unchanged, the stored word moves
    have hcs : compSum (alterByte (h.wire buf.data) i v) h.size =
        compSum (h.wire buf.data) h.size :=
      compSum_congr _ _ _ hz (fun j hj => alterByte_ne _ i v j (by omega))
    rw [hcs, ← hg] at c3
    have hx := hwlt i hi
    have hcase : i = h.size - 2 ∨ i = h.size - 1 := by omega
    rcases hcase with rfl | rfl
    · rw [alterByte_same, alterByte_ne _ _ v (h.size - 1) (by omega)] at c3
      omega
    · rw [alterByte_same, alterByte_ne _ _ v (h.size - 2) (by omega)] at c3
      omega

/-- Witness of `verify_rejects_altered` at the SYN header of the spec's scenario 4. -/
theorem verify_rejects_altered_witness :
    ∃ buf' h', synExample.update (emptyBuffer 24) = some (buf', h') ∧
      ∀ (i v : Nat) (h0 : Header), i < 24 → v < 256 → v ≠ buf'.data i →
        (h0.verify { buf' with data := alterByte buf'.data i v }).1 = false :=
  verify_rejects_altered synExample (emptyBuffer 24) (by decide)

end rogue.protocols.rssi

/-! ## Memory fabric: Hub -/

namespace rogue.interfaces.memory

/-- Or-ing an offset in before or after the offsets of the hubs below gives the same address. -/
theorem foldr_or_shift (offs : List Nat) (o a : Nat) :
    offs.foldr (fun o x => o ||| x) (o ||| a) = o ||| offs.foldr (fun o x => o ||| x) a := by
  induction offs with
  | nil => rfl
  | cons p offs ih =>
    simp only [List.foldr_cons, ih]
    rw [← Nat.or_assoc, ← Nat.or_assoc, Nat.or_comm p o]

/-- A stack of hubs over an endpoint delivers exactly one transaction, with every offset or-ed
into the address. -/
theorem hubStack_doTransaction (offs : List Nat) (id master a n t : Nat) :
    (hubStack offs).doTransaction
        { id := id, master := master, address := a, size := n, type := t } =
      [{ id := id, master := master, address := offs.foldr (fun o x => o ||| x) a,
         size := n, type := t }] := by
  induction offs generalizing a with
  | nil => rfl
  | cons o offs ih =>
    simp only [hubStack, Slave.doTransaction, Hub.doTransaction, List.flatMap_cons,
      List.flatMap_nil, List.append_nil, List.foldr_cons]
    rw [ih, foldr_or_shift]

/-- The address a hub puts out stays a 64-bit value. -/
theorem hub_address_lt (off a : Nat) (ho : off < 2 ^ 64) (ha : a < 2 ^ 64) :
    off ||| a < 2 ^ 64 :=
  Nat.or_lt_two_pow ho ha

/-- C7 (Hub address composition): `Hub::doTransaction(id, master, a, n, t)` of a hub with offset
`off` makes exactly one downstream call, with address `off | a` and with id, master, size and
type unchanged; a stack of hubs with offsets `offs` over an endpoint delivers exactly one
transaction, whose address is `off1 | (off2 | ... (offk | a))`. -/
theorem hub_address_composition (off id master a n t : Nat) (offs : List Nat) :
    Hub.doTransaction off id master a n t =
        [{ id := id, master := master, address := off ||| a, size := n, type := t }] ∧
      (hubStack offs).doTransaction
          { id := id, master := master, address := a, size := n, type := t } =
        [{ id := id, master := master, address := offs.foldr (fun o x => o ||| x) a,
           size := n, type := t }] :=
  ⟨rfl, hubStack_doTransaction offs id master a n t⟩

end rogue.interfaces.memory

/-! ## Memory fabric: mapped-memory backend -/

namespace rogue.hardware.rce

/-- A hit of `findSpace` comes from a window that passes the test of the code, and is that
window's pointer advanced by `base - m.base`. -/
theorem findSpace_some (maps : List Map) (base size ptr : Nat)
    (h : findSpace maps base size = some ptr) :
    ∃ m ∈ maps, m.base ≤ base ∧ ((base - m.base) + size) % 2 ^ 32 < m.size ∧
      ptr = m.ptr + (base - m.base) := by
  induction maps with
  | nil => simp [findSpace] at h
  | cons m maps ih =>
    unfold findSpace at h
    split_ifs at h with hc
    · exact ⟨m, List.mem_cons_self _ _, hc.1, hc.2, (Option.some.inj h).symm⟩
    · obtain ⟨m', hm', hr⟩ := ih h
      exact ⟨m', List.mem_cons_of_mem _ hm', hr⟩

/-- A miss of `findSpace` means that no window passes the test of the code. -/
theorem findSpace_none (maps : List Map) (base size : Nat)
    (h : findSpace maps base size = none) :
    ∀ m ∈ maps, ¬ (m.base ≤ base ∧ ((base - m.base) + size) % 2 ^ 32 < m.size) := by
  induction maps with
  | nil => intro m hm; simp at hm
  | cons m maps ih =>
    unfold findSpace at h
    split_ifs at h with hc
    intro m' hm'
    rcases List.mem_cons.mp hm' with rfl | hin
    · exact hc
    · exact ih h m' hin

/-- C8, the code at the end of a window: a 4-byte transaction at 0x40010FFC lies wholly inside
the window `[0x40010000, 0x40011000)` and ends exactly at its end, yet `findSpace` returns no
window and `doTransaction` completes with `AddressError` without any data call; the same
transaction four bytes lower is a hit. -/
theorem findSpace_misses_window_end (c : Constants) (fuel id type : Nat) :
    windowExample.covers 0x40010FFC 4 ∧
      findSpace [windowExample] 0x40010FFC 4 = none ∧
      doTransaction c [windowExample] fuel id 0x40010FFC 4 type =
        some [MasterCall.doneTransaction id c.AddressError] ∧
      findSpace [windowExample] 0x40010FF8 4 = some (0x7000 + 0xFF8) := by
  refine ⟨by decide, by decide, ?_, by decide⟩
  have h : findSpace [windowExample] (0x40010FFC % 2 ^ 32) 4 = none := by decide
  unfold doTransaction
  rw [h]

/-- C9, the code on a range that wraps around 32 bits or needs more than 32 address bits: no
window covers `[0xFFFFFFFE, 0xFFFFFFFE + 4)` or `[0x100000000, 0x100000000 + 4)`, yet
`doTransaction` makes a data call on memory at (or 0xFFFFFFFE past) the window pointer and
completes with status 0. -/
theorem doTransaction_wraps (c : Constants) (fuel id type : Nat) :
    ¬ lowWindow.covers 0xFFFFFFFE 4 ∧ ¬ lowWindow.covers 0x100000000 4 ∧
      doTransaction c [lowWindow] (fuel + 2) id 0xFFFFFFFE 4 type =
        some [dataCall c id (0x7000 + 0xFFFFFFFE) type 0, MasterCall.doneTransaction id 0] ∧
      doTransaction c [lowWindow] (fuel + 2) id 0x100000000 4 type =
        some [dataCall c id 0x7000 type 0, MasterCall.doneTransaction id 0] := by
  refine ⟨by decide, by decide, ?_, ?_⟩
  · have h : findSpace [lowWindow] (0xFFFFFFFE % 2 ^ 32) 4 = some (0x7000 + 0xFFFFFFFE) := by
      decide
    unfold doTransaction
    rw [h]
    simp [transferLoop, dataCall]
  · have h : findSpace [lowWindow] (0x100000000 % 2 ^ 32) 4 = some 0x7000 := by decide
    unfold doTransaction
    rw [h]
    simp [transferLoop, dataCall]

/-- Past 0xFFFFFFFC the counter of the transfer loop wraps to 0 before it reaches `size`: the
loop condition holds at every test, so the loop has not ended after any number of tests. -/
theorem transferLoop_none (c : Constants) (id ptr size type : Nat) (hs : 0xFFFFFFFC < size) :
    ∀ fuel count, count < 2 ^ 32 → count % 4 = 0 →
      transferLoop c id ptr size type fuel count = none := by
  intro fuel
  induction fuel with
  | zero => intro count _ _; rfl
  | succ fuel ih =>
    intro count hc h4
    have hlt : count < size := by omega
    have hnext := ih ((count + 4) % 2 ^ 32) (Nat.mod_lt _ (by norm_num)) (by omega)
    simp only [transferLoop, if_pos hlt, hnext, Option.map_none']

/-- Up to 0xFFFFFFFC the transfer loop ends: started at count `4 * i` with `m` iterations to go
and more than `m` tests of fuel, it makes the data calls `i, ..., i + m - 1`. -/
theorem transferLoop_some (c : Constants) (id ptr size type : Nat) (hs : size ≤ 0xFFFFFFFC) :
    ∀ m i fuel, i + m = (size + 3) / 4 → m < fuel →
      transferLoop c id ptr size type fuel (4 * i) =
        some ((List.range' i m).map (dataCall c id ptr type)) := by
  intro m
  induction m with
  | zero =>
    intro i fuel hi hf
    obtain ⟨f, rfl⟩ : ∃ f, fuel = f + 1 := ⟨fuel - 1, by omega⟩
    have hge : ¬ 4 * i < size := by omega
    simp only [transferLoop, if_neg hge, List.range'_zero, List.map_nil]
  | succ m ih =>
    intro i fuel hi hf
    obtain ⟨f, rfl⟩ : ∃ f, fuel = f + 1 := ⟨fuel - 1, by omega⟩
    have hlt : 4 * i < size := by omega
    have hnext : (4 * i + 4) % 2 ^ 32 = 4 * (i + 1) := by omega
    have hrec := ih (i + 1) f (by omega) (by omega)
    simp only [transferLoop, if_pos hlt, hnext, hrec, Option.map_some', List.range'_succ,
      List.map_cons, dataCall]

/-- The transfer of a hit of at most 0xFFFFFFFC bytes: `ceil(size / 4)` data calls, the `i`-th
with offset `4 * i`, width 4 and pointer `ptr + 4 * i`, then `doneTransaction(id, 0)`; a miss is
the single call `doneTransaction(id, AddressError)`. -/
theorem doTransaction_calls (c : Constants) (maps : List Map) (fuel id address size type : Nat)
    (hs : size ≤ 0xFFFFFFFC) (hf : (size + 3) / 4 < fuel) :
    doTransaction c maps fuel id address size type =
      match findSpace maps (address % 2 ^ 32) size with
      | none => some [MasterCall.doneTransaction id c.AddressError]
      | some ptr =>
        some ((List.range ((size + 3) / 4)).map (dataCall c id ptr type) ++
          [MasterCall.doneTransaction id 0]) := by
  unfold doTransaction
  cases findSpace maps (address % 2 ^ 32) size with
  | none => rfl
  | some ptr =>
    have h := transferLoop_some c id ptr size type hs ((size + 3) / 4) 0 fuel (by omega) hf
    simp only [Nat.mul_zero] at h
    simp only [h, Option.map_some', List.range_eq_range']

/-- C10, the code on a hit of more than 0xFFFFFFFC bytes: the range `[0, 0xFFFFFFFD)` lies in
the window `[0, 0xFFFFFFFF)`, `findSpace` returns the window, and then the transfer loop never
ends, whatever the number of tests allowed: `doneTransaction` is never called. -/
theorem doTransaction_never_completes (c : Constants) (fuel id type : Nat) :
    fullWindow.covers 0 0xFFFFFFFD ∧
      findSpace [fullWindow] (0 % 2 ^ 32) 0xFFFFFFFD = some 0x7000 ∧
      doTransaction c [fullWindow] fuel id 0 0xFFFFFFFD type = none := by
  have h : findSpace [fullWindow] (0 % 2 ^ 32) 0xFFFFFFFD = some 0x7000 := by decide
  refine ⟨by decide, h, ?_⟩
  unfold doTransaction
  rw [h]
  simp only [transferLoop_none c id 0x7000 0xFFFFFFFD type (by norm_num) fuel 0 (by norm_num)
    (by norm_num), Option.map_none']

end rogue.hardware.rce

/-! ## Stream pool: supporting lemmas -/

namespace rogue.interfaces.stream

/-- The result of `allocBuffer` when a region is at hand: the front of the queue, or else the
non-`NULL` result of `malloc`. -/
theorem allocBuffer_eq (p : Pool) (size mallocResult : Nat) (total : Option Nat)
    (h : p.dataQ ≠ [] ∨ mallocResult ≠ 0) :
    p.allocBuffer size total mallocResult =
      .ok ({ p with
              dataQ := p.dataQ.tail
              allocMeta := ((p.allocMeta + 1) % 2 ^ 32) &&& 0xFFFFFF
              allocBytes := (p.allocBytes + p.allocSizeOf size) % 2 ^ 32
              allocCount := (p.allocCount + 1) % 2 ^ 32 },
           Buffer.create (p.dataQ.headD mallocResult) p.allocMeta (p.bufSizeOf size)
             (p.allocSizeOf size),
           total.map (fun t => (t + p.bufSizeOf size) % 2 ^ 32)) := by
  unfold Pool.allocBuffer Pool.allocSizeOf Pool.bufSizeOf
  cases hq : p.dataQ with
  | nil =>
    have hm : mallocResult ≠ 0 := by
      rcases h with h | h
      · exact absurd hq h
      · exact h
    simp [hm]
  | cons d q => simp

/-- A failed `malloc` on an empty queue throws and changes nothing. -/
theorem allocBuffer_error (p : Pool) (size : Nat) (total : Option Nat) (hq : p.dataQ = []) :
    p.allocBuffer size total 0 = .error (GeneralError.allocation (p.allocSizeOf size)) := by
  unfold Pool.allocBuffer Pool.allocSizeOf
  simp [hq]

/-- The mask `& 0xFFFFFF` of the meta counter is the remainder modulo `2 ^ 24`. -/
theorem and_ffffff (x : Nat) : x &&& 0xFFFFFF = x % 2 ^ 24 := by
  have h : (0xFFFFFF : Nat) = 2 ^ 24 - 1 := by norm_num
  rw [h, Nat.and_pow_two_sub_one_eq_mod]

end rogue.interfaces.stream

/-! ## Stream pool: fixed-size mode and frame requests -/

namespace rogue.interfaces.stream

/-- After a first `enBufferPool` with a size other than 0, a second call throws. -/
theorem enBufferPool_once (p p1 : Pool) (size count size2 count2 : Nat) (hsize : size ≠ 0)
    (h : p.enBufferPool size count = some p1) : p1.enBufferPool size2 count2 = none := by
  unfold Pool.enBufferPool at h ⊢
  split_ifs at h with h0
  have hp : p1.fixedSize = size := by
    rw [← Option.some.inj h]
  rw [if_pos (by rw [hp]; exact hsize)]

/-- C14, the code at size 0: on a new pool `enBufferPool(0, 4)` returns, and the second call
`enBufferPool(1024, 2)` returns as well instead of throwing "Method can only be called once!",
changing the fixed size from 0 to 1024 and the maximum queue count from 4 to 2. -/
theorem enBufferPool_twice_at_zero :
    Pool.create.enBufferPool 0 4 = some { Pool.create with fixedSize := 0, maxCount := 4 } ∧
      Pool.enBufferPool { Pool.create with fixedSize := 0, maxCount := 4 } 1024 2 =
        some { Pool.create with fixedSize := 1024, maxCount := 2 } := by
  decide

/-- The loop of `acceptReq` when the running total cannot wrap and `malloc` never fails: from a
total of `j * b` with `m - j` buffers to go, it ends with `m` buffers in the frame, the new ones
of size `b` each, where `b` is the clamped buffer size. -/
theorem acceptReqLoop_ok (size bSize b : Nat) (heap : Nat → Nat) (hheap : ∀ k, heap k ≠ 0)
    (hb : 0 < b) (hwrap : (size + b - 1) / b * b < 2 ^ 32) :
    ∀ (togo fuel : Nat) (p : Pool) (frame : List Buffer),
      p.bufSizeOf bSize = b → frame.length + togo = (size + b - 1) / b → togo < fuel →
      ∃ p1 more, Pool.acceptReqLoop size bSize heap fuel p frame (frame.length * b) =
          some (.ok (p1, frame ++ more)) ∧
        more.length = togo ∧ (∀ buf ∈ more, buf.rawSize = b) ∧ p1.fixedSize = p.fixedSize := by
  intro togo
  induction togo with
  | zero =>
    intro fuel p frame _ hlen hf
    obtain ⟨f, rfl⟩ : ∃ f, fuel = f + 1 := ⟨fuel - 1, by omega⟩
    have hge : ¬ frame.length * b < size := by
      rw [Nat.add_zero] at hlen
      rw [hlen]
      have := Nat.div_add_mod (size + b - 1) b
      have := Nat.mod_lt (size + b - 1) hb
      rw [Nat.mul_comm]
      omega
    refine ⟨p, [], ?_, rfl, by simp, rfl⟩
    simp only [Pool.acceptReqLoop, if_neg hge, List.append_nil]
  | succ togo ih =>
    intro fuel p frame hbuf hlen hf
    obtain ⟨f, rfl⟩ : ∃ f, fuel = f + 1 := ⟨fuel - 1, by omega⟩
    have hle : (frame.length + 1) * b ≤ (size + b - 1) / b * b :=
      Nat.mul_le_mul_right b (by omega)
    have hlt : frame.length * b < size := by
      have h1 : frame.length + 1 ≤ (size + b - 1) / b := by omega
      have h2 : (frame.length + 1) * b ≤ size + b - 1 :=
        le_trans (Nat.mul_le_mul_right b h1) (Nat.div_mul_le_self _ _)
      rw [Nat.add_mul] at h2
      omega
    have hal := allocBuffer_eq p bSize (heap frame.length) (some (frame.length * b))
      (Or.inr (hheap _))
    rw [hbuf] at hal
    have hnext : (frame.length * b + b) % 2 ^ 32 = (frame ++ [Buffer.create
        (p.dataQ.headD (heap frame.length)) p.allocMeta b (p.allocSizeOf bSize)]).length * b := by
      rw [List.length_append, List.length_singleton, Nat.add_mul, Nat.one_mul]
      rw [Nat.add_mul, Nat.one_mul] at hle
      exact Nat.mod_eq_of_lt (by omega)
    obtain ⟨p1, more, hrun, hmore, hsz, hfix⟩ := ih f
      { p with
        dataQ := p.dataQ.tail
        allocMeta := ((p.allocMeta + 1) % 2 ^ 32) &&& 0xFFFFFF
        allocBytes := (p.allocBytes + p.allocSizeOf bSize) % 2 ^ 32
        allocCount := (p.allocCount + 1) % 2 ^ 32 }
      (frame ++ [Buffer.create (p.dataQ.headD (heap frame.length)) p.allocMeta b
        (p.allocSizeOf bSize)])
      (by simpa [Pool.bufSizeOf] using hbuf)
      (by rw [List.length_append, List.length_singleton]; omega) (by omega)
    refine ⟨p1, Buffer.create (p.dataQ.headD (heap frame.length)) p.allocMeta b
      (p.allocSizeOf bSize) :: more, ?_, by simp [hmore], ?_, hfix⟩
    · simp only [Pool.acceptReqLoop, if_pos hlt, hal, Option.map_some', Option.getD_some, hnext,
        hrun, List.append_assoc, List.singleton_append]
    · intro buf hbufm
      rcases List.mem_cons.mp hbufm with rfl | hin
      · rfl
      · exact hsz buf hin

/-- The frame request when the running total cannot wrap and `malloc` never fails: with `b`
the buffer size (the request size for `maxBuffSize == 0`, else `maxBuffSize`, clamped to the
fixed size) greater than 0 and `ceil(size / b) * b` below `2 ^ 32`, `acceptReq` returns a frame
of exactly `ceil(size / b)` buffers of size `b`, whose sizes add up to at least `size`; the flag
`zeroCopyEn` plays no part. -/
theorem acceptReq_capacity (p : Pool) (heap : Nat → Nat) (fuel size maxBuffSize : Nat)
    (zeroCopyEn : Bool) (hheap : ∀ k, heap k ≠ 0)
    (hb : 0 < p.bufSizeOf (if maxBuffSize = 0 then size else maxBuffSize))
    (hwrap : (size + p.bufSizeOf (if maxBuffSize = 0 then size else maxBuffSize) - 1) /
        p.bufSizeOf (if maxBuffSize = 0 then size else maxBuffSize) *
        p.bufSizeOf (if maxBuffSize = 0 then size else maxBuffSize) < 2 ^ 32)
    (hf : (size + p.bufSizeOf (if maxBuffSize = 0 then size else maxBuffSize) - 1) /
        p.bufSizeOf (if maxBuffSize = 0 then size else maxBuffSize) < fuel) :
    ∃ p1 frame, p.acceptReq heap fuel size zeroCopyEn maxBuffSize = some (.ok (p1, frame)) ∧
      frame.length = (size + p.bufSizeOf (if maxBuffSize = 0 then size else maxBuffSize) - 1) /
        p.bufSizeOf (if maxBuffSize = 0 then size else maxBuffSize) ∧
      (∀ buf ∈ frame, buf.rawSize = p.bufSizeOf (if maxBuffSize = 0 then size else maxBuffSize)) ∧
      size ≤ (frame.map Buffer.rawSize).sum ∧
      p.acceptReq heap fuel size (!zeroCopyEn) maxBuffSize =
        p.acceptReq heap fuel size zeroCopyEn maxBuffSize := by
  generalize hbdef : p.bufSizeOf (if maxBuffSize = 0 then size else maxBuffSize) = b at *
  obtain ⟨p1, more, hrun, hlen, hsz, _⟩ :=
    acceptReqLoop_ok size (if maxBuffSize = 0 then size else maxBuffSize) b heap hheap hb hwrap
      ((size + b - 1) / b) fuel p [] hbdef (by simp) hf
  simp only [List.length_nil, Nat.zero_mul, List.nil_append] at hrun
  refine ⟨p1, more, hrun, hlen, hsz, ?_, rfl⟩
  have hsum : (more.map Buffer.rawSize).sum = more.length * b := by
    have hall : ∀ x ∈ more.map Buffer.rawSize, x = b := by
      intro x hx
      obtain ⟨buf, hbuf, rfl⟩ := List.mem_map.mp hx
      exact hsz buf hbuf
    rw [List.eq_replicate_of_mem hall, List.sum_replicate, List.length_map, smul_eq_mul]
  rw [hsum, hlen]
  have h1 := Nat.div_add_mod (size + b - 1) b
  have h2 := Nat.mod_lt (size + b - 1) hb
  rw [Nat.mul_comm]
  omega

/-- The loop of `acceptReq(0xFFFFFFFF, _, 0x80000000)` on a pool without fixed size and with an
empty queue: the running total is 0 or 0x80000000 at every test, hence below the size. -/
theorem acceptReqLoop_wraps (heap : Nat → Nat) (hheap : ∀ k, heap k ≠ 0) (size b : Nat)
    (hsize : size = 0xFFFFFFFF) (hb : b = 0x80000000) :
    ∀ (fuel : Nat) (p : Pool) (frame : List Buffer) (frSize : Nat),
      p.fixedSize = 0 → p.dataQ = [] → frSize = 0 ∨ frSize = b →
      Pool.acceptReqLoop size b heap fuel p frame frSize = none := by
  intro fuel
  induction fuel with
  | zero => intro p frame frSize _ _ _; rfl
  | succ fuel ih =>
    intro p frame frSize hfix hq hfr
    have hlt : frSize < size := by omega
    have hal := allocBuffer_eq p b (heap frame.length) (some frSize) (Or.inr (hheap _))
    have hbs : p.bufSizeOf b = b := by
      unfold Pool.bufSizeOf
      rw [hfix]
      rfl
    rw [hbs] at hal
    simp only [Pool.acceptReqLoop, if_pos hlt, hal, Option.map_some', Option.getD_some]
    apply ih
    · exact hfix
    · simp only [hq, List.tail_nil]
    · omega

/-- C15, the code on a request whose running total wraps: `acceptReq(0xFFFFFFFF, _, 0x80000000)`
on a new pool, with `malloc` never failing, adds 0x80000000 to the 32-bit total at every
allocation, so the total is 0 again after every second buffer and the loop never ends, whatever
the number of tests allowed: no frame is returned. -/
theorem acceptReq_never_returns (fuel : Nat) (zeroCopyEn : Bool) :
    Pool.create.acceptReq heapExample fuel 0xFFFFFFFF zeroCopyEn 0x80000000 = none :=
  acceptReqLoop_wraps heapExample (fun k => by unfold heapExample; omega) 0xFFFFFFFF 0x80000000
    rfl rfl fuel Pool.create [] 0 rfl rfl (Or.inl rfl)

/-- C16, counterexample: `acceptReq(0, _, 0)` on a new pool returns a frame with no buffer, and
`acceptReq(3000, _, 0)` on a pool with fixed size 1024 returns a frame with three buffers of
1024 bytes. -/
theorem acceptReq_not_single :
    Pool.create.acceptReq heapExample 4 0 false 0 = some (.ok (Pool.create, [])) ∧
      (fixedPool.acceptReq heapExample 4 3000 false 0).map
          (fun r => r.toOption.map (fun x => x.2.map Buffer.rawSize)) =
        some (some [1024, 1024, 1024]) := by
  constructor <;> rfl

/-- C16, amended: `acceptReq(0, _, 0)` returns an empty frame and leaves the pool as it was; for
`0 < size < 2 ^ 32`, on a pool whose fixed-size mode is off or whose fixed size is at least
`size`, and with `malloc` never failing, `acceptReq(size, _, 0)` returns a frame of exactly one
buffer, of `size` bytes. -/
theorem acceptReq_single (p : Pool) (heap : Nat → Nat) (fuel size : Nat) (zeroCopyEn : Bool) :
    (size = 0 → p.acceptReq heap (fuel + 1) size zeroCopyEn 0 = some (.ok (p, []))) ∧
      (0 < size → size < 2 ^ 32 → (p.fixedSize = 0 ∨ size ≤ p.fixedSize) → (∀ k, heap k ≠ 0) →
        ∃ p1 buf, p.acceptReq heap (fuel + 2) size zeroCopyEn 0 = some (.ok (p1, [buf])) ∧
          buf.rawSize = size) := by
  constructor
  · intro h0
    subst h0
    rfl
  · intro hpos h32 hfix hheap
    have hbs : p.bufSizeOf size = size := by
      unfold Pool.bufSizeOf
      rcases hfix with h | h
      · rw [h]; rfl
      · split_ifs <;> omega
    have hone : (size + size - 1) / size = 1 := by
      apply Nat.div_eq_of_lt_le <;> omega
    obtain ⟨p1, more, hrun, hlen, hsz, _⟩ :=
      acceptReqLoop_ok size size size heap hheap hpos (by rw [hone]; omega) 1 (fuel + 2) p []
        hbs (by rw [hone]; rfl) (by omega)
    obtain ⟨buf, rfl⟩ := List.length_eq_one.mp hlen
    refine ⟨p1, buf, ?_, hsz buf (List.mem_singleton_self _)⟩
    unfold Pool.acceptReq
    simpa using hrun

/-- Witness of `acceptReq_single`: a request of 100 bytes on a new pool. -/
theorem acceptReq_single_witness :
    ∃ p1 buf, Pool.create.acceptReq heapExample 2 100 false 0 = some (.ok (p1, [buf])) ∧
      buf.rawSize = 100 :=
  (acceptReq_single Pool.create heapExample 0 100 false).2 (by decide) (by decide)
    (Or.inl rfl) (fun k => by unfold heapExample; omega)

end rogue.interfaces.stream

/-! ## Stream pool: call sequences -/

namespace rogue.interfaces.stream

/-- No call: the pool is as it was and nothing is dispensed. -/
theorem run_nil (p : Pool) : p.run [] = (p, []) := rfl

/-- The pool after a sequence of calls is the pool after the rest of the calls, run from the
pool after the first. -/
theorem run_cons_fst (p : Pool) (c : PoolCall) (cs : List PoolCall) :
    (p.run (c :: cs)).1 = ((p.call c).1.run cs).1 := by
  simp only [Pool.run]
  split <;> rfl

/-- The buffers dispensed by a sequence of calls: the one of the first call, if any, then those
of the rest. -/
theorem run_cons_snd (p : Pool) (c : PoolCall) (cs : List PoolCall) :
    (p.run (c :: cs)).2 = (p.call c).2.toList ++ ((p.call c).1.run cs).2 := by
  simp only [Pool.run]
  split <;> rename_i h <;> simp [h]

/-- An `allocBuffer` call either throws, leaving the pool as it was and dispensing nothing (empty
queue and `malloc` returning `NULL`), or dispenses the buffer of `allocBuffer_eq`. -/
theorem call_alloc (p : Pool) (size mallocResult : Nat) :
    (p.dataQ = [] ∧ mallocResult = 0 ∧ p.call (.allocBuffer size mallocResult) = (p, none)) ∨
    ((p.dataQ ≠ [] ∨ mallocResult ≠ 0) ∧ p.call (.allocBuffer size mallocResult) =
      ({ p with
          dataQ := p.dataQ.tail
          allocMeta := ((p.allocMeta + 1) % 2 ^ 32) &&& 0xFFFFFF
          allocBytes := (p.allocBytes + p.allocSizeOf size) % 2 ^ 32
          allocCount := (p.allocCount + 1) % 2 ^ 32 },
        some (Buffer.create (p.dataQ.headD mallocResult) p.allocMeta (p.bufSizeOf size)
          (p.allocSizeOf size)))) := by
  by_cases h : p.dataQ ≠ [] ∨ mallocResult ≠ 0
  · right
    refine ⟨h, ?_⟩
    simp only [Pool.call, allocBuffer_eq p size mallocResult none h]
  · left
    have hq : p.dataQ = [] := by
      by_contra hne
      exact h (Or.inl hne)
    have hm : mallocResult = 0 := by
      by_contra hne
      exact h (Or.inr hne)
    refine ⟨hq, hm, ?_⟩
    subst hm
    simp only [Pool.call, allocBuffer_error p size none hq]

/-- The configuration of fixed-size mode and the bound on the queue are kept by every call. -/
theorem call_queue_inv (p : Pool) (c : PoolCall) (h : p.dataQ.length ≤ p.maxCount) :
    (p.call c).1.dataQ.length ≤ (p.call c).1.maxCount ∧ (p.call c).1.fixedSize = p.fixedSize ∧
      (p.call c).1.maxCount = p.maxCount := by
  cases c with
  | allocBuffer size mallocResult =>
    rcases call_alloc p size mallocResult with ⟨_, _, he⟩ | ⟨_, he⟩
    · rw [he]; exact ⟨h, rfl, rfl⟩
    · rw [he]
      refine ⟨?_, rfl, rfl⟩
      simp only [List.length_tail]
      omega
  | retBuffer data meta rawSize =>
    simp only [Pool.call, Pool.retBuffer]
    split_ifs with h1 h2
    · refine ⟨?_, rfl, rfl⟩
      simp only [List.length_append, List.length_singleton]
      omega
    · exact ⟨h, rfl, rfl⟩
    · exact ⟨h, rfl, rfl⟩

/-- The configuration of fixed-size mode and the bound on the queue are kept by every sequence
of calls. -/
theorem run_queue_inv (calls : List PoolCall) :
    ∀ p : Pool, p.dataQ.length ≤ p.maxCount →
      (p.run calls).1.dataQ.length ≤ (p.run calls).1.maxCount ∧
        (p.run calls).1.fixedSize = p.fixedSize ∧ (p.run calls).1.maxCount = p.maxCount := by
  induction calls with
  | nil => intro p h; exact ⟨h, rfl, rfl⟩
  | cons c cs ih =>
    intro p h
    obtain ⟨h1, h2, h3⟩ := call_queue_inv p c h
    obtain ⟨i1, i2, i3⟩ := ih (p.call c).1 h1
    rw [run_cons_fst]
    exact ⟨i1, i2.trans h2, i3.trans h3⟩

/-- What `retBuffer` does with a region: queued when the size is the fixed size and the queue
is below its maximum, handed to `free` otherwise; nothing for a `NULL` handle. -/
theorem retBuffer_region (p : Pool) (data meta rawSize : Nat) :
    (data ≠ 0 → rawSize = p.fixedSize ∧ p.dataQ.length < p.maxCount →
        (p.retBuffer data meta rawSize).dataQ = p.dataQ ++ [data] ∧
          (p.retBuffer data meta rawSize).freed = p.freed) ∧
      (data ≠ 0 → ¬ (rawSize = p.fixedSize ∧ p.dataQ.length < p.maxCount) →
        (p.retBuffer data meta rawSize).dataQ = p.dataQ ∧
          (p.retBuffer data meta rawSize).freed = p.freed ++ [data]) ∧
      (data = 0 →
        (p.retBuffer data meta rawSize).dataQ = p.dataQ ∧
          (p.retBuffer data meta rawSize).freed = p.freed) := by
  unfold Pool.retBuffer
  refine ⟨fun hd hc => ?_, fun hd hc => ?_, fun hd => ?_⟩
  · simp only [hd, ne_eq, not_false_eq_true, if_true, gt_iff_lt, hc, and_self, true_and]
  · simp only [hd, ne_eq, not_false_eq_true, if_true, gt_iff_lt, if_neg hc, true_and]
  · simp only [hd, ne_eq, not_true_eq_false, if_false, true_and]

/-- The recycling-queue bound where it holds: from any pool whose queue holds at most `c` regions and on which
`enBufferPool(s, c)` returns, after every sequence of `allocBuffer` and `retBuffer` calls the
queue holds at most `c` regions (fixed size and maximum unchanged), and `retBuffer` on that
state queues a region exactly when its raw size equals `s` and the queue holds fewer than `c`
regions, and hands it to `free` otherwise. -/
theorem queue_bound (p p0 : Pool) (s c : Nat) (calls : List PoolCall)
    (hq : p.dataQ.length ≤ c) (hen : p.enBufferPool s c = some p0) :
    (p0.run calls).1.dataQ.length ≤ c ∧ (p0.run calls).1.fixedSize = s ∧
      (p0.run calls).1.maxCount = c ∧
      ∀ data meta rawSize, data ≠ 0 →
        (rawSize = s ∧ (p0.run calls).1.dataQ.length < c →
          ((p0.run calls).1.retBuffer data meta rawSize).dataQ =
              (p0.run calls).1.dataQ ++ [data] ∧
            ((p0.run calls).1.retBuffer data meta rawSize).freed = (p0.run calls).1.freed) ∧
        (¬ (rawSize = s ∧ (p0.run calls).1.dataQ.length < c) →
          ((p0.run calls).1.retBuffer data meta rawSize).dataQ = (p0.run calls).1.dataQ ∧
            ((p0.run calls).1.retBuffer data meta rawSize).freed =
              (p0.run calls).1.freed ++ [data]) := by
  unfold Pool.enBufferPool at hen
  split_ifs at hen with h0
  have hp0 := (Option.some.inj hen).symm
  have hfix0 : p0.fixedSize = s := by rw [hp0]
  have hmax0 : p0.maxCount = c := by rw [hp0]
  have hq0 : p0.dataQ.length ≤ p0.maxCount := by rw [hp0]; exact hq
  obtain ⟨i1, i2, i3⟩ := run_queue_inv calls p0 hq0
  rw [hfix0] at i2
  rw [hmax0] at i3
  rw [i3] at i1
  refine ⟨i1, i2, i3, fun data meta rawSize hd => ?_⟩
  have hr := retBuffer_region (p0.run calls).1 data meta rawSize
  rw [i2, i3] at hr
  exact ⟨hr.1 hd, hr.2.1 hd⟩

/-- Witness of `queue_bound`: a pool of fixed size 1024 and at most 2 queued regions, after three
buffers were returned. -/
theorem queue_bound_witness :
    (fixedPool.run [.retBuffer 0x1000 0 1024, .retBuffer 0x2000 1 1024,
        .retBuffer 0x3000 2 1024]).1.dataQ.length ≤ 2 :=
  (queue_bound Pool.create fixedPool 1024 2 [.retBuffer 0x1000 0 1024, .retBuffer 0x2000 1 1024,
    .retBuffer 0x3000 2 1024] (by decide) (by decide)).1

/-- The recycling-queue bound at the first `enBufferPool`: on a pool that went through any
calls of `allocBuffer` and `retBuffer` since its construction the queue is empty,
`enBufferPool(s, c)` returns, and after every further sequence of `allocBuffer` and `retBuffer`
calls the queue holds at most `c` regions, with fixed size `s` and maximum `c`. -/
theorem first_enBufferPool_bound (s c : Nat) (before calls : List PoolCall) :
    ∃ p0, (Pool.create.run before).1.enBufferPool s c = some p0 ∧
      (p0.run calls).1.dataQ.length ≤ c ∧ (p0.run calls).1.fixedSize = s ∧
      (p0.run calls).1.maxCount = c := by
  obtain ⟨h1, h2, h3⟩ := run_queue_inv before Pool.create (Nat.le_refl 0)
  generalize Pool.create.run before = r at h1 h2 h3
  have hfix : r.1.fixedSize = 0 := h2
  have hmax : r.1.maxCount = 0 := h3
  rw [hmax] at h1
  refine ⟨{ r.1 with fixedSize := s, maxCount := c }, ?_, ?_⟩
  · unfold Pool.enBufferPool
    rw [hfix]
    simp
  · obtain ⟨i1, i2, i3⟩ := run_queue_inv calls { r.1 with fixedSize := s, maxCount := c }
      (by show r.1.dataQ.length ≤ c; omega)
    exact ⟨by rw [i3] at i1; exact i1, i2, i3⟩

/-- C13, the code after a first `enBufferPool(0, 5)`: three buffers of size 0 are allocated
(`malloc(0)` returning the regions `0x1000`, `0x2000`, `0x3000`) and dropped, which queues the
three regions, their raw size 0 being the fixed size; `enBufferPool(1024, 2)` then returns,
because `fixedSize_` is still 0 and the test `fixedSize_ != 0` takes the pool for a new one, and
sets the maximum to 2 while the queue holds 3 regions.  The queue is above `c = 2` right after
the call and still after a region of 1024 bytes was returned. -/
theorem queue_exceeds_bound :
    ∃ p1 p2, Pool.create.enBufferPool 0 5 = some p1 ∧
      (p1.run [.allocBuffer 0 0x1000, .allocBuffer 0 0x2000, .allocBuffer 0 0x3000]).2.map
          Buffer.drop =
        [.retBuffer 0x1000 0 0, .retBuffer 0x2000 1 0, .retBuffer 0x3000 2 0] ∧
      (p1.run [.allocBuffer 0 0x1000, .allocBuffer 0 0x2000, .allocBuffer 0 0x3000,
        .retBuffer 0x1000 0 0, .retBuffer 0x2000 1 0, .retBuffer 0x3000 2 0]).1.enBufferPool
          1024 2 = some p2 ∧
      p2.fixedSize = 1024 ∧ p2.maxCount = 2 ∧ p2.dataQ = [0x1000, 0x2000, 0x3000] ∧
      ¬ (p2.run []).1.dataQ.length ≤ 2 ∧
      ¬ (p2.run [.retBuffer 0x4000 3 1024]).1.dataQ.length ≤ 2 := by
  refine ⟨_, _, rfl, by decide, rfl, ?_⟩
  decide

end rogue.interfaces.stream

/-! ## Stream pool: meta ids -/

namespace rogue.interfaces.stream

/-- The meta ids dispensed by a sequence of calls are consecutive modulo `2 ^ 24`, starting at
the counter, and the counter ends at the next one. -/
theorem run_metas (calls : List PoolCall) :
    ∀ p : Pool, p.allocMeta < 2 ^ 24 →
      (p.run calls).2.map Buffer.meta =
          (List.range (p.run calls).2.length).map (fun j => (p.allocMeta + j) % 2 ^ 24) ∧
        (p.run calls).1.allocMeta = (p.allocMeta + (p.run calls).2.length) % 2 ^ 24 := by
  induction calls with
  | nil =>
    intro p hm
    simp only [run_nil, List.map_nil, List.length_nil, List.range_zero, Nat.add_zero]
    exact ⟨trivial, (Nat.mod_eq_of_lt hm).symm⟩
  | cons c cs ih =>
    intro p hm
    rw [run_cons_fst, run_cons_snd]
    have hsame : ∀ q : Pool, q.allocMeta = p.allocMeta → (p.call c) = (q, none) →
        ((p.call c).2.toList ++ ((p.call c).1.run cs).2).map Buffer.meta =
          (List.range ((p.call c).2.toList ++ ((p.call c).1.run cs).2).length).map
            (fun j => (p.allocMeta + j) % 2 ^ 24) ∧
        ((p.call c).1.run cs).1.allocMeta =
          (p.allocMeta + ((p.call c).2.toList ++ ((p.call c).1.run cs).2).length) % 2 ^ 24 := by
      intro q hq he
      rw [he]
      have := ih q (by rw [hq]; exact hm)
      rw [hq] at this
      simpa using this
    cases c with
    | retBuffer data meta rawSize =>
      exact hsame (p.retBuffer data meta rawSize) (by simp [Pool.retBuffer]; split_ifs <;> rfl) rfl
    | allocBuffer size mallocResult =>
      rcases call_alloc p size mallocResult with ⟨_, _, he⟩ | ⟨_, he⟩
      · exact hsame p rfl he
      · have hnext : ((p.allocMeta + 1) % 2 ^ 32) &&& 0xFFFFFF = (p.allocMeta + 1) % 2 ^ 24 := by
          rw [and_ffffff]
          omega
        generalize hqdef : ({ p with
            dataQ := p.dataQ.tail
            allocMeta := ((p.allocMeta + 1) % 2 ^ 32) &&& 0xFFFFFF
            allocBytes := (p.allocBytes + p.allocSizeOf size) % 2 ^ 32
            allocCount := (p.allocCount + 1) % 2 ^ 32 } : Pool) = q at he
        have hqm : q.allocMeta = (p.allocMeta + 1) % 2 ^ 24 := by
          rw [← hqdef]
          exact hnext
        rw [he]
        obtain ⟨i1, i2⟩ := ih q (by rw [hqm]; exact Nat.mod_lt _ (by norm_num))
        rw [hqm] at i1 i2
        simp only [Option.toList_some, List.singleton_append, List.map_cons, List.length_cons,
          List.range_succ_eq_map, i1, i2, List.map_map]
        refine ⟨?_, by omega⟩
        congr 1
        · exact (Nat.mod_eq_of_lt hm).symm
        · apply List.map_congr_left
          intro j _
          simp only [Function.comp]
          omega

/-- A sequence of `allocBuffer` calls whose `malloc` never fails dispenses one buffer per
call. -/
theorem run_allocs_length (calls : List PoolCall) :
    ∀ p : Pool, (∀ c ∈ calls, ∃ s m, c = PoolCall.allocBuffer s m ∧ m ≠ 0) →
      (p.run calls).2.length = calls.length := by
  induction calls with
  | nil => intro p _; rfl
  | cons c cs ih =>
    intro p h
    obtain ⟨s, m, rfl, hm⟩ := h c (List.mem_cons_self _ _)
    rw [run_cons_snd]
    rcases call_alloc p s m with ⟨_, h0, _⟩ | ⟨_, he⟩
    · exact absurd h0 hm
    · rw [he, List.length_append, ih _ (fun c hc => h c (List.mem_cons_of_mem _ hc))]
      simp only [Option.toList_some, List.length_singleton, List.length_cons, List.length_nil]
      omega

/-- The meta id of the buffer dispensed as number `j` of a sequence of calls. -/
theorem run_meta_at (p : Pool) (calls : List PoolCall) (hm : p.allocMeta < 2 ^ 24) (j : Nat)
    (b : Buffer) (hb : (p.run calls).2[j]? = some b) : b.meta = (p.allocMeta + j) % 2 ^ 24 := by
  have h := (run_metas calls p hm).1
  have hj : j < (p.run calls).2.length := by
    by_contra hge
    rw [List.getElem?_eq_none (by omega)] at hb
    exact Option.noConfusion hb
  have h1 : ((p.run calls).2.map Buffer.meta)[j]? = some b.meta := by
    rw [List.getElem?_map, hb]
    rfl
  rw [h, List.getElem?_map, List.getElem?_range hj] at h1
  exact (Option.some.inj h1).symm

/-- C17, counterexample: `2 ^ 24 + 1` buffers are allocated from a new pool and none is
returned; the last one is dispensed with meta id 0, the meta id of the first one, which is
still live. -/
theorem meta_id_repeats :
    (∀ c ∈ manyAllocs (2 ^ 24 + 1), ∃ s m, c = PoolCall.allocBuffer s m) ∧
      ∃ b0 b1, (Pool.create.run (manyAllocs (2 ^ 24 + 1))).2[0]? = some b0 ∧
        (Pool.create.run (manyAllocs (2 ^ 24 + 1))).2[2 ^ 24]? = some b1 ∧
        b0.meta = 0 ∧ b1.meta = 0 := by
  have hall : ∀ n, ∀ c ∈ manyAllocs n, ∃ s m, c = PoolCall.allocBuffer s m ∧ m ≠ 0 := by
    intro n c hc
    unfold manyAllocs at hc
    obtain ⟨j, _, rfl⟩ := List.mem_map.mp hc
    exact ⟨16, 0x1000 + 16 * j, rfl, by omega⟩
  refine ⟨fun c hc => ?_, ?_⟩
  · obtain ⟨s, m, h, _⟩ := hall _ c hc
    exact ⟨s, m, h⟩
  · generalize hn : 2 ^ 24 + 1 = n
    have hlen : (Pool.create.run (manyAllocs n)).2.length = n := by
      rw [run_allocs_length _ _ (hall n)]
      unfold manyAllocs
      rw [List.length_map, List.length_range]
    have h0 : 0 < (Pool.create.run (manyAllocs n)).2.length := by omega
    have h1 : 2 ^ 24 < (Pool.create.run (manyAllocs n)).2.length := by omega
    refine ⟨_, _, List.getElem?_eq_getElem h0, List.getElem?_eq_getElem h1, ?_, ?_⟩
    · rw [run_meta_at Pool.create (manyAllocs n) (by decide) 0 _ (List.getElem?_eq_getElem h0)]
      rfl
    · rw [run_meta_at Pool.create (manyAllocs n) (by decide) (2 ^ 24) _
        (List.getElem?_eq_getElem h1)]
      rfl

/-- C17, amended: from a pool whose counter is below `2 ^ 24`, over any sequence of `allocBuffer`
and `retBuffer` calls, the buffer dispensed as number `j` gets the meta id
`(counter + j) mod 2 ^ 24` (below `2 ^ 24`, so the upper 8 bits are zero), the counter advancing
by 1 modulo `2 ^ 24` with every buffer; so its meta id differs from that of every buffer
dispensed less than `2 ^ 24` buffers before it, and equals that of the buffer dispensed
`2 ^ 24` buffers before it, returned or not. -/
theorem meta_id_window (p : Pool) (calls : List PoolCall) (hm : p.allocMeta < 2 ^ 24) :
    (∀ j b, (p.run calls).2[j]? = some b →
        b.meta = (p.allocMeta + j) % 2 ^ 24 ∧ b.meta < 2 ^ 24) ∧
      (p.run calls).1.allocMeta = (p.allocMeta + (p.run calls).2.length) % 2 ^ 24 ∧
      (∀ i j bi bj, (p.run calls).2[i]? = some bi → (p.run calls).2[j]? = some bj →
        i < j → j - i < 2 ^ 24 → bi.meta ≠ bj.meta) ∧
      (∀ i bi bj, (p.run calls).2[i]? = some bi → (p.run calls).2[i + 2 ^ 24]? = some bj →
        bi.meta = bj.meta) := by
  refine ⟨fun j b hb => ?_, (run_metas calls p hm).2, fun i j bi bj hi hj hij hd => ?_,
    fun i bi bj hi hj => ?_⟩
  · rw [run_meta_at p calls hm j b hb]
    exact ⟨rfl, Nat.mod_lt _ (by norm_num)⟩
  · rw [run_meta_at p calls hm i bi hi, run_meta_at p calls hm j bj hj]
    omega
  · rw [run_meta_at p calls hm i bi hi, run_meta_at p calls hm _ bj hj]
    omega

/-- Witness of `meta_id_window`: three allocations from a new pool get the meta ids 0, 1, 2. -/
theorem meta_id_window_witness :
    (∀ j b, (Pool.create.run (manyAllocs 3)).2[j]? = some b →
        b.meta = (0 + j) % 2 ^ 24 ∧ b.meta < 2 ^ 24) ∧
      (Pool.create.run (manyAllocs 3)).1.allocMeta = 3 :=
  ⟨(meta_id_window Pool.create (manyAllocs 3) (by decide)).1, by decide⟩

end rogue.interfaces.stream

/-! ## Stream pool: accounting -/

namespace rogue.interfaces.stream

/-- Taking the buffer at position `i` out of a list takes its allocation size out of the sum and
1 out of the length. -/
theorem eraseIdx_sum (l : List Buffer) (i : Nat) (b : Buffer) (h : l[i]? = some b) :
    ((l.eraseIdx i).map Buffer.allocSize).sum + b.allocSize = (l.map Buffer.allocSize).sum ∧
      (l.eraseIdx i).length + 1 = l.length := by
  induction l generalizing i with
  | nil => simp at h
  | cons x xs ih =>
    cases i with
    | zero =>
      simp only [List.getElem?_cons_zero, Option.some.injEq] at h
      subst h
      simp only [List.eraseIdx_cons_zero, List.map_cons, List.sum_cons, List.length_cons]
      exact ⟨Nat.add_comm _ _, trivial⟩
    | succ i =>
      simp only [List.getElem?_cons_succ] at h
      obtain ⟨h1, h2⟩ := ih i h
      simp only [List.eraseIdx_cons_succ, List.map_cons, List.sum_cons, List.length_cons]
      constructor <;> omega

/-- One step of the ledger keeps the accounting invariant. -/
theorem step_accounting (l : Ledger) (c : LedgerCall)
    (hc : l.pool.allocCount = l.live.length % 2 ^ 32)
    (hb : l.pool.allocBytes = (l.live.map Buffer.allocSize).sum % 2 ^ 32) :
    (l.step c).pool.allocCount = (l.step c).live.length % 2 ^ 32 ∧
      (l.step c).pool.allocBytes = ((l.step c).live.map Buffer.allocSize).sum % 2 ^ 32 := by
  cases c with
  | allocBuffer size mallocResult =>
    by_cases h : l.pool.dataQ ≠ [] ∨ mallocResult ≠ 0
    · simp only [Ledger.step, allocBuffer_eq l.pool size mallocResult none h, hc, hb,
        List.length_append, List.length_singleton, List.map_append, List.sum_append,
        List.map_cons, List.map_nil, List.sum_cons, List.sum_nil, Buffer.create]
      constructor <;> omega
    · have hq : l.pool.dataQ = [] := by
        by_contra hne
        exact h (Or.inl hne)
      have hm : mallocResult = 0 := by
        by_contra hne
        exact h (Or.inr hne)
      subst hm
      simp only [Ledger.step, allocBuffer_error l.pool size none hq]
      exact ⟨hc, hb⟩
  | createBuffer data meta size alloc =>
    simp only [Ledger.step, Pool.createBuffer, hc, hb, List.length_append, List.length_singleton,
      List.map_append, List.sum_append, List.map_cons, List.map_nil, List.sum_cons, List.sum_nil,
      Buffer.create]
    constructor <;> omega
  | retBuffer i =>
    simp only [Ledger.step]
    cases hi : l.live[i]? with
    | none => exact ⟨hc, hb⟩
    | some b =>
      obtain ⟨h1, h2⟩ := eraseIdx_sum l.live i b hi
      simp only [Pool.retBuffer]
      split_ifs <;> simp only [hc, hb] <;> constructor <;> omega
  | decCounter i =>
    simp only [Ledger.step]
    cases hi : l.live[i]? with
    | none => exact ⟨hc, hb⟩
    | some b =>
      obtain ⟨h1, h2⟩ := eraseIdx_sum l.live i b hi
      simp only [Pool.decCounter, hc, hb]
      constructor <;> omega
  | enBufferPool size count =>
    simp only [Ledger.step, Pool.enBufferPool]
    split_ifs <;> exact ⟨hc, hb⟩

/-- Every sequence of ledger steps keeps the accounting invariant. -/
theorem run_accounting (calls : List LedgerCall) :
    ∀ l : Ledger, l.pool.allocCount = l.live.length % 2 ^ 32 →
      l.pool.allocBytes = (l.live.map Buffer.allocSize).sum % 2 ^ 32 →
      (l.run calls).pool.allocCount = (l.run calls).live.length % 2 ^ 32 ∧
        (l.run calls).pool.allocBytes =
          ((l.run calls).live.map Buffer.allocSize).sum % 2 ^ 32 := by
  induction calls with
  | nil => intro l hc hb; exact ⟨hc, hb⟩
  | cons c cs ih =>
    intro l hc hb
    obtain ⟨h1, h2⟩ := step_accounting l c hc hb
    exact ih (l.step c) h1 h2

/-- C12 (pool conservation): in every state reached from a new pool by any sequence of
`allocBuffer` / `createBuffer` calls and `retBuffer` / `decCounter` calls that give back live
buffers with their allocation size (each at most once; `enBufferPool` calls may come in
between), `allocCount_` is the number of live buffers and `allocBytes_` the sum of their
allocation sizes, both modulo `2 ^ 32`; both are 0 whenever no buffer is live. -/
theorem pool_conservation (calls : List LedgerCall) :
    (Ledger.run { pool := Pool.create, live := [] } calls).pool.allocCount =
        (Ledger.run { pool := Pool.create, live := [] } calls).live.length % 2 ^ 32 ∧
      (Ledger.run { pool := Pool.create, live := [] } calls).pool.allocBytes =
        ((Ledger.run { pool := Pool.create, live := [] } calls).live.map Buffer.allocSize).sum
          % 2 ^ 32 ∧
      ((Ledger.run { pool := Pool.create, live := [] } calls).live = [] →
        (Ledger.run { pool := Pool.create, live := [] } calls).pool.allocCount = 0 ∧
        (Ledger.run { pool := Pool.create, live := [] } calls).pool.allocBytes = 0) := by
  obtain ⟨h1, h2⟩ := run_accounting calls { pool := Pool.create, live := [] } rfl rfl
  refine ⟨h1, h2, fun hl => ?_⟩
  rw [h1, h2, hl]
  exact ⟨rfl, rfl⟩

end rogue.interfaces.stream

/-! ## Stream pool: recycling -/

namespace rogue.interfaces.stream

/-- Allocations from a pool with an empty queue, `malloc` never failing: one buffer per call
over the region `malloc` returned, the queue stays empty and the counters go up. -/
theorem run_allocs_fresh (s : Nat) (ptrs : List Nat) :
    ∀ p : Pool, p.dataQ = [] → (∀ r ∈ ptrs, r ≠ 0) →
      p.allocCount < 2 ^ 32 → p.allocBytes < 2 ^ 32 →
      ((p.run (ptrs.map (PoolCall.allocBuffer s))).2.map Buffer.data = ptrs ∧
        (∀ b ∈ (p.run (ptrs.map (PoolCall.allocBuffer s))).2,
          b.allocSize = p.allocSizeOf s ∧ b.rawSize = p.bufSizeOf s)) ∧
      ((p.run (ptrs.map (PoolCall.allocBuffer s))).1.dataQ = [] ∧
        (p.run (ptrs.map (PoolCall.allocBuffer s))).1.fixedSize = p.fixedSize ∧
        (p.run (ptrs.map (PoolCall.allocBuffer s))).1.maxCount = p.maxCount ∧
        (p.run (ptrs.map (PoolCall.allocBuffer s))).1.freed = p.freed) ∧
      (p.run (ptrs.map (PoolCall.allocBuffer s))).1.allocCount =
        (p.allocCount + ptrs.length) % 2 ^ 32 ∧
      (p.run (ptrs.map (PoolCall.allocBuffer s))).1.allocBytes =
        (p.allocBytes + ptrs.length * p.allocSizeOf s) % 2 ^ 32 := by
  induction ptrs with
  | nil =>
    intro p hq _ hcnt hbytes
    simp [run_nil, hq]
    constructor <;> omega
  | cons r rs ih =>
    intro p hq hnz _ _
    have hr : r ≠ 0 := hnz r (List.mem_cons_self _ _)
    rcases call_alloc p s r with ⟨_, h0, _⟩ | ⟨_, he⟩
    · exact absurd h0 hr
    · generalize hqdef : ({ p with
          dataQ := p.dataQ.tail
          allocMeta := ((p.allocMeta + 1) % 2 ^ 32) &&& 0xFFFFFF
          allocBytes := (p.allocBytes + p.allocSizeOf s) % 2 ^ 32
          allocCount := (p.allocCount + 1) % 2 ^ 32 } : Pool) = q at he
      have hq1 : q.dataQ = [] := by rw [← hqdef]; simp only [hq, List.tail_nil]
      have hq2 : q.fixedSize = p.fixedSize := by rw [← hqdef]
      have hq3 : q.maxCount = p.maxCount := by rw [← hqdef]
      have hq4 : q.freed = p.freed := by rw [← hqdef]
      have hq5 : q.allocCount = (p.allocCount + 1) % 2 ^ 32 := by rw [← hqdef]
      have hq6 : q.allocBytes = (p.allocBytes + p.allocSizeOf s) % 2 ^ 32 := by rw [← hqdef]
      have hq7 : q.allocSizeOf s = p.allocSizeOf s := by
        unfold Pool.allocSizeOf; rw [hq2]
      have hq8 : q.bufSizeOf s = p.bufSizeOf s := by
        unfold Pool.bufSizeOf; rw [hq2]
      obtain ⟨⟨i1, i2⟩, ⟨i3, i4, i5, i6⟩, i7, i8⟩ :=
        ih q hq1 (fun x hx => hnz x (List.mem_cons_of_mem _ hx))
          (by rw [hq5]; exact Nat.mod_lt _ (by norm_num))
          (by rw [hq6]; exact Nat.mod_lt _ (by norm_num))
      simp only [List.map_cons, run_cons_fst, run_cons_snd, he, Option.toList_some,
        List.singleton_append, List.length_cons]
      refine ⟨⟨?_, ?_⟩, ⟨i3, i4.trans hq2, i5.trans hq3, i6.trans hq4⟩, ?_, ?_⟩
      · rw [i1]
        simp only [Buffer.create, hq, List.headD_nil]
      · intro b hb
        rcases List.mem_cons.mp hb with rfl | hin
        · exact ⟨rfl, rfl⟩
        · rw [← hq7, ← hq8]
          exact i2 b hin
      · rw [i7, hq5]
        omega
      · rw [i8, hq6, hq7, Nat.add_mul, Nat.one_mul]
        omega

/-- Allocations served from the queue: with at least as many queued regions as calls, the
buffers are dispensed over the queued regions, front first, whatever `malloc` would return. -/
theorem run_allocs_queued (s : Nat) (later : List Nat) :
    ∀ p : Pool, later.length ≤ p.dataQ.length →
      p.allocCount < 2 ^ 32 → p.allocBytes < 2 ^ 32 →
      (p.run (later.map (PoolCall.allocBuffer s))).2.map Buffer.data =
          p.dataQ.take later.length ∧
        ((p.run (later.map (PoolCall.allocBuffer s))).1.dataQ = p.dataQ.drop later.length ∧
          (p.run (later.map (PoolCall.allocBuffer s))).1.freed = p.freed) ∧
        (p.run (later.map (PoolCall.allocBuffer s))).1.allocCount =
          (p.allocCount + later.length) % 2 ^ 32 ∧
        (p.run (later.map (PoolCall.allocBuffer s))).1.allocBytes =
          (p.allocBytes + later.length * p.allocSizeOf s) % 2 ^ 32 := by
  induction later with
  | nil =>
    intro p _ hcnt hbytes
    simp [run_nil]
    constructor <;> omega
  | cons r rs ih =>
    intro p hlen _ _
    rw [List.length_cons] at hlen
    obtain ⟨d, ds, hds⟩ : ∃ d ds, p.dataQ = d :: ds := by
      cases hq : p.dataQ with
      | nil => rw [hq] at hlen; simp at hlen
      | cons d ds => exact ⟨d, ds, rfl⟩
    rcases call_alloc p s r with ⟨h0, _, _⟩ | ⟨_, he⟩
    · rw [hds] at h0; exact absurd h0 (List.cons_ne_nil _ _)
    · generalize hqdef : ({ p with
          dataQ := p.dataQ.tail
          allocMeta := ((p.allocMeta + 1) % 2 ^ 32) &&& 0xFFFFFF
          allocBytes := (p.allocBytes + p.allocSizeOf s) % 2 ^ 32
          allocCount := (p.allocCount + 1) % 2 ^ 32 } : Pool) = q at he
      have hq1 : q.dataQ = ds := by rw [← hqdef]; simp only [hds, List.tail_cons]
      have hq2 : q.fixedSize = p.fixedSize := by rw [← hqdef]
      have hq4 : q.freed = p.freed := by rw [← hqdef]
      have hq5 : q.allocCount = (p.allocCount + 1) % 2 ^ 32 := by rw [← hqdef]
      have hq6 : q.allocBytes = (p.allocBytes + p.allocSizeOf s) % 2 ^ 32 := by rw [← hqdef]
      have hq7 : q.allocSizeOf s = p.allocSizeOf s := by
        unfold Pool.allocSizeOf; rw [hq2]
      obtain ⟨i1, ⟨i3, i6⟩, i7, i8⟩ := ih q
        (by rw [hq1]; rw [hds, List.length_cons] at hlen; omega)
        (by rw [hq5]; exact Nat.mod_lt _ (by norm_num))
        (by rw [hq6]; exact Nat.mod_lt _ (by norm_num))
      simp only [List.map_cons, run_cons_fst, run_cons_snd, he, Option.toList_some,
        List.singleton_append, List.length_cons]
      refine ⟨?_, ⟨?_, i6.trans hq4⟩, ?_, ?_⟩
      · rw [i1, hq1, hds]
        simp only [Buffer.create, List.headD_cons, List.take_succ_cons]
      · rw [i3, hq1, hds]
        simp only [List.drop_succ_cons]
      · rw [i7, hq5]
        omega
      · rw [i8, hq6, hq7, Nat.add_mul, Nat.one_mul]
        omega

/-- Drops of buffers whose allocation size is the fixed size: the regions go to the queue while
it is below its maximum and to `free` after that, no buffer is dispensed, and the counters go
down. -/
theorem run_drops (bufs : List Buffer) :
    ∀ p : Pool, (∀ b ∈ bufs, b.data ≠ 0 ∧ b.allocSize = p.fixedSize) →
      p.allocCount < 2 ^ 32 → p.allocBytes < 2 ^ 32 →
      ((p.run (bufs.map Buffer.drop)).1.dataQ =
          p.dataQ ++ (bufs.map Buffer.data).take (p.maxCount - p.dataQ.length) ∧
        (p.run (bufs.map Buffer.drop)).1.freed =
          p.freed ++ (bufs.map Buffer.data).drop (p.maxCount - p.dataQ.length)) ∧
      ((p.run (bufs.map Buffer.drop)).1.fixedSize = p.fixedSize ∧
        (p.run (bufs.map Buffer.drop)).1.maxCount = p.maxCount) ∧
      ((p.run (bufs.map Buffer.drop)).1.allocCount + bufs.length) % 2 ^ 32 = p.allocCount ∧
      ((p.run (bufs.map Buffer.drop)).1.allocBytes + bufs.length * p.fixedSize) % 2 ^ 32 =
        p.allocBytes ∧
      (p.run (bufs.map Buffer.drop)).1.allocCount < 2 ^ 32 ∧
      (p.run (bufs.map Buffer.drop)).1.allocBytes < 2 ^ 32 := by
  induction bufs with
  | nil =>
    intro p _ hcnt hbytes
    simp [run_nil]
    refine ⟨?_, ?_, ?_, ?_⟩ <;> omega
  | cons b bs ih =>
    intro p hall hcnt hbytes
    obtain ⟨hd, hs⟩ := hall b (List.mem_cons_self _ _)
    generalize hqdef : p.retBuffer b.data b.meta b.allocSize = q
    have hcall : p.call b.drop = (q, none) := by
      rw [← hqdef]; rfl
    have hreg := retBuffer_region p b.data b.meta b.allocSize
    rw [hqdef] at hreg
    have hq2 : q.fixedSize = p.fixedSize := by
      rw [← hqdef]; unfold Pool.retBuffer; split_ifs <;> rfl
    have hq3 : q.maxCount = p.maxCount := by
      rw [← hqdef]; unfold Pool.retBuffer; split_ifs <;> rfl
    have hq5 : q.allocCount = (p.allocCount + 2 ^ 32 - 1) % 2 ^ 32 := by
      rw [← hqdef]; unfold Pool.retBuffer; split_ifs <;> rfl
    have hq6 : q.allocBytes = (p.allocBytes + 2 ^ 32 - b.allocSize % 2 ^ 32) % 2 ^ 32 := by
      rw [← hqdef]; unfold Pool.retBuffer; split_ifs <;> rfl
    obtain ⟨⟨i1, i2⟩, ⟨i3, i4⟩, i5, i6, i7, i8⟩ := ih q (fun x hx => by
      rw [hq2]; exact hall x (List.mem_cons_of_mem _ hx))
      (by rw [hq5]; exact Nat.mod_lt _ (by norm_num))
      (by rw [hq6]; exact Nat.mod_lt _ (by norm_num))
    simp only [List.map_cons, run_cons_fst, hcall, List.length_cons]
    refine ⟨?_, ⟨i3.trans hq2, i4.trans hq3⟩, ?_, ?_, ?_, ?_⟩
    · by_cases hroom : p.dataQ.length < p.maxCount
      · obtain ⟨e1, e2⟩ := hreg.1 hd ⟨hs, hroom⟩
        rw [i1, i2, e1, e2, hq3, List.length_append, List.length_singleton]
        obtain ⟨k, hk⟩ : ∃ k, p.maxCount - p.dataQ.length = k + 1 :=
          ⟨p.maxCount - p.dataQ.length - 1, by omega⟩
        have hk2 : p.maxCount - (p.dataQ.length + 1) = k := by omega
        rw [hk, hk2]
        simp only [List.take_succ_cons, List.drop_succ_cons, List.append_assoc,
          List.singleton_append, and_self]
      · obtain ⟨e1, e2⟩ := hreg.2.1 hd (fun h => hroom h.2)
        have hz : p.maxCount - p.dataQ.length = 0 := by omega
        rw [i1, i2, e1, e2, hq3, hz]
        simp only [List.take_zero, List.drop_zero, List.append_nil, List.append_assoc,
          List.singleton_append, and_self]
    · rw [hq5] at i5
      omega
    · rw [hq6, hq2, ← hs] at i6
      rw [← hs, Nat.add_mul, Nat.one_mul]
      omega
    · exact i7
    · exact i8

/-- Allocations on a pool with regions in its queue, `malloc` not failing once the queue is
empty: the buffers are dispensed over the queued regions first, front first, and over the
regions `malloc` returns after that; nothing is freed and the counters go up. -/
theorem run_allocs_mixed (s : Nat) (later : List Nat) :
    ∀ p : Pool, (∀ r ∈ later.drop p.dataQ.length, r ≠ 0) →
      p.allocCount < 2 ^ 32 → p.allocBytes < 2 ^ 32 →
      (p.run (later.map (PoolCall.allocBuffer s))).2.map Buffer.data =
          p.dataQ.take later.length ++ later.drop p.dataQ.length ∧
        ((p.run (later.map (PoolCall.allocBuffer s))).1.dataQ = p.dataQ.drop later.length ∧
          (p.run (later.map (PoolCall.allocBuffer s))).1.freed = p.freed) ∧
        (p.run (later.map (PoolCall.allocBuffer s))).1.allocCount =
          (p.allocCount + later.length) % 2 ^ 32 ∧
        (p.run (later.map (PoolCall.allocBuffer s))).1.allocBytes =
          (p.allocBytes + later.length * p.allocSizeOf s) % 2 ^ 32 := by
  induction later with
  | nil =>
    intro p _ hcnt hbytes
    simp [run_nil]
    constructor <;> omega
  | cons r rs ih =>
    intro p hnz _ _
    have hne : p.dataQ ≠ [] ∨ r ≠ 0 := by
      cases hq : p.dataQ with
      | nil =>
        right
        apply hnz
        rw [hq]
        simp
      | cons d ds => exact Or.inl (List.cons_ne_nil _ _)
    rcases call_alloc p s r with ⟨h0, h1, _⟩ | ⟨_, he⟩
    · rcases hne with h | h
      · exact absurd h0 h
      · exact absurd h1 h
    · generalize hqdef : ({ p with
          dataQ := p.dataQ.tail
          allocMeta := ((p.allocMeta + 1) % 2 ^ 32) &&& 0xFFFFFF
          allocBytes := (p.allocBytes + p.allocSizeOf s) % 2 ^ 32
          allocCount := (p.allocCount + 1) % 2 ^ 32 } : Pool) = q at he
      have hq1 : q.dataQ = p.dataQ.tail := by rw [← hqdef]
      have hq2 : q.fixedSize = p.fixedSize := by rw [← hqdef]
      have hq4 : q.freed = p.freed := by rw [← hqdef]
      have hq5 : q.allocCount = (p.allocCount + 1) % 2 ^ 32 := by rw [← hqdef]
      have hq6 : q.allocBytes = (p.allocBytes + p.allocSizeOf s) % 2 ^ 32 := by rw [← hqdef]
      have hq7 : q.allocSizeOf s = p.allocSizeOf s := by
        unfold Pool.allocSizeOf; rw [hq2]
      have hnz2 : ∀ x ∈ rs.drop q.dataQ.length, x ≠ 0 := by
        intro x hx
        apply hnz
        rw [hq1] at hx
        cases hq : p.dataQ with
        | nil =>
          rw [hq] at hx
          simp only [List.tail_nil, List.length_nil, List.drop_zero] at hx ⊢
          exact List.mem_cons_of_mem _ hx
        | cons d ds =>
          rw [hq] at hx
          simpa using hx
      obtain ⟨i1, ⟨i3, i6⟩, i7, i8⟩ := ih q hnz2
        (by rw [hq5]; exact Nat.mod_lt _ (by norm_num))
        (by rw [hq6]; exact Nat.mod_lt _ (by norm_num))
      simp only [List.map_cons, run_cons_fst, run_cons_snd, he, Option.toList_some,
        List.singleton_append, List.length_cons]
      refine ⟨?_, ⟨?_, i6.trans hq4⟩, ?_, ?_⟩
      · rw [i1, hq1]
        cases hq : p.dataQ with
        | nil => simp [Buffer.create]
        | cons d ds => simp [Buffer.create]
      · rw [i3, hq1]
        cases hq : p.dataQ with
        | nil => simp
        | cons d ds => simp
      · rw [i7, hq5]
        omega
      · rw [i8, hq6, hq7, Nat.add_mul, Nat.one_mul]
        omega

/-- The first two phases of `recycle`: on a new pool after `enBufferPool(s, c)`, one buffer of
size `s` is allocated per region and all are returned in allocation order.  The first
`min(n, c)` regions are then in the queue, the others were released, both counters are back
at 0, and `recycle` goes on with the later allocations from that pool. -/
theorem recycle_returned (s c : Nat) (regions later : List Nat)
    (hreg : ∀ r ∈ regions, r ≠ 0) :
    ∃ p2, recycle s c regions later =
        some (p2, (p2.run (later.map (PoolCall.allocBuffer s))).1,
          (p2.run (later.map (PoolCall.allocBuffer s))).2) ∧
      p2.dataQ = regions.take c ∧ p2.freed = regions.drop c ∧
      p2.allocCount = 0 ∧ p2.allocBytes = 0 ∧ p2.fixedSize = s := by
  generalize hp0 : ({ Pool.create with fixedSize := s, maxCount := c } : Pool) = p0
  have hen : Pool.create.enBufferPool s c = some p0 := by
    rw [← hp0]; rfl
  have hfix : p0.fixedSize = s := by rw [← hp0]
  have hmax : p0.maxCount = c := by rw [← hp0]
  have hq0 : p0.dataQ = [] := by rw [← hp0]; rfl
  have hfr0 : p0.freed = [] := by rw [← hp0]; rfl
  have hc0 : p0.allocCount = 0 := by rw [← hp0]; rfl
  have hb0 : p0.allocBytes = 0 := by rw [← hp0]; rfl
  have hsz : p0.allocSizeOf s = s := by
    unfold Pool.allocSizeOf
    rw [hfix]
    split_ifs <;> rfl
  obtain ⟨⟨a1, a2⟩, ⟨a3, a4, a5, a6⟩, a7, a8⟩ := run_allocs_fresh s regions p0 hq0 hreg
    (by rw [hc0]; norm_num) (by rw [hb0]; norm_num)
  generalize hr1 : p0.run (regions.map (PoolCall.allocBuffer s)) = r1 at a1 a2 a3 a4 a5 a6 a7 a8
  have hlen1 : r1.2.length = regions.length := by
    rw [← a1, List.length_map]
  have hbufs : ∀ b ∈ r1.2, b.data ≠ 0 ∧ b.allocSize = r1.1.fixedSize := by
    intro b hb
    refine ⟨hreg b.data ?_, ?_⟩
    · rw [← a1]; exact List.mem_map_of_mem _ hb
    · rw [(a2 b hb).1, hsz, a4, hfix]
  obtain ⟨⟨d1, d2⟩, ⟨d3, d4⟩, d5, d6, d7, d8⟩ := run_drops r1.2 r1.1 hbufs
    (by rw [a7]; exact Nat.mod_lt _ (by norm_num))
    (by rw [a8]; exact Nat.mod_lt _ (by norm_num))
  generalize hp2 : (r1.1.run (r1.2.map Buffer.drop)).1 = p2 at d1 d2 d3 d4 d5 d6 d7 d8
  rw [a3, a1, a5, hmax] at d1
  rw [a6, hfr0, a1, a3, a5, hmax] at d2
  simp only [List.nil_append, List.length_nil, Nat.sub_zero] at d1 d2
  rw [hc0, Nat.zero_add] at a7
  rw [hb0, Nat.zero_add, hsz] at a8
  rw [hlen1, a7] at d5
  rw [hlen1, a4, hfix, a8] at d6
  refine ⟨p2, ?_, d1, d2, by omega, by omega, by rw [d3, a4, hfix]⟩
  unfold recycle
  rw [hen]
  simp only [hr1, hp2]

/-- The allocation counter after `2 ^ 32` later allocations in `recycle`: it is back at 0. -/
theorem recycle_count_wraps (s c : Nat) (regions later : List Nat)
    (hreg : ∀ r ∈ regions, r ≠ 0) (hlater : ∀ r ∈ later, r ≠ 0)
    (hlen : later.length = 2 ^ 32) :
    (recycle s c regions later).map (fun r => r.2.1.allocCount) = some 0 := by
  obtain ⟨p2, hrec, _, _, hcount2, hbytes2, _⟩ := recycle_returned s c regions later hreg
  obtain ⟨_, _, q4, _⟩ := run_allocs_mixed s later p2
    (fun r hr => hlater r (List.mem_of_mem_drop hr))
    (by rw [hcount2]; norm_num) (by rw [hbytes2]; norm_num)
  rw [hrec, Option.map_some', q4, hcount2, hlen, Nat.zero_add, Nat.mod_self]

/-- C11, counterexample: with `s = 0x80000000`, `c = 2`, two buffers allocated and returned and
then `k = 2` allocations, both served from the queue, `allocBytes_` is 0 and not
`k * s = 0x100000000`: the counter is a `uint32_t`.  So is `allocCount_`: with `s = 1024`,
`c = 2`, one buffer allocated and returned and then `k = 2 ^ 32` allocations, it is 0. -/
theorem recycling_bytes_wrap :
    ((recycle 0x80000000 2 [0x1000, 0x80002000] [0, 0]).map
        (fun r => (r.2.1.allocCount, r.2.1.allocBytes, r.2.2.map Buffer.data)) =
      some (2, 0, [0x1000, 0x80002000]) ∧ 2 * 0x80000000 ≠ 0) ∧
      (recycle 1024 2 [0x1000] (List.replicate (2 ^ 32) 0x2000)).map
        (fun r => r.2.1.allocCount) = some 0 ∧ 2 ^ 32 ≠ 0 :=
  ⟨by decide,
    recycle_count_wraps 1024 2 [0x1000] (List.replicate (2 ^ 32) 0x2000) (by decide)
      (fun r hr => by rw [List.eq_of_mem_replicate hr]; decide) (List.length_replicate _ _),
    by decide⟩

/-- C11, amended (pool recycling): on a new pool after `enBufferPool(s, c)`, allocating one
buffer of size `s` per region (`n` regions, `malloc` succeeding) and then returning all of them
in allocation order leaves the first `min(n, c)` regions in the queue, releases the others and
brings both counters back to 0; the next `k` allocations of size `s`, for every `k`, hand out
the queued regions first in first out before any system allocation (the buffers after the
first `min(n, c)` are over the regions `malloc` returns) and release nothing, and after them
`allocCount_ == k` and `allocBytes_ == k * s`, both modulo `2 ^ 32`, the counters being
`uint32_t`; `allocCount_` is `k` itself for `k < 2 ^ 32`. -/
theorem pool_recycling (s c : Nat) (regions later : List Nat)
    (hreg : ∀ r ∈ regions, r ≠ 0)
    (hlater : ∀ r ∈ later.drop (min regions.length c), r ≠ 0) :
    ∃ p2 p3 bufs, recycle s c regions later = some (p2, p3, bufs) ∧
      p2.dataQ = regions.take c ∧ p2.freed = regions.drop c ∧
      p2.allocCount = 0 ∧ p2.allocBytes = 0 ∧
      bufs.map Buffer.data =
        (regions.take c).take later.length ++ later.drop (min regions.length c) ∧
      p3.dataQ = (regions.take c).drop later.length ∧ p3.freed = p2.freed ∧
      p3.allocCount = later.length % 2 ^ 32 ∧
      (later.length < 2 ^ 32 → p3.allocCount = later.length) ∧
      p3.allocBytes = (later.length * s) % 2 ^ 32 := by
  obtain ⟨p2, hrec, d1, d2, hcount2, hbytes2, hfix2⟩ := recycle_returned s c regions later hreg
  have hsz2 : p2.allocSizeOf s = s := by
    unfold Pool.allocSizeOf
    rw [hfix2]
    split_ifs <;> rfl
  have hlenq : p2.dataQ.length = min regions.length c := by
    rw [d1, List.length_take, Nat.min_comm]
  obtain ⟨q1, ⟨q2, q3⟩, q4, q5⟩ := run_allocs_mixed s later p2 (by rw [hlenq]; exact hlater)
    (by rw [hcount2]; norm_num) (by rw [hbytes2]; norm_num)
  have hcnt3 : (p2.run (later.map (PoolCall.allocBuffer s))).1.allocCount =
      later.length % 2 ^ 32 := by
    rw [q4, hcount2, Nat.zero_add]
  refine ⟨p2, (p2.run (later.map (PoolCall.allocBuffer s))).1,
    (p2.run (later.map (PoolCall.allocBuffer s))).2, hrec, d1, d2, hcount2, hbytes2, ?_, ?_, q3,
    hcnt3, ?_, ?_⟩
  · rw [q1, hlenq, d1]
  · rw [q2, d1]
  · intro hlt
    rw [hcnt3]
    exact Nat.mod_eq_of_lt hlt
  · rw [q5, hbytes2, Nat.zero_add, hsz2]

/-- Witness of `pool_recycling`: the scenario of the spec, `s = 1024`, `c = 2`, three buffers
allocated and dropped, then two allocations: they reuse the regions of the first two buffers,
the third region was released, and the counters end at 2 and 2048.  With three allocations
instead the third buffer is over the region `malloc` returns, and the counters end at 3 and
3072. -/
theorem pool_recycling_witness :
    (∃ p2 p3 bufs, recycle 1024 2 [0x1000, 0x2000, 0x3000] [0, 0] = some (p2, p3, bufs) ∧
        p2.dataQ = [0x1000, 0x2000] ∧ p2.freed = [0x3000] ∧
        bufs.map Buffer.data = [0x1000, 0x2000] ∧
        p3.allocCount = 2 ∧ p3.allocBytes = 2048) ∧
      ∃ p2 p3 bufs,
        recycle 1024 2 [0x1000, 0x2000, 0x3000] [0, 0, 0x4000] = some (p2, p3, bufs) ∧
        p2.dataQ = [0x1000, 0x2000] ∧ p2.freed = [0x3000] ∧
        bufs.map Buffer.data = [0x1000, 0x2000, 0x4000] ∧
        p3.allocCount = 3 ∧ p3.allocBytes = 3072 := by
  obtain ⟨p2, p3, bufs, h, h1, h2, _, _, h5, _, _, _, h8, h9⟩ :=
    pool_recycling 1024 2 [0x1000, 0x2000, 0x3000] [0, 0] (by decide) (by decide)
  obtain ⟨q2, q3, bufs2, g, g1, g2, _, _, g5, _, _, _, g8, g9⟩ :=
    pool_recycling 1024 2 [0x1000, 0x2000, 0x3000] [0, 0, 0x4000] (by decide) (by decide)
  exact ⟨⟨p2, p3, bufs, h, h1, h2, h5, h8 (by decide), h9⟩,
    ⟨q2, q3, bufs2, g, g1, g2, g5, g8 (by decide), g9⟩⟩

end rogue.interfaces.stream

/-! ## DMA adapters: buffer return and transmit -/

namespace rogue.hardware

open rogue.interfaces.stream

/-- The test `(meta & 0x80000000) != 0` of the adapters reads bit 31 of the meta word. -/
theorem meta_bit31 (meta : Nat) : (meta &&& 0x80000000 ≠ 0) ↔ meta.testBit 31 = true := by
  have h := rogue.protocols.rssi.and_two_pow_ne_zero meta 31
  have e : (0x80000000 : Nat) = 2 ^ 31 := by norm_num
  rw [e, ← h]
  simp

/-- The test `(meta & 0x40000000) == 0` of the adapters reads bit 30 of the meta word. -/
theorem meta_bit30 (meta : Nat) : (meta &&& 0x40000000 = 0) ↔ meta.testBit 30 = false := by
  have h := rogue.protocols.rssi.and_two_pow_ne_zero meta 30
  have e : (0x40000000 : Nat) = 2 ^ 30 := by norm_num
  rw [e, ← h]
  simp

/-- Marking a buffer as handed over sets bit 30 and keeps bit 31 and the index bits. -/
theorem meta_mark (meta : Nat) :
    (meta ||| 0x40000000).testBit 30 = true ∧
      (meta ||| 0x40000000).testBit 31 = meta.testBit 31 := by
  have h30 : Nat.testBit 0x40000000 30 = true := by decide
  have h31 : Nat.testBit 0x40000000 31 = false := by decide
  rw [Nat.testBit_or, Nat.testBit_or, h30, h31]
  simp

/-- The effect of `Pool::decCounter` on the pool: the queue and everything else stay, the two
counters go down modulo `2 ^ 32`. -/
theorem decCounter_effect (p : Pool) (size : Nat) :
    (p.decCounter size).dataQ = p.dataQ ∧ (p.decCounter size).freed = p.freed ∧
      (p.decCounter size).allocCount = (p.allocCount + 2 ^ 32 - 1) % 2 ^ 32 ∧
      (p.decCounter size).allocBytes = (p.allocBytes + 2 ^ 32 - size % 2 ^ 32) % 2 ^ 32 ∧
      (1 ≤ p.allocCount → p.allocCount < 2 ^ 32 →
        (p.decCounter size).allocCount = p.allocCount - 1) ∧
      (size ≤ p.allocBytes → p.allocBytes < 2 ^ 32 →
        (p.decCounter size).allocBytes = p.allocBytes - size) := by
  unfold Pool.decCounter
  refine ⟨rfl, rfl, rfl, rfl, fun h1 h2 => ?_, fun h1 h2 => ?_⟩
  · simp only []
    omega
  · simp only []
    omega

end rogue.hardware

namespace rogue.hardware.pgp

open rogue.interfaces.stream rogue.hardware

/-- The three cases of `PgpCard::retBuffer` on an open device. -/
theorem pgp_retBuffer_cases (card : PgpCard) (data meta size : Nat) (hopen : 0 ≤ card.fd) :
    (meta.testBit 31 = true → meta.testBit 30 = false →
        card.retBuffer data meta size =
          ({ card with pool := card.pool.decCounter size },
            [DmaCall.dmaRetIndex (meta &&& 0x3FFFFFFF)])) ∧
      (meta.testBit 31 = true → meta.testBit 30 = true →
        card.retBuffer data meta size = ({ card with pool := card.pool.decCounter size }, [])) ∧
      (meta.testBit 31 = false →
        card.retBuffer data meta size =
          ({ card with pool := card.pool.retBuffer data meta size }, [])) := by
  unfold PgpCard.retBuffer
  refine ⟨fun h31 h30 => ?_, fun h31 h30 => ?_, fun h31 => ?_⟩
  · rw [if_pos ((meta_bit31 meta).mpr h31)]
    simp only [ge_iff_le, hopen, (meta_bit30 meta).mpr h30, and_self, if_true]
  · have hn : ¬ (meta &&& 0x40000000 = 0) := by
      rw [meta_bit30, h30]; simp
    rw [if_pos ((meta_bit31 meta).mpr h31)]
    simp only [ge_iff_le, hopen, hn, and_false, if_false]
  · have hn : ¬ (meta &&& 0x80000000 ≠ 0) := by
      rw [meta_bit31, h31]; simp
    rw [if_neg hn]

end rogue.hardware.pgp

namespace rogue.hardware.rce

open rogue.interfaces.stream rogue.hardware

/-- The three cases of `AxiStream::retBuffer` on an open device. -/
theorem axi_retBuffer_cases (card : AxiStream) (data meta size : Nat) (hopen : 0 ≤ card.fd) :
    (meta.testBit 31 = true → meta.testBit 30 = false →
        card.retBuffer data meta size =
          ({ card with pool := card.pool.decCounter size },
            [DmaCall.dmaRetIndex (meta &&& 0x3FFFFFFF)])) ∧
      (meta.testBit 31 = true → meta.testBit 30 = true →
        card.retBuffer data meta size = ({ card with pool := card.pool.decCounter size }, [])) ∧
      (meta.testBit 31 = false →
        card.retBuffer data meta size =
          ({ card with pool := card.pool.retBuffer data meta size }, [])) := by
  unfold AxiStream.retBuffer
  refine ⟨fun h31 h30 => ?_, fun h31 h30 => ?_, fun h31 => ?_⟩
  · rw [if_pos ((meta_bit31 meta).mpr h31)]
    simp only [ge_iff_le, hopen, (meta_bit30 meta).mpr h30, and_self, if_true]
  · have hn : ¬ (meta &&& 0x40000000 = 0) := by
      rw [meta_bit30, h30]; simp
    rw [if_pos ((meta_bit31 meta).mpr h31)]
    simp only [ge_iff_le, hopen, hn, and_false, if_false]
  · have hn : ¬ (meta &&& 0x80000000 ≠ 0) := by
      rw [meta_bit31, h31]; simp
    rw [if_neg hn]

end rogue.hardware.rce

namespace rogue.hardware

open rogue.interfaces.stream rogue.hardware.pgp rogue.hardware.rce

/-- C18 (zero-copy buffer return): on an open device `PgpCard::retBuffer` and
`AxiStream::retBuffer` call `dmaRetIndex` exactly once when meta bit 31 is set and bit 30 clear,
and not at all when bits 31 and 30 are both set or bit 31 is clear; in both zero-copy cases the
pool is changed by `decCounter(size)` only, which takes 1 from `allocCount_` and `size` from
`allocBytes_` (modulo `2 ^ 32`) and leaves the recycling queue alone; with bit 31 clear the call
is `Pool::retBuffer(data, meta, size)` and nothing else. -/
theorem retBuffer_zero_copy (card : PgpCard) (axi : AxiStream) (data meta size : Nat)
    (hopen : 0 ≤ card.fd) (hopen2 : 0 ≤ axi.fd) :
    (meta.testBit 31 = true → meta.testBit 30 = false →
        (card.retBuffer data meta size).2 = [DmaCall.dmaRetIndex (meta &&& 0x3FFFFFFF)] ∧
        (axi.retBuffer data meta size).2 = [DmaCall.dmaRetIndex (meta &&& 0x3FFFFFFF)]) ∧
      (meta.testBit 31 = true → meta.testBit 30 = true →
        (card.retBuffer data meta size).2 = [] ∧ (axi.retBuffer data meta size).2 = []) ∧
      (meta.testBit 31 = true →
        (card.retBuffer data meta size).1 = { card with pool := card.pool.decCounter size } ∧
        (axi.retBuffer data meta size).1 = { axi with pool := axi.pool.decCounter size } ∧
        ∀ p : Pool,
          (p.decCounter size).allocCount = (p.allocCount + 2 ^ 32 - 1) % 2 ^ 32 ∧
          (p.decCounter size).allocBytes = (p.allocBytes + 2 ^ 32 - size % 2 ^ 32) % 2 ^ 32 ∧
          (1 ≤ p.allocCount → p.allocCount < 2 ^ 32 →
            (p.decCounter size).allocCount = p.allocCount - 1) ∧
          (size ≤ p.allocBytes → p.allocBytes < 2 ^ 32 →
            (p.decCounter size).allocBytes = p.allocBytes - size) ∧
          (p.decCounter size).dataQ = p.dataQ ∧ (p.decCounter size).freed = p.freed) ∧
      (meta.testBit 31 = false →
        card.retBuffer data meta size =
          ({ card with pool := card.pool.retBuffer data meta size }, []) ∧
        axi.retBuffer data meta size =
          ({ axi with pool := axi.pool.retBuffer data meta size }, [])) := by
  obtain ⟨p1, p2, p3⟩ := pgp_retBuffer_cases card data meta size hopen
  obtain ⟨a1, a2, a3⟩ := axi_retBuffer_cases axi data meta size hopen2
  refine ⟨fun h31 h30 => ?_, fun h31 h30 => ?_, fun h31 => ?_, fun h31 => ⟨p3 h31, a3 h31⟩⟩
  · rw [p1 h31 h30, a1 h31 h30]
    exact ⟨rfl, rfl⟩
  · rw [p2 h31 h30, a2 h31 h30]
    exact ⟨rfl, rfl⟩
  · refine ⟨?_, ?_, fun p => ?_⟩
    · cases h30 : meta.testBit 30
      · rw [p1 h31 h30]
      · rw [p2 h31 h30]
    · cases h30 : meta.testBit 30
      · rw [a1 h31 h30]
      · rw [a2 h31 h30]
    · obtain ⟨d1, d2, d3, d4, d5, d6⟩ := decCounter_effect p size
      exact ⟨d3, d4, d5, d6, d1, d2⟩

/-- Witness of `retBuffer_zero_copy`: the drop of a zero-copy buffer over DMA index 5 on the
open example adapters returns index 5 to the driver, once. -/
theorem retBuffer_zero_copy_witness :
    (pgpExample.retBuffer 0x5000 0x80000005 2048).2 = [DmaCall.dmaRetIndex 5] ∧
      (axiExample.retBuffer 0x5000 0x80000005 2048).2 = [DmaCall.dmaRetIndex 5] :=
  (retBuffer_zero_copy pgpExample axiExample 0x5000 0x80000005 2048 (by decide)
    (by decide)).1 (by decide) (by decide)

end rogue.hardware

namespace rogue.hardware.pgp

open rogue.interfaces.stream rogue.hardware

/-- The zero-copy branch of `PgpCard::acceptFrame` on a frame of one buffer with meta bit 31 set
and bit 30 clear: one `dmaWriteIndex` call; on a result above 0 the buffer is marked, on a
result of 0 or less the write error is thrown and the buffer is left as it was. -/
theorem pgp_acceptFrame_index (card : PgpCard) (drv : Driver) (be : Backend) (fuel : Nat)
    (b : Buffer) (tr : List DmaCall) (h31 : b.meta.testBit 31 = true)
    (h30 : b.meta.testBit 30 = false) :
    (0 < be tr (DmaCall.dmaWriteIndex (b.meta &&& 0x3FFFFFFF) b.count (drv.pgpSetFlags 0)
          (drv.pgpSetDest card.lane card.vc)) →
        card.acceptFrame drv be fuel [b] tr =
          some { frame := [{ b with meta := b.meta ||| 0x40000000 }],
                 trace := tr ++ [DmaCall.dmaWriteIndex (b.meta &&& 0x3FFFFFFF) b.count
                   (drv.pgpSetFlags 0) (drv.pgpSetDest card.lane card.vc)],
                 error := none }) ∧
      (be tr (DmaCall.dmaWriteIndex (b.meta &&& 0x3FFFFFFF) b.count (drv.pgpSetFlags 0)
          (drv.pgpSetDest card.lane card.vc)) ≤ 0 →
        card.acceptFrame drv be fuel [b] tr =
          some { frame := [b],
                 trace := tr ++ [DmaCall.dmaWriteIndex (b.meta &&& 0x3FFFFFFF) b.count
                   (drv.pgpSetFlags 0) (drv.pgpSetDest card.lane card.vc)],
                 error := some GeneralError.general }) := by
  have g31 := (meta_bit31 b.meta).mpr h31
  have g30 := (meta_bit30 b.meta).mpr h30
  constructor
  · intro hpos
    simp only [PgpCard.acceptFrame, PgpCard.acceptBuffers, g31, g30, if_true, not_le.mpr hpos,
      if_false, List.nil_append, ne_eq, not_false_eq_true]
  · intro hle
    simp only [PgpCard.acceptFrame, PgpCard.acceptBuffers, g31, g30, if_true, hle,
      List.nil_append, ne_eq, not_false_eq_true]

/-- The software branch of `PgpCard::acceptFrame` never ends without an exception: whatever the
backend answers, the write loop is either still running or has thrown. -/
theorem pgp_writeLoop_never_done (card : PgpCard) (drv : Driver) (be : Backend) (buff : Buffer)
    (cont : Nat) :
    ∀ (fuel : Nat) (tr tr1 : List DmaCall),
      PgpCard.writeLoop card drv be buff cont fuel tr ≠ some (tr1, none) := by
  intro fuel
  induction fuel with
  | zero =>
    intro tr tr1 h
    simp [PgpCard.writeLoop] at h
  | succ fuel ih =>
    intro tr tr1 h
    simp only [PgpCard.writeLoop] at h
    split_ifs at h <;> first
      | exact ih _ _ h
      | (simp at h; done)
      | (exfalso; omega)

/-- With a backend that is always ready and never refuses a write, the write loop of
`PgpCard::acceptFrame` is still running after any number of rounds. -/
theorem pgp_writeLoop_runs (card : PgpCard) (drv : Driver) (be : Backend) (buff : Buffer)
    (cont : Nat) (hsel : ∀ tr, 0 < be tr (selectCall card.timeout))
    (hwr : ∀ tr data size flags dest, 0 ≤ be tr (DmaCall.dmaWrite data size flags dest)) :
    ∀ (fuel : Nat) (tr : List DmaCall),
      PgpCard.writeLoop card drv be buff cont fuel tr = none := by
  intro fuel
  induction fuel with
  | zero => intro tr; rfl
  | succ fuel ih =>
    intro tr
    have h1 : ¬ be tr (selectCall card.timeout) ≤ 0 := not_le.mpr (hsel tr)
    have h2 : ¬ be (tr ++ [selectCall card.timeout]) (DmaCall.dmaWrite buff.data buff.count
        (drv.pgpSetFlags cont) (drv.pgpSetDest card.lane card.vc)) < 0 :=
      not_lt.mpr (hwr _ _ _ _ _)
    simp only [PgpCard.writeLoop, if_neg h1, if_neg h2, ne_eq, not_true_eq_false, if_false,
      if_true, ih]

end rogue.hardware.pgp

namespace rogue.hardware.rce

open rogue.interfaces.stream rogue.hardware

/-- The zero-copy branch of `AxiStream::acceptFrame` on a frame of one buffer with meta bit 31
set and bit 30 clear: one `dmaWriteIndex` call; on a result above 0 the buffer is marked, on a
result of 0 or less the write error is thrown and the buffer is left as it was. -/
theorem axi_acceptFrame_index (card : AxiStream) (drv : Driver) (be : Backend) (fuel : Nat)
    (b : Buffer) (tr : List DmaCall) (h31 : b.meta.testBit 31 = true)
    (h30 : b.meta.testBit 30 = false) :
    (0 < be tr (DmaCall.dmaWriteIndex (b.meta &&& 0x3FFFFFFF) b.count (card.txFlags drv b)
          card.dest) →
        card.acceptFrame drv be fuel [b] tr =
          some { frame := [{ b with meta := b.meta ||| 0x40000000 }],
                 trace := tr ++ [DmaCall.dmaWriteIndex (b.meta &&& 0x3FFFFFFF) b.count
                   (card.txFlags drv b) card.dest],
                 error := none }) ∧
      (be tr (DmaCall.dmaWriteIndex (b.meta &&& 0x3FFFFFFF) b.count (card.txFlags drv b)
          card.dest) ≤ 0 →
        card.acceptFrame drv be fuel [b] tr =
          some { frame := [b],
                 trace := tr ++ [DmaCall.dmaWriteIndex (b.meta &&& 0x3FFFFFFF) b.count
                   (card.txFlags drv b) card.dest],
                 error := some GeneralError.general }) := by
  have g31 := (meta_bit31 b.meta).mpr h31
  have g30 := (meta_bit30 b.meta).mpr h30
  constructor
  · intro hpos
    simp only [AxiStream.acceptFrame, AxiStream.acceptBuffers, g31, g30, if_true,
      not_le.mpr hpos, if_false, List.nil_append, ne_eq, not_false_eq_true]
  · intro hle
    simp only [AxiStream.acceptFrame, AxiStream.acceptBuffers, g31, g30, if_true, hle,
      List.nil_append, ne_eq, not_false_eq_true]

/-- The software branch of `AxiStream::acceptFrame` with a backend that is ready and whose
write returns a count above 0 at the first call: one wait, one write, and the loop is left. -/
theorem axi_writeLoop_once (card : AxiStream) (drv : Driver) (be : Backend) (buff : Buffer)
    (fuel : Nat) (tr : List DmaCall) (hsel : 0 < be tr (selectCall card.timeout))
    (hwr : 0 < be (tr ++ [selectCall card.timeout])
      (DmaCall.dmaWrite buff.data buff.count (card.txFlags drv buff) card.dest)) :
    AxiStream.writeLoop card drv be buff (fuel + 1) tr =
      some (tr ++ [selectCall card.timeout,
        DmaCall.dmaWrite buff.data buff.count (card.txFlags drv buff) card.dest], none) := by
  have h1 : ¬ be tr (selectCall card.timeout) ≤ 0 := not_le.mpr hsel
  have h2 : ¬ be (tr ++ [selectCall card.timeout])
      (DmaCall.dmaWrite buff.data buff.count (card.txFlags drv buff) card.dest) < 0 := by omega
  have h3 : ¬ be (tr ++ [selectCall card.timeout])
      (DmaCall.dmaWrite buff.data buff.count (card.txFlags drv buff) card.dest) = 0 := by omega
  simp only [AxiStream.writeLoop, if_neg h1, if_neg h2, if_neg h3]

end rogue.hardware.rce

namespace rogue.hardware

open rogue.interfaces.stream rogue.hardware.pgp rogue.hardware.rce

/-- C19, counterexample: a frame of one zero-copy buffer over DMA index 5 with nothing written
(`n = 0`), on a backend whose `dmaWriteIndex` returns the byte count it was given. The one
`dmaWriteIndex` call returns 0, `acceptFrame` throws the write error and leaves meta bit 30
clear, and the later drop of the buffer returns index 5 to the driver. -/
theorem zero_length_transmit_throws :
    pgpExample.acceptFrame plainDriver echoBackend 1 [zeroCopyBuffer] [] =
        some { frame := [zeroCopyBuffer], trace := [DmaCall.dmaWriteIndex 5 0 0 0],
               error := some GeneralError.general } ∧
      axiExample.acceptFrame plainDriver echoBackend 1 [zeroCopyBuffer] [] =
        some { frame := [zeroCopyBuffer], trace := [DmaCall.dmaWriteIndex 5 0 0 0],
               error := some GeneralError.general } ∧
      zeroCopyBuffer.meta.testBit 30 = false ∧
      (pgpExample.retBuffer zeroCopyBuffer.data zeroCopyBuffer.meta
        zeroCopyBuffer.allocSize).2 = [DmaCall.dmaRetIndex 5] := by
  decide

/-- C19, amended (zero-copy transmit): with a backend whose `dmaWriteIndex` returns the byte
count it was given, for a frame of one buffer with meta bit 31 set, bit 30 clear and `n` bytes
used: when `n > 0`, `acceptFrame` (of `PgpCard` and of `AxiStream`) calls `dmaWriteIndex`
exactly once, with the index `meta & 0x3FFFFFFF` and length `n`, returns, and leaves the buffer
with meta bit 30 set, so that its later drop calls `dmaRetIndex` zero times; when `n = 0` the
one `dmaWriteIndex` call, with that index and length 0, returns 0, `acceptFrame` throws the
write error, the buffer keeps its meta word with bit 30 clear, and its later drop, the device
being open, makes the one call `dmaRetIndex(index)`. -/
theorem zero_copy_transmit (card : PgpCard) (axi : AxiStream) (drv : Driver) (be : Backend)
    (fuel : Nat) (b : Buffer) (tr : List DmaCall)
    (hbe : ∀ tr index size flags dest,
      be tr (DmaCall.dmaWriteIndex index size flags dest) = (size : Int))
    (h31 : b.meta.testBit 31 = true) (h30 : b.meta.testBit 30 = false) :
    (0 < b.count →
        card.acceptFrame drv be fuel [b] tr =
          some { frame := [{ b with meta := b.meta ||| 0x40000000 }],
                 trace := tr ++ [DmaCall.dmaWriteIndex (b.meta &&& 0x3FFFFFFF) b.count
                   (drv.pgpSetFlags 0) (drv.pgpSetDest card.lane card.vc)],
                 error := none } ∧
        axi.acceptFrame drv be fuel [b] tr =
          some { frame := [{ b with meta := b.meta ||| 0x40000000 }],
                 trace := tr ++ [DmaCall.dmaWriteIndex (b.meta &&& 0x3FFFFFFF) b.count
                   (axi.txFlags drv b) axi.dest],
                 error := none } ∧
        (b.meta ||| 0x40000000).testBit 30 = true ∧
        ∀ size, (card.retBuffer b.data (b.meta ||| 0x40000000) size).2 = [] ∧
          (axi.retBuffer b.data (b.meta ||| 0x40000000) size).2 = []) ∧
      (b.count = 0 →
        card.acceptFrame drv be fuel [b] tr =
          some { frame := [b],
                 trace := tr ++ [DmaCall.dmaWriteIndex (b.meta &&& 0x3FFFFFFF) 0
                   (drv.pgpSetFlags 0) (drv.pgpSetDest card.lane card.vc)],
                 error := some GeneralError.general } ∧
        axi.acceptFrame drv be fuel [b] tr =
          some { frame := [b],
                 trace := tr ++ [DmaCall.dmaWriteIndex (b.meta &&& 0x3FFFFFFF) 0
                   (axi.txFlags drv b) axi.dest],
                 error := some GeneralError.general } ∧
        b.meta.testBit 30 = false ∧
        (0 ≤ card.fd → ∀ size, (card.retBuffer b.data b.meta size).2 =
          [DmaCall.dmaRetIndex (b.meta &&& 0x3FFFFFFF)]) ∧
        (0 ≤ axi.fd → ∀ size, (axi.retBuffer b.data b.meta size).2 =
          [DmaCall.dmaRetIndex (b.meta &&& 0x3FFFFFFF)])) := by
  obtain ⟨p1, p2⟩ := pgp_acceptFrame_index card drv be fuel b tr h31 h30
  obtain ⟨a1, a2⟩ := axi_acceptFrame_index axi drv be fuel b tr h31 h30
  rw [hbe] at p1 p2 a1 a2
  obtain ⟨m30, m31⟩ := meta_mark b.meta
  rw [h31] at m31
  constructor
  · intro hpos
    refine ⟨p1 (by omega), a1 (by omega), m30, fun size => ?_⟩
    have g31 := (meta_bit31 (b.meta ||| 0x40000000)).mpr m31
    have g30 : ¬ ((b.meta ||| 0x40000000) &&& 0x40000000 = 0) := by
      rw [meta_bit30, m30]; simp
    constructor
    · unfold PgpCard.retBuffer
      rw [if_pos g31]
      simp only [g30, and_false, if_false]
    · unfold AxiStream.retBuffer
      rw [if_pos g31]
      simp only [g30, and_false, if_false]
  · intro h0
    rw [h0] at p2 a2
    refine ⟨p2 (by simp), a2 (by simp), h30, fun hopen size => ?_, fun hopen size => ?_⟩
    · rw [(pgp_retBuffer_cases card b.data b.meta size hopen).1 h31 h30]
    · rw [(axi_retBuffer_cases axi b.data b.meta size hopen).1 h31 h30]

/-- Witness of `zero_copy_transmit`: the zero-copy buffer over DMA index 5 with 64 bytes
written is sent by one `dmaWriteIndex(5, 64, ...)` call and comes back with bit 30 set. -/
theorem zero_copy_transmit_witness :
    pgpExample.acceptFrame plainDriver echoBackend 1 [{ zeroCopyBuffer with count := 64 }] [] =
      some { frame := [{ zeroCopyBuffer with count := 64, meta := 0xC0000005 }],
             trace := [DmaCall.dmaWriteIndex 5 64 0 0], error := none } :=
  ((zero_copy_transmit pgpExample axiExample plainDriver echoBackend 1
    { zeroCopyBuffer with count := 64 } [] (fun _ _ _ _ _ => rfl) (by decide) (by decide)).1
    (by decide)).1

/-- C20, the code on a software-owned buffer: with a backend that is always ready and whose
`dmaWrite` returns the byte count at the first call, `PgpCard::acceptFrame` on a frame of one
buffer with meta bit 31 clear never returns, whatever the number of rounds allowed: the source
assigns `res = dmaWrite(...) < 0`, which is 0 after every accepted write, so the loop
`while ( res == 0 )` goes on writing the buffer.  `AxiStream::acceptFrame`, whose assignment is
`(res = dmaWrite(...)) < 0`, returns on the same input after one wait and one write. -/
theorem pgp_software_transmit_never_returns (fuel : Nat) :
    softwareBuffer.meta.testBit 31 = false ∧
      pgpExample.acceptFrame plainDriver echoBackend fuel [softwareBuffer] [] = none ∧
      axiExample.acceptFrame plainDriver echoBackend (fuel + 1) [softwareBuffer] [] =
        some { frame := [softwareBuffer],
               trace := [DmaCall.select 1 0, DmaCall.dmaWrite 0x6000 64 0 0],
               error := none } := by
  refine ⟨by decide, ?_, ?_⟩
  · have h := pgp_writeLoop_runs pgpExample plainDriver echoBackend softwareBuffer 0
      (fun _ => by simp [echoBackend, selectCall]) (fun _ _ _ _ _ => by simp [echoBackend])
      fuel []
    have hm : ¬ (softwareBuffer.meta &&& 0x80000000 ≠ 0) := by decide
    simp only [PgpCard.acceptFrame, PgpCard.acceptBuffers, hm, if_false, if_true, h]
  · have h := axi_writeLoop_once axiExample plainDriver echoBackend softwareBuffer fuel []
      (by decide) (by decide)
    have hm : ¬ (softwareBuffer.meta &&& 0x80000000 ≠ 0) := by decide
    simp only [AxiStream.acceptFrame, AxiStream.acceptBuffers, hm, if_false, h]
    rfl

end rogue.hardware

/-! ## Mapped-memory backend: window list and access bounds -/

namespace rogue.hardware.rce

/-- The two outcomes of `MapMemory::addMap` on an open device: the window list is left alone
when `mmap` returns `NULL`, and the window is appended for every other pointer. -/
theorem addMap_cases (m : MapMemory) (address size mmapResult : Nat) (hopen : 0 ≤ m.fd) :
    (mmapResult = 0 → m.addMap address size mmapResult = m) ∧
      (mmapResult ≠ 0 →
        m.addMap address size mmapResult =
          { m with maps := m.maps ++ [{ base := address, size := size, ptr := mmapResult }] }) := by
  unfold MapMemory.addMap
  constructor
  · intro h
    simp only [ge_iff_le, hopen, if_true, h]
  · intro h
    simp only [ge_iff_le, hopen, if_true, h, if_false]

/-- The pointer `MAP_FAILED` is not `NULL`, whatever the width of a pointer. -/
theorem MAP_FAILED_ne_null (ptrBits : Nat) (h : 0 < ptrBits) : MAP_FAILED ptrBits ≠ 0 := by
  unfold MAP_FAILED
  have h2 : 2 ^ 1 ≤ 2 ^ ptrBits := Nat.pow_le_pow_right (by norm_num) h
  omega

/-- C24, the code when `mmap` fails: `mmap` reports a failure by returning `MAP_FAILED`
(`(void *) -1`), but `addMap` tests the pointer against `NULL`, so after a failed mapping of
`[0x40010000, 0x40011000)` the window is in the list with the pointer `MAP_FAILED` (for 64-bit
and for 32-bit pointers), and a later 4-byte transaction at 0x40010000 makes a data call on
that pointer and completes with status 0 instead of `AddressError`. -/
theorem addMap_keeps_failed_mapping (c : Constants) (fuel id type : Nat) :
    (openMemory.addMap 0x40010000 0x1000 (MAP_FAILED 64)).maps =
        [{ base := 0x40010000, size := 0x1000, ptr := 0xFFFFFFFFFFFFFFFF }] ∧
      (openMemory.addMap 0x40010000 0x1000 (MAP_FAILED 32)).maps =
        [{ base := 0x40010000, size := 0x1000, ptr := 0xFFFFFFFF }] ∧
      doTransaction c (openMemory.addMap 0x40010000 0x1000 (MAP_FAILED 64)).maps (fuel + 2) id
          0x40010000 4 type =
        some [dataCall c id 0xFFFFFFFFFFFFFFFF type 0, MasterCall.doneTransaction id 0] := by
  have h64 : (openMemory.addMap 0x40010000 0x1000 (MAP_FAILED 64)).maps =
      [{ base := 0x40010000, size := 0x1000, ptr := 0xFFFFFFFFFFFFFFFF }] := by decide
  refine ⟨h64, by decide, ?_⟩
  rw [h64]
  have h : findSpace [{ base := 0x40010000, size := 0x1000, ptr := 0xFFFFFFFFFFFFFFFF }]
      (0x40010000 % 2 ^ 32) 4 = some 0xFFFFFFFFFFFFFFFF := by decide
  unfold doTransaction
  rw [h]
  simp [transferLoop, dataCall]

/-- The accesses of a transfer whose size is a multiple of 4 stay inside the window that
`findSpace` picked, as long as `(base - maps_[x].base) + size` does not wrap: the window passes
the bound test and holds the four bytes at `ptr + 4 * i` for every `4 * i < size`. -/
theorem transfer_inside (maps : List Map) (base size ptr : Nat)
    (hfind : findSpace maps base size = some ptr) (h4 : size % 4 = 0) :
    ∃ m ∈ maps, m.base ≤ base ∧ ptr = m.ptr + (base - m.base) ∧
      ((base - m.base) + size < 2 ^ 32 →
        ∀ i, 4 * i < size →
          m.holds (ptr + 4 * i) 4 ∧ (base - m.base) + 4 * i + 4 ≤ m.size) := by
  obtain ⟨m, hm, hb, hlt, hp⟩ := findSpace_some maps base size ptr hfind
  refine ⟨m, hm, hb, hp, fun hw i hi => ?_⟩
  rw [Nat.mod_eq_of_lt hw] at hlt
  refine ⟨⟨?_, ?_⟩, ?_⟩ <;> omega

/-- C30, the code on a size that is not a multiple of 4: the 2-byte range `[0xFFD, 0xFFF)` lies
in the window `[0, 0x1000)` and passes the bound test of `findSpace` with no wrap, and
`doTransaction` then makes its data call of width 4 at window offset 0xFFD, whose last byte is
at offset 0x1000, one past the end of the window. -/
theorem doTransaction_access_past_window (c : Constants) (fuel id type : Nat) :
    lowWindow.covers 0xFFD 2 ∧ (0xFFD - lowWindow.base) + 2 < 2 ^ 32 ∧
      findSpace [lowWindow] (0xFFD % 2 ^ 32) 2 = some (lowWindow.ptr + 0xFFD) ∧
      doTransaction c [lowWindow] (fuel + 2) id 0xFFD 2 type =
        some [dataCall c id (lowWindow.ptr + 0xFFD) type 0, MasterCall.doneTransaction id 0] ∧
      ¬ lowWindow.holds (lowWindow.ptr + 0xFFD + 4 * 0) 4 ∧
      ¬ ((0xFFD - lowWindow.base) + 4 * 0 + 4 ≤ lowWindow.size) := by
  have h : findSpace [lowWindow] (0xFFD % 2 ^ 32) 2 = some (lowWindow.ptr + 0xFFD) := by decide
  refine ⟨by decide, by decide, h, ?_, by decide, by decide⟩
  unfold doTransaction
  rw [h]
  simp [transferLoop, dataCall]

end rogue.hardware.rce

/-! ## RSSI segment header: the checksum as a one's-complement sum -/

namespace rogue.protocols.rssi

/-- Two folds bring every 32-bit sum below `2 ^ 16`: the reference sum is fully folded. -/
theorem endAroundSum_lt (s : Nat) (hs : s < 2 ^ 32) : endAroundSum s < 0x10000 := by
  unfold endAroundSum fold16
  omega

/-- The word stored by `Header::update`, in terms of the sum `S` of the header words before it:
the 16-bit complement of the single fold of `S`, truncated to 16 bits.  It is the reference
one's-complement checksum whenever the single fold leaves no carry. -/
theorem stored_checksum (h : Header) (buf : Buffer) (hroom : h.size ≤ buf.rawPayload) :
    ∃ buf' h', h.update buf = some (buf', h') ∧
      256 * buf'.data (h.size - 2) + buf'.data (h.size - 1) =
        65535 - fold16 (wordSum buf'.data ((h.size - 2) / 2)) % 65536 ∧
      (fold16 (wordSum buf'.data ((h.size - 2) / 2)) < 0x10000 →
        256 * buf'.data (h.size - 2) + buf'.data (h.size - 1) =
          onesComplement16 (wordSum buf'.data ((h.size - 2) / 2))) := by
  refine ⟨_, _, update_eq h buf hroom, ?_⟩
  simp only []
  have hz := size_or h
  have hg := getUInt16_wire h buf.data
  have hb : ∀ j, j < h.size - 2 → h.wire buf.data j < 256 :=
    fun j hj => wire_lt h buf.data j (by omega)
  rw [compSum_eq (h.wire buf.data) h.size hz hb] at hg
  unfold getUInt16 at hg
  have e : h.size - 2 + 1 = h.size - 1 := by omega
  rw [e] at hg
  unfold onesComplement16 endAroundSum fold16
  generalize wordSum (h.wire buf.data) ((h.size - 2) / 2) = S at hg ⊢
  constructor
  · omega
  · intro hlt
    omega

/-- The sum of the eleven words that `Header::update` writes for `carryHeader`. -/
theorem carryHeader_sum (data : Nat → Nat) : wordSum (carryHeader.wire data) 11 = 0x1FFFF := by
  have hc : wordSum (carryHeader.wire data) 11 =
      wordSum (fun j => (synBytes carryHeader).getD j 0) 11 := by
    apply wordSum_congr
    intro j hj
    have hsz : carryHeader.size = 24 := by decide
    have hw := wire_byte carryHeader data j (by rw [hsz]; omega)
    rw [hw]
    rfl
  rw [hc]
  decide

/-- C28, the code on a header whose word sum folds to a carry: for the SYN header `carryHeader`
the eleven words before the checksum add up to 0x1FFFF, the single fold of `Header::compSum`
gives 0x10000, above 0xFFFF, and `Header::update` stores 0xFFFF in the last two header bytes,
while the 16-bit one's-complement checksum of the words, with the carry folded back in, is
0xFFFE. -/
theorem checksum_misses_carry :
    ∃ buf' h', carryHeader.update (emptyBuffer 24) = some (buf', h') ∧
      wordSum buf'.data 11 = 0x1FFFF ∧
      fold16 (wordSum buf'.data 11) = 0x10000 ∧
      256 * buf'.data 22 + buf'.data 23 = 0xFFFF ∧
      onesComplement16 (wordSum buf'.data 11) = 0xFFFE := by
  obtain ⟨buf', h', hu, hst, _⟩ := stored_checksum carryHeader (emptyBuffer 24) (by decide)
  have hsz : carryHeader.size = 24 := by decide
  rw [hsz] at hst
  have hd : buf'.data = carryHeader.wire (emptyBuffer 24).data := by
    have hu2 := update_eq carryHeader (emptyBuffer 24) (by decide)
    rw [hu2] at hu
    have := (Prod.mk.inj (Option.some.inj hu)).1
    rw [← this]
  have hS : wordSum buf'.data 11 = 0x1FFFF := by
    rw [hd]
    exact carryHeader_sum _
  have e11 : (24 - 2) / 2 = 11 := by norm_num
  have e22 : 24 - 2 = 22 := by norm_num
  have e23 : 24 - 1 = 23 := by norm_num
  rw [e11, e22, e23, hS] at hst
  refine ⟨buf', h', hu, hS, ?_, ?_, ?_⟩
  · rw [hS]; decide
  · rw [hst]; decide
  · rw [hS]; decide

end rogue.protocols.rssi

/-! ## DMA adapters: index mask and time-out -/

namespace rogue.hardware

open rogue.interfaces.stream rogue.hardware.pgp rogue.hardware.rce

end rogue.hardware

namespace rogue.hardware.pgp

open rogue.interfaces.stream rogue.hardware

end rogue.hardware.pgp

namespace rogue.hardware.rce

open rogue.interfaces.stream rogue.hardware

end rogue.hardware.rce

namespace rogue.hardware

open rogue.interfaces.stream rogue.hardware.pgp rogue.hardware.rce

end rogue.hardware

/-! ## DMA adapters: frame requests -/

namespace rogue.hardware

open rogue.interfaces.stream rogue.hardware.pgp rogue.hardware.rce

/-- A round of the index loop in which the wait succeeds and `dmaGetIndex` does not fail: one
wait, one `dmaGetIndex`, and the loop is left with the index. -/
theorem getIndexLoop_ready (timeout : Nat) (be : Backend) (fuel : Nat) (tr : List DmaCall)
    (hsel : 0 < be tr (selectCall timeout))
    (hget : 0 ≤ be (tr ++ [selectCall timeout]) DmaCall.dmaGetIndex) :
    getIndexLoop timeout be (fuel + 1) tr =
      some (tr ++ [selectCall timeout, DmaCall.dmaGetIndex],
        .ok (be (tr ++ [selectCall timeout]) DmaCall.dmaGetIndex)) := by
  have h1 : ¬ be tr (selectCall timeout) ≤ 0 := not_le.mpr hsel
  have h2 : ¬ be (tr ++ [selectCall timeout]) DmaCall.dmaGetIndex < 0 := not_lt.mpr hget
  simp only [getIndexLoop, if_neg h1, if_neg h2]

/-- A round of the index loop in which `dmaGetIndex` fails leads back to the wait. -/
theorem getIndexLoop_retry (timeout : Nat) (be : Backend) (fuel : Nat) (tr : List DmaCall)
    (hsel : 0 < be tr (selectCall timeout))
    (hget : be (tr ++ [selectCall timeout]) DmaCall.dmaGetIndex < 0) :
    getIndexLoop timeout be (fuel + 1) tr =
      getIndexLoop timeout be fuel (tr ++ [selectCall timeout, DmaCall.dmaGetIndex]) := by
  have h1 : ¬ be tr (selectCall timeout) ≤ 0 := not_le.mpr hsel
  simp only [getIndexLoop, if_neg h1, if_pos hget]

/-- A round of the index loop in which the wait runs out of time: with a time-out above 0 the
time-out error is thrown; with the time-out 0 the loop is left with `res = 0` and no
`dmaGetIndex` call has been made. -/
theorem getIndexLoop_timeout (timeout : Nat) (be : Backend) (fuel : Nat) (tr : List DmaCall)
    (hsel : be tr (selectCall timeout) ≤ 0) :
    getIndexLoop timeout be (fuel + 1) tr =
      if timeout > 0 then
        some (tr ++ [selectCall timeout], .error (GeneralError.timeout timeout))
      else some (tr ++ [selectCall timeout], .ok 0) := by
  simp only [getIndexLoop, if_pos hsel, lt_self_iff_false, if_false]

/-- The rounds after the first one are the rounds of a request started one round later. -/
theorem obtained_succ (timeout : Nat) (be : Backend) (tr : List DmaCall) (k : Nat) :
    obtained timeout be tr (k + 1) =
      obtained timeout be (tr ++ [selectCall timeout, DmaCall.dmaGetIndex]) k := by
  unfold obtained readyRounds
  simp only [List.replicate_succ, List.flatten_cons, List.append_assoc]

/-- The request loop on a backend that is always ready and never refuses an index, when the
running total cannot wrap: from a total of `j * b` with `togo` buffers to go it ends with one
more buffer per round, built over the table entry of the index obtained in that round. -/
theorem zeroCopyLoop_ok (timeout : Nat) (be : Backend) (fuel : Nat) (tbl : List Nat)
    (bSize b size : Nat) (hsel : ∀ tr, 0 < be tr (selectCall timeout))
    (hget : ∀ tr, 0 ≤ be tr DmaCall.dmaGetIndex) (hb : 0 < b)
    (hwrap : (size + b - 1) / b * b < 2 ^ 32) :
    ∀ (togo n : Nat) (p : Pool) (frame : List Buffer) (tr : List DmaCall),
      frame.length + togo = (size + b - 1) / b → togo < n →
      ∃ p1, zeroCopyLoop timeout be (fuel + 1) tbl bSize b size n p frame (frame.length * b)
          tr =
        some (.ok
          { pool := p1,
            frame := frame ++ (List.range togo).map (fun k =>
              Buffer.create (tbl.getD (obtained timeout be tr k) 0)
                (0x80000000 ||| obtained timeout be tr k) b bSize),
            trace := tr ++ readyRounds timeout togo }) := by
  intro togo
  induction togo with
  | zero =>
    intro n p frame tr hlen hn
    obtain ⟨f, rfl⟩ : ∃ f, n = f + 1 := ⟨n - 1, by omega⟩
    have hge : ¬ frame.length * b < size := by
      rw [Nat.add_zero] at hlen
      rw [hlen]
      have := Nat.div_add_mod (size + b - 1) b
      have := Nat.mod_lt (size + b - 1) hb
      rw [Nat.mul_comm]
      omega
    refine ⟨p, ?_⟩
    simp only [zeroCopyLoop, if_neg hge, List.range_zero, List.map_nil, List.append_nil,
      readyRounds, List.replicate_zero, List.flatten_nil]
  | succ togo ih =>
    intro n p frame tr hlen hn
    obtain ⟨f, rfl⟩ : ∃ f, n = f + 1 := ⟨n - 1, by omega⟩
    have hle : (frame.length + 1) * b ≤ (size + b - 1) / b * b :=
      Nat.mul_le_mul_right b (by omega)
    have hlt : frame.length * b < size := by
      have h1 : frame.length + 1 ≤ (size + b - 1) / b := by omega
      have h2 : (frame.length + 1) * b ≤ size + b - 1 :=
        le_trans (Nat.mul_le_mul_right b h1) (Nat.div_mul_le_self _ _)
      rw [Nat.add_mul] at h2
      omega
    have hidx := getIndexLoop_ready timeout be fuel tr (hsel tr) (hget _)
    have ho : (be (tr ++ [selectCall timeout]) DmaCall.dmaGetIndex).toNat =
        obtained timeout be tr 0 := by
      unfold obtained readyRounds
      simp only [List.replicate_zero, List.flatten_nil, List.append_nil]
    generalize hbuf : Buffer.create (tbl.getD (obtained timeout be tr 0) 0)
      (0x80000000 ||| obtained timeout be tr 0) b bSize = buf
    have hnext : (frame.length * b + b) % 2 ^ 32 = (frame ++ [buf]).length * b := by
      rw [List.length_append, List.length_singleton, Nat.add_mul, Nat.one_mul]
      rw [Nat.add_mul, Nat.one_mul] at hle
      exact Nat.mod_eq_of_lt (by omega)
    obtain ⟨p1, hrun⟩ := ih f
      (p.createBuffer (tbl.getD (obtained timeout be tr 0) 0)
        (0x80000000 ||| obtained timeout be tr 0) b bSize).1
      (frame ++ [buf]) (tr ++ [selectCall timeout, DmaCall.dmaGetIndex])
      (by rw [List.length_append, List.length_singleton]; omega) (by omega)
    refine ⟨p1, ?_⟩
    have hcre : (p.createBuffer (tbl.getD (obtained timeout be tr 0) 0)
        (0x80000000 ||| obtained timeout be tr 0) b bSize).2 = buf := by
      rw [← hbuf]
      rfl
    simp only [zeroCopyLoop, if_pos hlt, hidx, ho, hcre, hnext, hrun]
    have hr : readyRounds timeout (togo + 1) =
        [selectCall timeout, DmaCall.dmaGetIndex] ++ readyRounds timeout togo := by
      unfold readyRounds
      simp only [List.replicate_succ, List.flatten_cons]
    rw [hr, List.range_succ_eq_map, List.map_cons, List.map_map, hbuf]
    simp only [List.append_assoc, List.singleton_append, List.cons_append, List.nil_append,
      Function.comp_def, Nat.succ_eq_add_one, obtained_succ]

end rogue.hardware

namespace rogue.hardware

open rogue.interfaces.stream rogue.hardware.pgp rogue.hardware.rce

/-- C21, counterexample: on the example card, whose DMA buffers have 2048 bytes, with a backend
that is always ready, `acceptReq(2048, true, 1024)` returns two buffers of capacity 1024 (over
the indices 1 and 2), not `ceil(2048 / 2048) = 1` buffer of capacity 2048. -/
theorem acceptReq_clamps_to_max_buf :
    pgpExample.bSize = 2048 ∧ (2048 + 2048 - 1) / 2048 = 1 ∧
      (pgpExample.acceptReq indexBackend heapExample 4 2048 true 1024 []).map
          (fun r => r.toOption.map (fun x => x.frame.map (fun b => (b.rawSize, b.meta)))) =
        some (some [(1024, 0x80000001), (1024, 0x80000002)]) := by
  refine ⟨rfl, by decide, ?_⟩
  rfl

/-- C21, amended (zero-copy frame request): let `b` be the DMA buffer size `bSize_` when
`maxBuffSize` is 0 or above `bSize_`, and `maxBuffSize` otherwise.  When the adapter has a DMA
table, zero copy is enabled and requested, every wait succeeds and every `dmaGetIndex` returns
an index, `b > 0` and `ceil(size / b) * b < 2 ^ 32`, `PgpCard::acceptReq` returns a frame of
exactly `ceil(size / b)` buffers, the `k`-th built over the table entry of the index obtained
in round `k`, with capacity `b`, allocation size `bSize_` and meta `0x80000000 | index`, after
one wait and one `dmaGetIndex` per buffer.  When there is no table, or zero copy is disabled
or not requested, the result is that of `Pool::acceptReq(size, false, b)`. -/
theorem zero_copy_request (card : PgpCard) (be : Backend) (heap : Nat → Nat)
    (fuel size maxBuffSize b : Nat) (zeroCopyEn : Bool) (tr : List DmaCall)
    (hb : b = if maxBuffSize > card.bSize ∨ maxBuffSize = 0 then card.bSize else maxBuffSize) :
    (∀ tbl, card.zeroCopyEn = true → zeroCopyEn = true → card.rawBuff = some tbl →
      (∀ tr, 0 < be tr (selectCall card.timeout)) → (∀ tr, 0 ≤ be tr DmaCall.dmaGetIndex) →
      0 < b → (size + b - 1) / b * b < 2 ^ 32 → (size + b - 1) / b < fuel →
      ∃ r, card.acceptReq be heap fuel size zeroCopyEn maxBuffSize tr = some (.ok r) ∧
        r.frame.length = (size + b - 1) / b ∧
        r.trace = tr ++ readyRounds card.timeout ((size + b - 1) / b) ∧
        ∀ k, k < (size + b - 1) / b →
          r.frame[k]? = some (Buffer.create (tbl.getD (obtained card.timeout be tr k) 0)
            (0x80000000 ||| obtained card.timeout be tr k) b card.bSize)) ∧
      ((card.zeroCopyEn = false ∨ zeroCopyEn = false ∨ card.rawBuff = none) →
        card.acceptReq be heap fuel size zeroCopyEn maxBuffSize tr =
          (card.pool.acceptReq heap fuel size false b).map
            (fun r => r.map (fun x => { pool := x.1, frame := x.2, trace := tr }))) := by
  constructor
  · intro tbl hen hreq htbl hsel hget hbpos hwrap hfuel
    have hpos : 0 < fuel := Nat.lt_of_le_of_lt (Nat.zero_le _) hfuel
    obtain ⟨f, rfl⟩ : ∃ f, fuel = f + 1 := ⟨fuel - 1, by omega⟩
    obtain ⟨p1, hrun⟩ := zeroCopyLoop_ok card.timeout be f tbl card.bSize b size hsel hget
      hbpos hwrap ((size + b - 1) / b) (f + 1) card.pool [] tr (by simp) hfuel
    have hcond : ¬ (card.zeroCopyEn = false ∨ zeroCopyEn = false ∨ card.rawBuff = none) := by
      rw [hen, hreq, htbl]
      simp
    simp only [List.length_nil, Nat.zero_mul, List.nil_append] at hrun
    have hacc : card.acceptReq be heap (f + 1) size zeroCopyEn maxBuffSize tr =
        zeroCopyLoop card.timeout be (f + 1) tbl card.bSize b size (f + 1) card.pool [] 0
          tr := by
      unfold PgpCard.acceptReq
      simp only [if_neg hcond, ← hb]
      rw [htbl]
      rfl
    rw [hacc, hrun]
    refine ⟨_, rfl, ?_, rfl, ?_⟩
    · simp only [List.length_map, List.length_range]
    · intro k hk
      simp only [List.getElem?_map, List.getElem?_range hk, Option.map_some']
  · intro hcond
    unfold PgpCard.acceptReq poolReq
    simp only [if_pos hcond, ← hb]

/-- Witness of `zero_copy_request`, the spec's scenario: with DMA buffers of 2048 bytes,
`acceptReq(2048, true, 2048)` returns one buffer, of capacity 2048, whose meta word has bit 31
set. -/
theorem zero_copy_request_witness :
    ∃ r, pgpExample.acceptReq indexBackend heapExample 2 2048 true 2048 [] = some (.ok r) ∧
      r.frame.length = (2048 + 2048 - 1) / 2048 ∧
      r.trace = [] ++ readyRounds pgpExample.timeout ((2048 + 2048 - 1) / 2048) ∧
      ∀ k, k < (2048 + 2048 - 1) / 2048 →
        r.frame[k]? = some (Buffer.create
          ([0x2000, 0x3000, 0x4000, 0x5000].getD (obtained pgpExample.timeout indexBackend [] k) 0)
          (0x80000000 ||| obtained pgpExample.timeout indexBackend [] k) 2048 pgpExample.bSize) :=
  (zero_copy_request pgpExample indexBackend heapExample 2 2048 2048 2048 true [] (by decide)).1
    [0x2000, 0x3000, 0x4000, 0x5000] rfl rfl rfl (fun _ => by simp [indexBackend, selectCall])
    (fun _ => by simp only [indexBackend]; omega) (by decide) (by decide) (by decide)

/-- C22, the code when a wait runs out of time with the time-out 0: on an adapter with
`timeout_ == 0`, with a backend whose first wait runs out of time, `acceptReq(2048, true,
2048)` (of `PgpCard` and of `AxiStream`) makes that one wait and returns a frame of one buffer
built over `rawBuff_[0]` with meta `0x80000000`: the time-out sets `res = 0`, the loop
`while (res < 0)` is left, and index 0 is used although no `dmaGetIndex` call was made. -/
theorem acceptReq_timeout_takes_index_zero (fuel : Nat) :
    pgpNoTimeout.timeout = 0 ∧ axiNoTimeout.timeout = 0 ∧
      lateBackend [] (selectCall 0) = 0 ∧
      pgpNoTimeout.acceptReq lateBackend heapExample (fuel + 2) 2048 true 2048 [] =
        some (.ok { pool := (Pool.create.createBuffer 0x2000 0x80000000 2048 2048).1,
                    frame := [Buffer.create 0x2000 0x80000000 2048 2048],
                    trace := [DmaCall.select 0 10000] }) ∧
      axiNoTimeout.acceptReq lateBackend heapExample (fuel + 2) 2048 true 2048 [] =
        some (.ok { pool := (Pool.create.createBuffer 0x2000 0x80000000 2048 2048).1,
                    frame := [Buffer.create 0x2000 0x80000000 2048 2048],
                    trace := [DmaCall.select 0 10000] }) ∧
      DmaCall.dmaGetIndex ∉ [DmaCall.select 0 10000] := by
  have hsel : lateBackend [] (selectCall 0) ≤ 0 := by decide
  have hidx := getIndexLoop_timeout 0 lateBackend (fuel + 1) [] hsel
  simp only [gt_iff_lt, lt_self_iff_false, if_false, List.nil_append] at hidx
  have h0 : (0 : Nat) < 2048 := by norm_num
  have h1 : ¬ ((0 + 2048) % 2 ^ 32 < 2048) := by norm_num
  have hs : selectCall 0 = DmaCall.select 0 10000 := by decide
  refine ⟨rfl, rfl, by decide, ?_, ?_, by decide⟩
  · have hcond : ¬ (pgpNoTimeout.zeroCopyEn = false ∨ true = false ∨
        pgpNoTimeout.rawBuff = none) := by decide
    have hb : (if 2048 > pgpNoTimeout.bSize ∨ 2048 = 0 then pgpNoTimeout.bSize else 2048) =
        2048 := by decide
    have ht : pgpNoTimeout.timeout = 0 := rfl
    unfold PgpCard.acceptReq
    simp only [if_neg hcond, hb, ht]
    simp only [zeroCopyLoop, if_pos h0, hidx, if_neg h1, hs]
    rfl
  · have hcond : ¬ (true = false ∨ axiNoTimeout.rawBuff = none) := by decide
    have hb : (if 2048 > axiNoTimeout.bSize ∨ 2048 = 0 then axiNoTimeout.bSize else 2048) =
        2048 := by decide
    have ht : axiNoTimeout.timeout = 0 := rfl
    unfold AxiStream.acceptReq
    simp only [if_neg hcond, hb, ht]
    simp only [zeroCopyLoop, if_pos h0, hidx, if_neg h1, hs]
    rfl

end rogue.hardware

/-! ## Stream pool: sizes of the recycled regions -/

namespace rogue.interfaces.stream

/-- The capacity `allocBuffer` gives a buffer is within the size it accounts for it. -/
theorem bufSizeOf_le (p : Pool) (size : Nat) : p.bufSizeOf size ≤ p.allocSizeOf size := by
  unfold Pool.bufSizeOf Pool.allocSizeOf
  split_ifs <;> omega

/-- One call keeps the region-size invariant, unless it is `enBufferPool` with size 0. -/
theorem step_sound (st : Regions) (c : RegionCall) (hs : st.sound)
    (hc : ∀ count, c ≠ RegionCall.enBufferPool 0 count) : (st.step c).sound := by
  obtain ⟨h0, hlen, hq, hl⟩ := hs
  cases c with
  | enBufferPool size count =>
    have hsize : size ≠ 0 := fun h => hc count (by rw [h])
    simp only [Regions.step, Pool.enBufferPool]
    split_ifs with hf
    · exact ⟨h0, hlen, hq, hl⟩
    · have hf0 : st.pool.fixedSize = 0 := by omega
      obtain ⟨_, hqe⟩ := h0 hf0
      have hqn : st.queued = [] := by
        apply List.eq_nil_of_length_eq_zero
        rw [hlen, hqe]
        rfl
      refine ⟨fun h => absurd h hsize, hlen, ?_, hl⟩
      intro r hr
      rw [hqn] at hr
      simp at hr
  | allocBuffer size mallocResult =>
    by_cases hne : st.pool.dataQ ≠ [] ∨ mallocResult ≠ 0
    · have he := allocBuffer_eq st.pool size mallocResult none hne
      simp only [Regions.step, he]
      cases hdq : st.pool.dataQ with
      | nil =>
        have hqn : st.queued = [] := by
          apply List.eq_nil_of_length_eq_zero
          rw [hlen, hdq]
          rfl
        simp only [hqn]
        refine ⟨fun h => ⟨(h0 h).1, rfl⟩, rfl, by simp, ?_⟩
        intro t ht
        rcases List.mem_append.mp ht with hin | hin
        · exact hl t hin
        · rw [List.mem_singleton] at hin
          rw [hin]
          exact ⟨rfl, bufSizeOf_le st.pool size⟩
      | cons d ds =>
        have hfix : st.pool.fixedSize ≠ 0 := by
          intro h
          have := (h0 h).2
          rw [hdq] at this
          simp at this
        cases hqq : st.queued with
        | nil =>
          rw [hqq, hdq] at hlen
          simp at hlen
        | cons r rs =>
          have hr : r = st.pool.fixedSize := hq r (by rw [hqq]; exact List.mem_cons_self _ _)
          simp only [List.tail_cons]
          refine ⟨fun h => absurd h hfix, ?_, ?_, ?_⟩
          · rw [hqq, hdq] at hlen
            simpa using hlen
          · intro x hx
            exact hq x (by rw [hqq]; exact List.mem_cons_of_mem _ hx)
          · intro t ht
            rcases List.mem_append.mp ht with hin | hin
            · exact hl t hin
            · rw [List.mem_singleton] at hin
              rw [hin]
              have ha : st.pool.allocSizeOf size = st.pool.fixedSize := by
                unfold Pool.allocSizeOf
                rw [if_pos (by omega)]
              refine ⟨?_, ?_⟩
              · show st.pool.allocSizeOf size = r
                rw [ha, hr]
              · show st.pool.bufSizeOf size ≤ r
                rw [hr, ← ha]
                exact bufSizeOf_le st.pool size
    · have hqe : st.pool.dataQ = [] := by
        by_contra h
        exact hne (Or.inl h)
      have hm : mallocResult = 0 := by
        by_contra h
        exact hne (Or.inr h)
      have he := allocBuffer_error st.pool size none hqe
      rw [hm]
      simp only [Regions.step, he]
      exact ⟨h0, hlen, hq, hl⟩
  | retBuffer i =>
    simp only [Regions.step]
    cases hi : st.live[i]? with
    | none => exact ⟨h0, hlen, hq, hl⟩
    | some t =>
      have ht : t ∈ st.live := List.getElem?_mem hi
      obtain ⟨hta, _⟩ := hl t ht
      have hlive : ∀ x ∈ st.live.eraseIdx i,
          x.buffer.allocSize = x.region ∧ x.buffer.rawSize ≤ x.region :=
        fun x hx => hl x (List.mem_of_mem_eraseIdx hx)
      simp only [Pool.retBuffer]
      by_cases hd : t.buffer.data ≠ 0
      · by_cases hpush : t.buffer.allocSize = st.pool.fixedSize ∧
            st.pool.maxCount > st.pool.dataQ.length
        · have hgt : (st.pool.dataQ ++ [t.buffer.data]).length > st.pool.dataQ.length := by
            simp
          simp only [if_pos hd, if_pos hpush, if_pos hgt]
          refine ⟨fun h => ?_, ?_, ?_, hlive⟩
          · exfalso
            have := (h0 h).1
            omega
          · simp only [List.length_append, List.length_singleton]
            omega
          · intro r hr
            rcases List.mem_append.mp hr with hin | hin
            · exact hq r hin
            · rw [List.mem_singleton] at hin
              rw [hin, ← hta]
              exact hpush.1
        · simp only [if_pos hd, if_neg hpush, gt_iff_lt, lt_self_iff_false, if_false]
          exact ⟨h0, hlen, hq, hlive⟩
      · simp only [if_neg hd, gt_iff_lt, lt_self_iff_false, if_false]
        exact ⟨h0, hlen, hq, hlive⟩

/-- Every sequence of calls without `enBufferPool` of size 0 keeps the region-size invariant. -/
theorem foldl_sound (calls : List RegionCall) :
    ∀ st : Regions, st.sound → (∀ c ∈ calls, ∀ count, c ≠ RegionCall.enBufferPool 0 count) →
      (calls.foldl Regions.step st).sound := by
  induction calls with
  | nil => intro st hs _; exact hs
  | cons c cs ih =>
    intro st hs hc
    exact ih (st.step c) (step_sound st c hs (hc c (List.mem_cons_self _ _)))
      (fun x hx => hc x (List.mem_cons_of_mem _ hx))

/-- On a new pool, as long as `enBufferPool` is never called with size 0, every region in the
queue has exactly the fixed size, and every live buffer has a capacity and an allocation size
within the region it is built over. -/
theorem regions_sound (calls : List RegionCall)
    (hc : ∀ c ∈ calls, ∀ count, c ≠ RegionCall.enBufferPool 0 count) :
    (∀ r ∈ (Regions.run calls).queued, r = (Regions.run calls).pool.fixedSize) ∧
      ∀ t ∈ (Regions.run calls).live,
        t.buffer.rawSize ≤ t.region ∧ t.buffer.allocSize ≤ t.region := by
  have h := foldl_sound calls { pool := Pool.create, queued := [], live := [] }
    ⟨fun _ => ⟨rfl, rfl⟩, rfl, by simp, by simp⟩ hc
  obtain ⟨_, _, hq, hl⟩ := h
  refine ⟨hq, fun t ht => ?_⟩
  obtain ⟨h1, h2⟩ := hl t ht
  exact ⟨h2, by omega⟩

/-- C29, the code after `enBufferPool(0, 1)`: a buffer of size 0 is allocated (`malloc(0)`
returning the region 0x1000) and returned; its raw size 0 equals the fixed size 0 and the queue
is below its maximum, so the 0-byte region is queued.  The next `allocBuffer(100, NULL)` takes
that region from the queue and dispenses a buffer of raw size 100 and allocation size 100 over
it.  The same happens with a second `enBufferPool(1024, 1)` before the allocation: the buffer
of 1024 bytes is built over the 0-byte region. -/
theorem region_smaller_than_buffer :
    (Regions.run [.enBufferPool 0 1, .allocBuffer 0 0x1000, .retBuffer 0]).pool.dataQ =
        [0x1000] ∧
      (Regions.run [.enBufferPool 0 1, .allocBuffer 0 0x1000, .retBuffer 0]).queued = [0] ∧
      (Regions.run [.enBufferPool 0 1, .allocBuffer 0 0x1000, .retBuffer 0]).pool.fixedSize =
        0 ∧
      (Regions.run [.enBufferPool 0 1, .allocBuffer 0 0x1000, .retBuffer 0,
          .allocBuffer 100 0x2000]).live.map
          (fun t => (t.buffer.data, t.buffer.rawSize, t.buffer.allocSize, t.region)) =
        [(0x1000, 100, 100, 0)] ∧
      (Regions.run [.enBufferPool 0 1, .allocBuffer 0 0x1000, .retBuffer 0,
          .enBufferPool 1024 1, .allocBuffer 1024 0x2000]).live.map
          (fun t => (t.buffer.data, t.buffer.rawSize, t.buffer.allocSize, t.region)) =
        [(0x1000, 1024, 1024, 0)] := by
  decide

end rogue.interfaces.stream

/-! ## DMA adapters: every index is handed back once -/

namespace rogue.hardware

open rogue.interfaces.stream

/-- The hand-backs of two runs of calls add up. -/
theorem handBacks_append (be : Backend) (index : Nat) (calls more : List DmaCall) :
    ∀ hist, handBacks be index hist (calls ++ more) =
      handBacks be index hist calls + handBacks be index (hist ++ calls) more := by
  induction calls with
  | nil => intro hist; simp [handBacks]
  | cons c cs ih =>
    intro hist
    show handBacks be index hist (c :: (cs ++ more)) = _
    rw [handBacks, handBacks, ih (hist ++ [c]), List.append_assoc, List.singleton_append]
    omega

/-- Calls other than `dmaWriteIndex` and `dmaRetIndex` hand nothing back. -/
theorem handBacks_none (be : Backend) (index : Nat) (calls : List DmaCall)
    (h : ∀ c ∈ calls, c.isHandBack = false) : ∀ hist, handBacks be index hist calls = 0 := by
  induction calls with
  | nil => intro hist; rfl
  | cons c cs ih =>
    intro hist
    have hc := h c (List.mem_cons_self _ _)
    have hrest := ih (fun x hx => h x (List.mem_cons_of_mem _ hx)) (hist ++ [c])
    rw [handBacks, hrest, Nat.add_zero]
    cases c <;> simp_all [handBack, DmaCall.isHandBack]

/-- Setting bit 30 keeps the index bits of the meta word. -/
theorem mark_index (m : Nat) : (m ||| 0x40000000) &&& 0x3FFFFFFF = m &&& 0x3FFFFFFF := by
  have h : (0x3FFFFFFF : Nat) &&& 0x40000000 = 0 := by decide
  rw [Nat.and_comm, Nat.and_or_distrib_left, h, Nat.or_zero, Nat.and_comm]

/-- Setting bit 30 of a zero-copy meta word leaves bit 31 set and sets bit 30. -/
theorem mark_bits (m : Nat) (h31 : m &&& 0x80000000 ≠ 0) :
    (m ||| 0x40000000) &&& 0x80000000 ≠ 0 ∧ (m ||| 0x40000000) &&& 0x40000000 ≠ 0 := by
  obtain ⟨m30, m31⟩ := meta_mark m
  rw [meta_bit31] at h31 ⊢
  rw [h31] at m31
  refine ⟨m31, ?_⟩
  intro h
  rw [meta_bit30, m30] at h
  exact Bool.noConfusion h

/-- What `acceptFrame` may do to a buffer keeps the DMA buffer it is over. -/
theorem sentAs_carries (index : Nat) (b b1 : Buffer) (h : sentAs b b1) :
    carries index b1 ↔ carries index b := by
  rcases h with rfl | ⟨h31, _, rfl⟩
  · exact Iff.rfl
  · unfold carries
    simp only [mark_index]
    constructor
    · intro hc; exact ⟨h31, hc.2⟩
    · intro hc; exact ⟨(mark_bits b.meta h31).1, hc.2⟩

/-- A buffer handed over was sent as it is at every later call. -/
theorem sentAs_trans (a b c : Buffer) (hab : sentAs a b) (hbc : sentAs b c) : sentAs a c := by
  rcases hab with rfl | ⟨h31, h30, rfl⟩
  · exact hbc
  · rcases hbc with rfl | ⟨_, g30, _⟩
    · exact Or.inr ⟨h31, h30, rfl⟩
    · exact absurd g30 (mark_bits a.meta h31).2

/-- The relation `sentAs`, buffer by buffer, is transitive on frames. -/
theorem frame_sentAs_trans :
    ∀ (l1 l2 l3 : List Buffer), List.Forall₂ sentAs l1 l2 → List.Forall₂ sentAs l2 l3 →
      List.Forall₂ sentAs l1 l3 := by
  intro l1
  induction l1 with
  | nil =>
    intro l2 l3 h12 h23
    cases h12
    cases h23
    exact List.Forall₂.nil
  | cons a l1 ih =>
    intro l2 l3 h12 h23
    cases h12 with
    | cons hab t12 =>
      cases h23 with
      | cons hbc t23 => exact List.Forall₂.cons (sentAs_trans _ _ _ hab hbc) (ih _ _ t12 t23)

/-- Every frame is sent as itself. -/
theorem frame_sentAs_refl (l : List Buffer) : List.Forall₂ sentAs l l :=
  List.forall₂_same.mpr (fun _ _ => Or.inl rfl)

/-- A buffer that is handed over and over the DMA buffer `index` carries that index. -/
theorem isHandedOver_carries (index : Nat) (b : Buffer) (h : isHandedOver index b = true) :
    carries index b := by
  unfold isHandedOver at h
  have h2 := of_decide_eq_true h
  exact ⟨h2.1, h2.2.2⟩

/-- A frame none of whose buffers is over the DMA buffer `index` has no buffer handed over for
that index after any number of sends. -/
theorem handedOver_zero (index : Nat) :
    ∀ (l l1 : List Buffer), List.Forall₂ sentAs l l1 → (∀ x ∈ l, ¬ carries index x) →
      handedOver index l1 = 0 := by
  intro l
  induction l with
  | nil =>
    intro l1 h _
    cases h
    rfl
  | cons a l ih =>
    intro l1 h hno
    cases h with
    | cons hab t =>
      rename_i a1 l1
      have hrest := ih l1 t (fun x hx => hno x (List.mem_cons_of_mem _ hx))
      have ha : isHandedOver index a1 = false := by
        by_contra hc
        have hc2 : isHandedOver index a1 = true := by
          cases hv : isHandedOver index a1
          · exact absurd hv hc
          · rfl
        exact hno a (List.mem_cons_self _ _)
          ((sentAs_carries index a a1 hab).mp (isHandedOver_carries index a1 hc2))
      unfold handedOver at hrest ⊢
      rw [List.countP_cons, hrest, ha]
      rfl

/-- In a frame where only the buffer at position `k` is over the DMA buffer `index`, the
number of buffers handed over for that index after any number of sends is 1 or 0 according to
whether the buffer at position `k` is marked. -/
theorem handedOver_at (index : Nat) :
    ∀ (l l1 : List Buffer) (k : Nat) (b : Buffer), List.Forall₂ sentAs l l1 →
      l[k]? = some b →
      (∀ j b2, l[j]? = some b2 → j ≠ k → ¬ carries index b2) →
      ∃ b1, l1[k]? = some b1 ∧ sentAs b b1 ∧
        handedOver index l1 = if isHandedOver index b1 = true then 1 else 0 := by
  intro l
  induction l with
  | nil =>
    intro l1 k b _ hk _
    simp at hk
  | cons a l ih =>
    intro l1 k b h hk huniq
    cases h with
    | cons hab t =>
      rename_i a1 l1
      cases k with
      | zero =>
        simp only [List.getElem?_cons_zero, Option.some.injEq] at hk
        subst hk
        have hrest := handedOver_zero index l l1 t (by
          intro x hx
          obtain ⟨j, hj⟩ := List.mem_iff_getElem?.mp hx
          exact huniq (j + 1) x (by simpa using hj) (by omega))
        refine ⟨a1, by simp, hab, ?_⟩
        unfold handedOver at hrest ⊢
        rw [List.countP_cons, hrest, Nat.zero_add]
      | succ k =>
        simp only [List.getElem?_cons_succ] at hk
        obtain ⟨b1, hb1, hs, hcount⟩ := ih l1 k b t hk (by
          intro j b2 hj hne
          exact huniq (j + 1) b2 (by simpa using hj) (by omega))
        have ha : isHandedOver index a1 = false := by
          by_contra hc
          have hc2 : isHandedOver index a1 = true := by
            cases hv : isHandedOver index a1
            · exact absurd hv hc
            · rfl
          exact huniq 0 a (by simp) (by omega)
            ((sentAs_carries index a a1 hab).mp (isHandedOver_carries index a1 hc2))
        refine ⟨b1, by simpa using hb1, hs, ?_⟩
        unfold handedOver at hcount ⊢
        rw [List.countP_cons, hcount, ha]
        simp

end rogue.hardware

namespace rogue.hardware

open rogue.interfaces.stream

/-- The indicator of a handed-over buffer in the count of a frame. -/
theorem handedOver_cons (index : Nat) (b : Buffer) (l : List Buffer) :
    handedOver index (b :: l) =
      handedOver index l + if isHandedOver index b = true then 1 else 0 := by
  unfold handedOver
  exact List.countP_cons _ _ _

/-- A buffer whose bit 30 is clear is not handed over. -/
theorem isHandedOver_fresh (index : Nat) (b : Buffer) (h30 : b.meta &&& 0x40000000 = 0) :
    isHandedOver index b = false := by
  unfold isHandedOver
  simp [h30]

/-- A zero-copy buffer just marked is handed over for its own index and no other. -/
theorem isHandedOver_marked (index : Nat) (b : Buffer) (h31 : b.meta &&& 0x80000000 ≠ 0) :
    isHandedOver index { b with meta := b.meta ||| 0x40000000 } =
      decide (b.meta &&& 0x3FFFFFFF = index) := by
  unfold isHandedOver
  obtain ⟨g31, g30⟩ := mark_bits b.meta h31
  simp only [mark_index, ne_eq, g31, not_false_eq_true, g30, true_and]

/-- The wait is not a hand-back. -/
theorem selectCall_isHandBack (timeout : Nat) : (selectCall timeout).isHandBack = false := rfl

/-- A trace that extends a longer prefix extends the shorter one as well. -/
theorem trace_extend (tr pre tr1 : List DmaCall)
    (h : ∃ new, tr1 = (tr ++ pre) ++ new ∧ ∀ c ∈ new, c.isHandBack = false)
    (hpre : ∀ c ∈ pre, c.isHandBack = false) :
    ∃ new, tr1 = tr ++ new ∧ ∀ c ∈ new, c.isHandBack = false := by
  obtain ⟨new, hn, hc⟩ := h
  refine ⟨pre ++ new, by rw [hn, List.append_assoc], ?_⟩
  intro c hcm
  rcases List.mem_append.mp hcm with hin | hin
  · exact hpre c hin
  · exact hc c hin

/-- A wait followed by a `dmaWrite` holds no hand-back. -/
theorem wait_write_isHandBack (timeout data size flags dest : Nat) :
    (∀ c ∈ [selectCall timeout], c.isHandBack = false) ∧
      ∀ c ∈ [selectCall timeout, DmaCall.dmaWrite data size flags dest],
        c.isHandBack = false := by
  constructor
  · intro c hc
    rw [List.mem_singleton] at hc
    rw [hc]
    rfl
  · intro c hc
    simp only [List.mem_cons, List.mem_singleton, List.not_mem_nil, or_false] at hc
    rcases hc with rfl | rfl <;> rfl

end rogue.hardware

namespace rogue.hardware.pgp

open rogue.interfaces.stream rogue.hardware

/-- The write loop of `PgpCard::acceptFrame` adds driver calls to the trace, none of them a
`dmaWriteIndex` or a `dmaRetIndex`. -/
theorem pgp_writeLoop_trace (card : PgpCard) (drv : Driver) (be : Backend) (buff : Buffer)
    (cont : Nat) :
    ∀ (fuel : Nat) (tr tr1 : List DmaCall) (e : Option GeneralError),
      PgpCard.writeLoop card drv be buff cont fuel tr = some (tr1, e) →
      ∃ new, tr1 = tr ++ new ∧ ∀ c ∈ new, c.isHandBack = false := by
  intro fuel
  induction fuel with
  | zero =>
    intro tr tr1 e h
    simp [PgpCard.writeLoop] at h
  | succ fuel ih =>
    intro tr tr1 e h
    simp only [PgpCard.writeLoop] at h
    split_ifs at h
    all_goals first
      | exact trace_extend _ _ _ (ih _ _ _ h) (wait_write_isHandBack _ 0 0 0 0).1
      | exact trace_extend _ _ _ (ih _ _ _ h) (wait_write_isHandBack _ _ _ _ _).2
      | (simp only [Option.some.injEq, Prod.mk.injEq] at h
         obtain ⟨rfl, _⟩ := h
         exact ⟨_, rfl, (wait_write_isHandBack _ 0 0 0 0).1⟩)
      | (simp only [Option.some.injEq, Prod.mk.injEq] at h
         obtain ⟨rfl, _⟩ := h
         exact ⟨_, rfl, (wait_write_isHandBack _ _ _ _ _).2⟩)

end rogue.hardware.pgp

namespace rogue.hardware.pgp

open rogue.interfaces.stream rogue.hardware

/-- The loop over the buffers of `PgpCard::acceptFrame`: the buffers gone through before stay,
the others are left as they were or marked, driver calls are added to the trace, and for every
DMA index the hand-backs among the new calls are the buffers newly marked for that index.  When
the call returns without exception, every buffer is a zero-copy buffer marked as handed
over. -/
theorem pgp_acceptBuffers_count (card : PgpCard) (drv : Driver) (be : Backend) (fuel : Nat)
    (index : Nat) :
    ∀ (rest done : List Buffer) (tr : List DmaCall) (s : Sent),
      PgpCard.acceptBuffers card drv be fuel done rest tr = some s →
      ∃ rest1 new, s.frame = done ++ rest1 ∧ s.trace = tr ++ new ∧
        List.Forall₂ sentAs rest rest1 ∧
        handBacks be index tr new + handedOver index rest = handedOver index rest1 ∧
        (s.error = none →
          ∀ b ∈ rest1, b.meta &&& 0x80000000 ≠ 0 ∧ b.meta &&& 0x40000000 ≠ 0) := by
  intro rest
  induction rest with
  | nil =>
    intro done tr s h
    simp only [PgpCard.acceptBuffers, Option.some.injEq] at h
    subst h
    exact ⟨[], [], by simp, by simp, List.Forall₂.nil, by simp [handBacks, handedOver],
      fun _ b hb => by simp at hb⟩
  | cons buff rest ih =>
    intro done tr s h
    simp only [PgpCard.acceptBuffers] at h
    generalize (if rest = [] then 0 else 1) = cont at h
    by_cases h31 : buff.meta &&& 0x80000000 ≠ 0
    · rw [if_pos h31] at h
      by_cases h30 : buff.meta &&& 0x40000000 = 0
      · rw [if_pos h30] at h
        split_ifs at h with hle
        · simp only [Option.some.injEq] at h
          subst h
          refine ⟨buff :: rest, [_], rfl, rfl, frame_sentAs_refl _, ?_, ?_⟩
          · have hz : ¬ (0 < be tr (DmaCall.dmaWriteIndex (buff.meta &&& 0x3FFFFFFF)
                buff.count (drv.pgpSetFlags cont) (drv.pgpSetDest card.lane card.vc))) :=
              not_lt.mpr hle
            simp only [handBacks, handBack, gt_iff_lt, hz, and_false, if_false, Nat.zero_add]
          · intro he
            exact absurd he (by simp)
        · obtain ⟨rest1, new, hf, ht, hfa, hcount, hok⟩ := ih _ _ s h
          have hpos : 0 < be tr (DmaCall.dmaWriteIndex (buff.meta &&& 0x3FFFFFFF)
              buff.count (drv.pgpSetFlags cont) (drv.pgpSetDest card.lane card.vc)) :=
            not_le.mp hle
          refine ⟨{ buff with meta := buff.meta ||| 0x40000000 } :: rest1,
            DmaCall.dmaWriteIndex (buff.meta &&& 0x3FFFFFFF) buff.count (drv.pgpSetFlags cont)
              (drv.pgpSetDest card.lane card.vc) :: new,
            by rw [hf]; simp, by rw [ht]; simp, ?_, ?_, ?_⟩
          · exact List.Forall₂.cons (Or.inr ⟨h31, h30, rfl⟩) hfa
          · rw [handBacks, handedOver_cons, handedOver_cons, isHandedOver_fresh index buff h30,
              isHandedOver_marked index buff h31]
            simp only [handBack, gt_iff_lt, hpos, and_true, decide_eq_true_eq,
              Bool.false_eq_true, if_false]
            by_cases hidx : buff.meta &&& 0x3FFFFFFF = index
            · simp only [hidx] at hcount
              simp only [hidx, if_true]
              omega
            · simp only [hidx, if_false]
              omega
          · intro he b hb
            rcases List.mem_cons.mp hb with rfl | hin
            · exact mark_bits buff.meta h31
            · exact hok he b hin
      · rw [if_neg h30] at h
        obtain ⟨rest1, new, hf, ht, hfa, hcount, hok⟩ := ih _ _ s h
        refine ⟨buff :: rest1, new, by rw [hf]; simp, ht,
          List.Forall₂.cons (Or.inl rfl) hfa, ?_, ?_⟩
        · rw [handedOver_cons, handedOver_cons, ← hcount]
          omega
        · intro he b hb
          rcases List.mem_cons.mp hb with rfl | hin
          · exact ⟨h31, h30⟩
          · exact hok he b hin
    · rw [if_neg h31] at h
      cases hw : PgpCard.writeLoop card drv be buff cont fuel tr with
      | none =>
        rw [hw] at h
        simp at h
      | some r =>
        obtain ⟨tr1, e⟩ := r
        obtain ⟨new0, hn0, hc0⟩ := pgp_writeLoop_trace card drv be buff cont fuel tr tr1 e hw
        cases e with
        | none => exact absurd hw (pgp_writeLoop_never_done card drv be buff cont fuel tr tr1)
        | some e =>
          rw [hw] at h
          simp only [Option.some.injEq] at h
          subst h
          refine ⟨buff :: rest, new0, rfl, hn0, frame_sentAs_refl _, ?_, ?_⟩
          · rw [handBacks_none be index new0 hc0 tr, Nat.zero_add]
          · intro he
            exact absurd he (by simp)

end rogue.hardware.pgp

namespace rogue.hardware.pgp

open rogue.interfaces.stream rogue.hardware

/-- On a frame all of whose buffers are zero-copy buffers marked as handed over,
`PgpCard::acceptFrame` makes no driver call, changes no buffer and returns. -/
theorem pgp_acceptBuffers_stale (card : PgpCard) (drv : Driver) (be : Backend) (fuel : Nat) :
    ∀ (rest done : List Buffer) (tr : List DmaCall),
      (∀ b ∈ rest, b.meta &&& 0x80000000 ≠ 0 ∧ b.meta &&& 0x40000000 ≠ 0) →
      PgpCard.acceptBuffers card drv be fuel done rest tr =
        some { frame := done ++ rest, trace := tr, error := none } := by
  intro rest
  induction rest with
  | nil =>
    intro done tr _
    simp only [PgpCard.acceptBuffers, List.append_nil]
  | cons buff rest ih =>
    intro done tr h
    obtain ⟨h31, h30⟩ := h buff (List.mem_cons_self _ _)
    simp only [PgpCard.acceptBuffers, if_pos h31, if_neg h30]
    rw [ih (done ++ [buff]) tr (fun b hb => h b (List.mem_cons_of_mem _ hb))]
    simp

/-- The frame and the trace after `n` calls of `PgpCard::acceptFrame` in a row: every buffer is
as it was or marked, and for every DMA index the hand-backs among the new calls are the
buffers newly marked for that index. -/
theorem pgp_resend_count (card : PgpCard) (drv : Driver) (be : Backend) (fuel : Nat)
    (index : Nat) :
    ∀ (n : Nat) (frame : List Buffer) (tr : List DmaCall) (frame1 : List Buffer)
      (trace : List DmaCall),
      PgpCard.resend card drv be fuel n frame tr = some (frame1, trace) →
      ∃ new, trace = tr ++ new ∧ List.Forall₂ sentAs frame frame1 ∧
        handBacks be index tr new + handedOver index frame = handedOver index frame1 := by
  intro n
  induction n with
  | zero =>
    intro frame tr frame1 trace h
    simp only [PgpCard.resend, Option.some.injEq, Prod.mk.injEq] at h
    obtain ⟨rfl, rfl⟩ := h
    exact ⟨[], by simp, frame_sentAs_refl _, by simp [handBacks]⟩
  | succ n ih =>
    intro frame tr frame1 trace h
    simp only [PgpCard.resend] at h
    cases hs : card.acceptFrame drv be fuel frame tr with
    | none =>
      rw [hs] at h
      simp at h
    | some s =>
      rw [hs] at h
      simp only at h
      obtain ⟨rest1, new1, hf, ht, hfa, hcount, _⟩ :=
        pgp_acceptBuffers_count card drv be fuel index frame [] tr s hs
      rw [List.nil_append] at hf
      obtain ⟨new2, ht2, hfa2, hcount2⟩ := ih s.frame s.trace frame1 trace h
      rw [hf] at hfa2 hcount2
      refine ⟨new1 ++ new2, by rw [ht2, ht, List.append_assoc],
        frame_sentAs_trans _ _ _ hfa hfa2, ?_⟩
      rw [handBacks_append, ← ht]
      omega

/-- On a frame whose zero-copy buffers are all marked as handed over, `PgpCard::acceptFrame`
changes no buffer and makes no `dmaWriteIndex` or `dmaRetIndex` call. -/
theorem pgp_acceptBuffers_marked (card : PgpCard) (drv : Driver) (be : Backend) (fuel : Nat) :
    ∀ (rest done : List Buffer) (tr : List DmaCall) (s : Sent),
      (∀ b ∈ rest, b.meta &&& 0x80000000 ≠ 0 → b.meta &&& 0x40000000 ≠ 0) →
      PgpCard.acceptBuffers card drv be fuel done rest tr = some s →
      s.frame = done ++ rest ∧ ∃ new, s.trace = tr ++ new ∧ ∀ c ∈ new, c.isHandBack = false := by
  intro rest
  induction rest with
  | nil =>
    intro done tr s _ h
    simp only [PgpCard.acceptBuffers, Option.some.injEq] at h
    subst h
    exact ⟨by simp, [], by simp, fun c hc => by simp at hc⟩
  | cons buff rest ih =>
    intro done tr s hm h
    have hrest : ∀ b ∈ rest, b.meta &&& 0x80000000 ≠ 0 → b.meta &&& 0x40000000 ≠ 0 :=
      fun b hb => hm b (List.mem_cons_of_mem _ hb)
    simp only [PgpCard.acceptBuffers] at h
    by_cases h31 : buff.meta &&& 0x80000000 ≠ 0
    · have h30 := hm buff (List.mem_cons_self _ _) h31
      rw [if_pos h31, if_neg h30] at h
      obtain ⟨hf, new, ht, hc⟩ := ih _ _ s hrest h
      exact ⟨by rw [hf]; simp, new, ht, hc⟩
    · rw [if_neg h31] at h
      cases hw : PgpCard.writeLoop card drv be buff (if rest = [] then 0 else 1) fuel tr with
      | none =>
        rw [hw] at h
        simp at h
      | some r =>
        obtain ⟨tr1, e⟩ := r
        obtain ⟨new0, hn0, hc0⟩ := pgp_writeLoop_trace card drv be buff _ fuel tr tr1 e hw
        rw [hw] at h
        cases e with
        | none =>
          simp only at h
          obtain ⟨hf, new, ht, hc⟩ := ih _ _ s hrest h
          refine ⟨by rw [hf]; simp, new0 ++ new, by rw [ht, hn0, List.append_assoc], ?_⟩
          intro c hcm
          rcases List.mem_append.mp hcm with hin | hin
          · exact hc0 c hin
          · exact hc c hin
        | some e =>
          simp only [Option.some.injEq] at h
          subst h
          exact ⟨rfl, new0, hn0, hc0⟩

end rogue.hardware.pgp

namespace rogue.hardware.rce

open rogue.interfaces.stream rogue.hardware

/-- The write loop of `AxiStream::acceptFrame` adds driver calls to the trace, none of them a
`dmaWriteIndex` or a `dmaRetIndex`. -/
theorem axi_writeLoop_trace (card : AxiStream) (drv : Driver) (be : Backend) (buff : Buffer) :
    ∀ (fuel : Nat) (tr tr1 : List DmaCall) (e : Option GeneralError),
      AxiStream.writeLoop card drv be buff fuel tr = some (tr1, e) →
      ∃ new, tr1 = tr ++ new ∧ ∀ c ∈ new, c.isHandBack = false := by
  intro fuel
  induction fuel with
  | zero =>
    intro tr tr1 e h
    simp [AxiStream.writeLoop] at h
  | succ fuel ih =>
    intro tr tr1 e h
    simp only [AxiStream.writeLoop] at h
    split_ifs at h
    all_goals first
      | exact trace_extend _ _ _ (ih _ _ _ h) (wait_write_isHandBack _ 0 0 0 0).1
      | exact trace_extend _ _ _ (ih _ _ _ h) (wait_write_isHandBack _ _ _ _ _).2
      | (simp only [Option.some.injEq, Prod.mk.injEq] at h
         obtain ⟨rfl, _⟩ := h
         exact ⟨_, rfl, (wait_write_isHandBack _ 0 0 0 0).1⟩)
      | (simp only [Option.some.injEq, Prod.mk.injEq] at h
         obtain ⟨rfl, _⟩ := h
         exact ⟨_, rfl, (wait_write_isHandBack _ _ _ _ _).2⟩)

/-- The loop over the buffers of `AxiStream::acceptFrame`: the buffers gone through before
stay, the others are left as they were or marked, driver calls are added to the trace, and for
every DMA index the hand-backs among the new calls are the buffers newly marked for that
index.  When the call returns without exception, every zero-copy buffer is marked as handed
over. -/
theorem axi_acceptBuffers_count (card : AxiStream) (drv : Driver) (be : Backend) (fuel : Nat)
    (index : Nat) :
    ∀ (rest done : List Buffer) (tr : List DmaCall) (s : Sent),
      AxiStream.acceptBuffers card drv be fuel done rest tr = some s →
      ∃ rest1 new, s.frame = done ++ rest1 ∧ s.trace = tr ++ new ∧
        List.Forall₂ sentAs rest rest1 ∧
        handBacks be index tr new + handedOver index rest = handedOver index rest1 ∧
        (s.error = none →
          ∀ b ∈ rest1, b.meta &&& 0x80000000 ≠ 0 → b.meta &&& 0x40000000 ≠ 0) := by
  intro rest
  induction rest with
  | nil =>
    intro done tr s h
    simp only [AxiStream.acceptBuffers, Option.some.injEq] at h
    subst h
    exact ⟨[], [], by simp, by simp, List.Forall₂.nil, by simp [handBacks, handedOver],
      fun _ b hb => by simp at hb⟩
  | cons buff rest ih =>
    intro done tr s h
    simp only [AxiStream.acceptBuffers] at h
    by_cases h31 : buff.meta &&& 0x80000000 ≠ 0
    · rw [if_pos h31] at h
      by_cases h30 : buff.meta &&& 0x40000000 = 0
      · rw [if_pos h30] at h
        split_ifs at h with hle
        · simp only [Option.some.injEq] at h
          subst h
          refine ⟨buff :: rest, [_], rfl, rfl, frame_sentAs_refl _, ?_, ?_⟩
          · have hz : ¬ (0 < be tr (DmaCall.dmaWriteIndex (buff.meta &&& 0x3FFFFFFF)
                buff.count (card.txFlags drv buff) card.dest)) := not_lt.mpr hle
            simp only [handBacks, handBack, gt_iff_lt, hz, and_false, if_false, Nat.zero_add]
          · intro he
            exact absurd he (by simp)
        · obtain ⟨rest1, new, hf, ht, hfa, hcount, hok⟩ := ih _ _ s h
          have hpos : 0 < be tr (DmaCall.dmaWriteIndex (buff.meta &&& 0x3FFFFFFF)
              buff.count (card.txFlags drv buff) card.dest) := not_le.mp hle
          refine ⟨{ buff with meta := buff.meta ||| 0x40000000 } :: rest1,
            DmaCall.dmaWriteIndex (buff.meta &&& 0x3FFFFFFF) buff.count
              (card.txFlags drv buff) card.dest :: new,
            by rw [hf]; simp, by rw [ht]; simp, ?_, ?_, ?_⟩
          · exact List.Forall₂.cons (Or.inr ⟨h31, h30, rfl⟩) hfa
          · rw [handBacks, handedOver_cons, handedOver_cons, isHandedOver_fresh index buff h30,
              isHandedOver_marked index buff h31]
            simp only [handBack, gt_iff_lt, hpos, and_true, decide_eq_true_eq,
              Bool.false_eq_true, if_false]
            by_cases hidx : buff.meta &&& 0x3FFFFFFF = index
            · simp only [hidx] at hcount
              simp only [hidx, if_true]
              omega
            · simp only [hidx, if_false]
              omega
          · intro he b hb _
            rcases List.mem_cons.mp hb with rfl | hin
            · exact (mark_bits buff.meta h31).2
            · exact hok he b hin (by assumption)
      · rw [if_neg h30] at h
        obtain ⟨rest1, new, hf, ht, hfa, hcount, hok⟩ := ih _ _ s h
        refine ⟨buff :: rest1, new, by rw [hf]; simp, ht,
          List.Forall₂.cons (Or.inl rfl) hfa, ?_, ?_⟩
        · rw [handedOver_cons, handedOver_cons, ← hcount]
          omega
        · intro he b hb hb31
          rcases List.mem_cons.mp hb with rfl | hin
          · exact h30
          · exact hok he b hin hb31
    · rw [if_neg h31] at h
      have hnot : isHandedOver index buff = false := by
        unfold isHandedOver
        simp [h31]
      cases hw : AxiStream.writeLoop card drv be buff fuel tr with
      | none =>
        rw [hw] at h
        simp at h
      | some r =>
        obtain ⟨tr1, e⟩ := r
        obtain ⟨new0, hn0, hc0⟩ := axi_writeLoop_trace card drv be buff fuel tr tr1 e hw
        rw [hw] at h
        cases e with
        | none =>
          simp only at h
          obtain ⟨rest1, new, hf, ht, hfa, hcount, hok⟩ := ih _ _ s h
          refine ⟨buff :: rest1, new0 ++ new, by rw [hf]; simp,
            by rw [ht, hn0, List.append_assoc], List.Forall₂.cons (Or.inl rfl) hfa, ?_, ?_⟩
          · rw [handBacks_append, handBacks_none be index new0 hc0 tr, handedOver_cons,
              handedOver_cons, hnot, ← hn0]
            simp only [Bool.false_eq_true, if_false]
            omega
          · intro he b hb hb31
            rcases List.mem_cons.mp hb with rfl | hin
            · exact absurd hb31 h31
            · exact hok he b hin hb31
        | some e =>
          simp only [Option.some.injEq] at h
          subst h
          refine ⟨buff :: rest, new0, rfl, hn0, frame_sentAs_refl _, ?_, ?_⟩
          · rw [handBacks_none be index new0 hc0 tr, Nat.zero_add]
          · intro he
            exact absurd he (by simp)

/-- On a frame whose zero-copy buffers are all marked as handed over, `AxiStream::acceptFrame`
changes no buffer and makes no `dmaWriteIndex` or `dmaRetIndex` call. -/
theorem axi_acceptBuffers_marked (card : AxiStream) (drv : Driver) (be : Backend) (fuel : Nat) :
    ∀ (rest done : List Buffer) (tr : List DmaCall) (s : Sent),
      (∀ b ∈ rest, b.meta &&& 0x80000000 ≠ 0 → b.meta &&& 0x40000000 ≠ 0) →
      AxiStream.acceptBuffers card drv be fuel done rest tr = some s →
      s.frame = done ++ rest ∧ ∃ new, s.trace = tr ++ new ∧ ∀ c ∈ new, c.isHandBack = false := by
  intro rest
  induction rest with
  | nil =>
    intro done tr s _ h
    simp only [AxiStream.acceptBuffers, Option.some.injEq] at h
    subst h
    exact ⟨by simp, [], by simp, fun c hc => by simp at hc⟩
  | cons buff rest ih =>
    intro done tr s hm h
    have hrest : ∀ b ∈ rest, b.meta &&& 0x80000000 ≠ 0 → b.meta &&& 0x40000000 ≠ 0 :=
      fun b hb => hm b (List.mem_cons_of_mem _ hb)
    simp only [AxiStream.acceptBuffers] at h
    by_cases h31 : buff.meta &&& 0x80000000 ≠ 0
    · have h30 := hm buff (List.mem_cons_self _ _) h31
      rw [if_pos h31, if_neg h30] at h
      obtain ⟨hf, new, ht, hc⟩ := ih _ _ s hrest h
      exact ⟨by rw [hf]; simp, new, ht, hc⟩
    · rw [if_neg h31] at h
      cases hw : AxiStream.writeLoop card drv be buff fuel tr with
      | none =>
        rw [hw] at h
        simp at h
      | some r =>
        obtain ⟨tr1, e⟩ := r
        obtain ⟨new0, hn0, hc0⟩ := axi_writeLoop_trace card drv be buff fuel tr tr1 e hw
        rw [hw] at h
        cases e with
        | none =>
          simp only at h
          obtain ⟨hf, new, ht, hc⟩ := ih _ _ s hrest h
          refine ⟨by rw [hf]; simp, new0 ++ new, by rw [ht, hn0, List.append_assoc], ?_⟩
          intro c hcm
          rcases List.mem_append.mp hcm with hin | hin
          · exact hc0 c hin
          · exact hc c hin
        | some e =>
          simp only [Option.some.injEq] at h
          subst h
          exact ⟨rfl, new0, hn0, hc0⟩

/-- On a frame all of whose buffers are zero-copy buffers marked as handed over,
`AxiStream::acceptFrame` makes no driver call, changes no buffer and returns. -/
theorem axi_acceptBuffers_stale (card : AxiStream) (drv : Driver) (be : Backend) (fuel : Nat) :
    ∀ (rest done : List Buffer) (tr : List DmaCall),
      (∀ b ∈ rest, b.meta &&& 0x80000000 ≠ 0 ∧ b.meta &&& 0x40000000 ≠ 0) →
      AxiStream.acceptBuffers card drv be fuel done rest tr =
        some { frame := done ++ rest, trace := tr, error := none } := by
  intro rest
  induction rest with
  | nil =>
    intro done tr _
    simp only [AxiStream.acceptBuffers, List.append_nil]
  | cons buff rest ih =>
    intro done tr h
    obtain ⟨h31, h30⟩ := h buff (List.mem_cons_self _ _)
    simp only [AxiStream.acceptBuffers, if_pos h31, if_neg h30]
    rw [ih (done ++ [buff]) tr (fun b hb => h b (List.mem_cons_of_mem _ hb))]
    simp

/-- The frame and the trace after `n` calls of `AxiStream::acceptFrame` in a row: every buffer
is as it was or marked, and for every DMA index the hand-backs among the new calls are the
buffers newly marked for that index. -/
theorem axi_resend_count (card : AxiStream) (drv : Driver) (be : Backend) (fuel : Nat)
    (index : Nat) :
    ∀ (n : Nat) (frame : List Buffer) (tr : List DmaCall) (frame1 : List Buffer)
      (trace : List DmaCall),
      AxiStream.resend card drv be fuel n frame tr = some (frame1, trace) →
      ∃ new, trace = tr ++ new ∧ List.Forall₂ sentAs frame frame1 ∧
        handBacks be index tr new + handedOver index frame = handedOver index frame1 := by
  intro n
  induction n with
  | zero =>
    intro frame tr frame1 trace h
    simp only [AxiStream.resend, Option.some.injEq, Prod.mk.injEq] at h
    obtain ⟨rfl, rfl⟩ := h
    exact ⟨[], by simp, frame_sentAs_refl _, by simp [handBacks]⟩
  | succ n ih =>
    intro frame tr frame1 trace h
    simp only [AxiStream.resend] at h
    cases hs : card.acceptFrame drv be fuel frame tr with
    | none =>
      rw [hs] at h
      simp at h
    | some s =>
      rw [hs] at h
      simp only at h
      obtain ⟨rest1, new1, hf, ht, hfa, hcount, _⟩ :=
        axi_acceptBuffers_count card drv be fuel index frame [] tr s hs
      rw [List.nil_append] at hf
      obtain ⟨new2, ht2, hfa2, hcount2⟩ := ih s.frame s.trace frame1 trace h
      rw [hf] at hfa2 hcount2
      refine ⟨new1 ++ new2, by rw [ht2, ht, List.append_assoc],
        frame_sentAs_trans _ _ _ hfa hfa2, ?_⟩
      rw [handBacks_append, ← ht]
      omega

end rogue.hardware.rce

namespace rogue.hardware

open rogue.interfaces.stream rogue.hardware.pgp rogue.hardware.rce

/-- What `acceptFrame` may do to the buffers of a frame keeps bit 31 of every meta word. -/
theorem frame_sentAs_bit31 :
    ∀ (l l1 : List Buffer), List.Forall₂ sentAs l l1 →
      (∀ x ∈ l, x.meta &&& 0x80000000 ≠ 0) → ∀ y ∈ l1, y.meta &&& 0x80000000 ≠ 0 := by
  intro l
  induction l with
  | nil =>
    intro l1 h _ y hy
    cases h
    simp at hy
  | cons a l ih =>
    intro l1 h hall y hy
    cases h with
    | cons hab t =>
      rcases List.mem_cons.mp hy with rfl | hin
      · rcases hab with rfl | ⟨h31, _, rfl⟩
        · exact hall _ (List.mem_cons_self _ _)
        · exact (mark_bits a.meta h31).1
      · exact ih _ t (fun x hx => hall x (List.mem_cons_of_mem _ hx)) y hin

/-- The state of a buffer over a DMA index that no other buffer of its frame carries, after any
number of sends that left the frame as `frame1` and handed the index back `count` times: the
buffer is marked and the index was handed back once, or it is as it was and the index was not
handed back. -/
theorem handed_back_state (index count : Nat) (frame frame1 : List Buffer) (k : Nat)
    (b : Buffer) (hfa : List.Forall₂ sentAs frame frame1) (hk : frame[k]? = some b)
    (h31 : b.meta.testBit 31 = true) (h30 : b.meta.testBit 30 = false)
    (hidx : b.meta &&& 0x3FFFFFFF = index)
    (huniq : ∀ j b2, frame[j]? = some b2 → j ≠ k → b2.meta.testBit 31 = true →
      b2.meta &&& 0x3FFFFFFF ≠ index)
    (hcount : count + handedOver index frame = handedOver index frame1) :
    ∃ b1, frame1[k]? = some b1 ∧ b1.data = b.data ∧ b1.meta &&& 0x3FFFFFFF = index ∧
      b1.meta.testBit 31 = true ∧
      ((b1.meta.testBit 30 = true ∧ count = 1) ∨ (b1.meta.testBit 30 = false ∧ count = 0)) := by
  have hu : ∀ j b2, frame[j]? = some b2 → j ≠ k → ¬ carries index b2 := by
    intro j b2 hj hne hc
    exact huniq j b2 hj hne ((meta_bit31 b2.meta).mp hc.1) hc.2
  have g31 := (meta_bit31 b.meta).mpr h31
  have g30 := (meta_bit30 b.meta).mpr h30
  obtain ⟨b0, hb0, _, hc0⟩ := handedOver_at index frame frame k b (frame_sentAs_refl _) hk hu
  rw [hk] at hb0
  have hbb : b0 = b := (Option.some.inj hb0).symm
  rw [hbb, isHandedOver_fresh index b g30] at hc0
  obtain ⟨b1, hb1, hs, hc1⟩ := handedOver_at index frame frame1 k b hfa hk hu
  refine ⟨b1, hb1, ?_⟩
  rcases hs with rfl | ⟨_, _, rfl⟩
  · rw [isHandedOver_fresh index b1 g30] at hc1
    refine ⟨rfl, hidx, h31, Or.inr ⟨h30, ?_⟩⟩
    simp only [Bool.false_eq_true, if_false] at hc0 hc1
    omega
  · obtain ⟨m30, m31⟩ := meta_mark b.meta
    rw [isHandedOver_marked index b g31] at hc1
    simp only [hidx, decide_True, if_true] at hc1
    simp only [Bool.false_eq_true, if_false] at hc0
    refine ⟨rfl, by rw [mark_index]; exact hidx, by rw [m31]; exact h31, Or.inl ⟨m30, ?_⟩⟩
    omega

/-- C25, counterexample, on an `AxiStream` whose backend accepts every write.  First, a frame of
a zero-copy buffer over DMA index 5 followed by a software-owned buffer: `acceptFrame` returns
without exception and marks the zero-copy buffer, and a second `acceptFrame` on the same frame
makes two more driver calls, the wait and the `dmaWrite` of the software-owned buffer.  Second,
a frame of two zero-copy buffers that are both over DMA index 5: one `acceptFrame` makes two
successful `dmaWriteIndex` calls on index 5, so the driver has got that index twice. -/
theorem hand_back_claim_fails :
    (axiExample.acceptFrame plainDriver echoBackend 1 [filledBuffer, softwareBuffer] [] =
        some { frame := [{ filledBuffer with meta := 0xC0000005 }, softwareBuffer],
               trace := [DmaCall.dmaWriteIndex 5 64 0 0, DmaCall.select 1 0,
                 DmaCall.dmaWrite 0x6000 64 0 0],
               error := none } ∧
      axiExample.acceptFrame plainDriver echoBackend 1
          [{ filledBuffer with meta := 0xC0000005 }, softwareBuffer]
          [DmaCall.dmaWriteIndex 5 64 0 0, DmaCall.select 1 0,
            DmaCall.dmaWrite 0x6000 64 0 0] =
        some { frame := [{ filledBuffer with meta := 0xC0000005 }, softwareBuffer],
               trace := [DmaCall.dmaWriteIndex 5 64 0 0, DmaCall.select 1 0,
                 DmaCall.dmaWrite 0x6000 64 0 0, DmaCall.select 1 0,
                 DmaCall.dmaWrite 0x6000 64 0 0],
               error := none }) ∧
      (axiExample.acceptFrame plainDriver echoBackend 1 [filledBuffer, filledBuffer] [] =
        some { frame := [{ filledBuffer with meta := 0xC0000005 },
                 { filledBuffer with meta := 0xC0000005 }],
               trace := [DmaCall.dmaWriteIndex 5 64 0 0, DmaCall.dmaWriteIndex 5 64 0 0],
               error := none } ∧
      handBacks echoBackend (filledBuffer.meta &&& 0x3FFFFFFF) []
        [DmaCall.dmaWriteIndex 5 64 0 0, DmaCall.dmaWriteIndex 5 64 0 0] = 2 ∧
      (axiExample.retBuffer filledBuffer.data 0xC0000005 filledBuffer.allocSize).2 = []) := by
  decide

/-- C25, amended (index hand-back happens exactly once): take a zero-copy buffer (meta bit 31
set, bit 30 clear) at position `k` of a frame in which no other zero-copy buffer is over the
same DMA index `meta & 0x3FFFFFFF`, on an open device.  After any number `n` of `acceptFrame`
calls on the frame (of `PgpCard` or of `AxiStream`) that have returned or thrown, followed by
the drop of the buffer, the index has been handed back exactly once: either the buffer is
marked, one `dmaWriteIndex` on the index succeeded and the drop makes no driver call, or the
buffer is not marked, no `dmaWriteIndex` on the index succeeded and the drop makes the one call
`dmaRetIndex(index)`.  After an `acceptFrame` that returned without exception, a further
`acceptFrame` on the same frame, of either adapter and whether it returns or throws, changes no
buffer and makes no `dmaWriteIndex` or `dmaRetIndex` call, and it makes no driver call at all
and returns when every buffer of the frame is a zero-copy buffer. -/
theorem index_handed_back_once (card : PgpCard) (axi : AxiStream) (drv : Driver)
    (be : Backend) (fuel : Nat) (frame : List Buffer) (k : Nat) (b : Buffer) (n : Nat)
    (hopen : 0 ≤ card.fd) (hopen2 : 0 ≤ axi.fd) (hk : frame[k]? = some b)
    (h31 : b.meta.testBit 31 = true) (h30 : b.meta.testBit 30 = false)
    (huniq : ∀ j b2, frame[j]? = some b2 → j ≠ k → b2.meta.testBit 31 = true →
      b2.meta &&& 0x3FFFFFFF ≠ b.meta &&& 0x3FFFFFFF) :
    (∀ frame1 trace, card.resend drv be fuel n frame [] = some (frame1, trace) →
        ∃ b1, frame1[k]? = some b1 ∧
          ((b1.meta.testBit 30 = true ∧ handBacks be (b.meta &&& 0x3FFFFFFF) [] trace = 1 ∧
              (card.retBuffer b1.data b1.meta b1.allocSize).2 = []) ∨
            (b1.meta.testBit 30 = false ∧ handBacks be (b.meta &&& 0x3FFFFFFF) [] trace = 0 ∧
              (card.retBuffer b1.data b1.meta b1.allocSize).2 =
                [DmaCall.dmaRetIndex (b.meta &&& 0x3FFFFFFF)])) ∧
          handBacks be (b.meta &&& 0x3FFFFFFF) []
            (trace ++ (card.retBuffer b1.data b1.meta b1.allocSize).2) = 1) ∧
      (∀ frame1 trace, axi.resend drv be fuel n frame [] = some (frame1, trace) →
        ∃ b1, frame1[k]? = some b1 ∧
          ((b1.meta.testBit 30 = true ∧ handBacks be (b.meta &&& 0x3FFFFFFF) [] trace = 1 ∧
              (axi.retBuffer b1.data b1.meta b1.allocSize).2 = []) ∨
            (b1.meta.testBit 30 = false ∧ handBacks be (b.meta &&& 0x3FFFFFFF) [] trace = 0 ∧
              (axi.retBuffer b1.data b1.meta b1.allocSize).2 =
                [DmaCall.dmaRetIndex (b.meta &&& 0x3FFFFFFF)])) ∧
          handBacks be (b.meta &&& 0x3FFFFFFF) []
            (trace ++ (axi.retBuffer b1.data b1.meta b1.allocSize).2) = 1) ∧
      (∀ tr s, card.acceptFrame drv be fuel frame tr = some s → s.error = none →
        (∀ fuel2 s2, card.acceptFrame drv be fuel2 s.frame s.trace = some s2 →
          s2.frame = s.frame ∧
            ∃ new, s2.trace = s.trace ++ new ∧ ∀ c ∈ new, c.isHandBack = false) ∧
        ((∀ x ∈ frame, x.meta.testBit 31 = true) →
          ∀ fuel2, card.acceptFrame drv be fuel2 s.frame s.trace = some s)) ∧
      (∀ tr s, axi.acceptFrame drv be fuel frame tr = some s → s.error = none →
        (∀ fuel2 s2, axi.acceptFrame drv be fuel2 s.frame s.trace = some s2 →
          s2.frame = s.frame ∧
            ∃ new, s2.trace = s.trace ++ new ∧ ∀ c ∈ new, c.isHandBack = false) ∧
        ((∀ x ∈ frame, x.meta.testBit 31 = true) →
          ∀ fuel2, axi.acceptFrame drv be fuel2 s.frame s.trace = some s)) := by
  refine ⟨?_, ?_, ?_, ?_⟩
  · intro frame1 trace hr
    obtain ⟨new, ht, hfa, hcount⟩ :=
      pgp_resend_count card drv be fuel (b.meta &&& 0x3FFFFFFF) n frame [] frame1 trace hr
    rw [List.nil_append] at ht
    subst ht
    obtain ⟨b1, hb1, _, hi1, g31, hst⟩ := handed_back_state (b.meta &&& 0x3FFFFFFF)
      (handBacks be (b.meta &&& 0x3FFFFFFF) [] trace) frame frame1 k b hfa hk h31 h30 rfl huniq
      hcount
    obtain ⟨c1, c2, _⟩ := pgp_retBuffer_cases card b1.data b1.meta b1.allocSize hopen
    refine ⟨b1, hb1, ?_, ?_⟩
    · rcases hst with ⟨g30, hc⟩ | ⟨g30, hc⟩
      · exact Or.inl ⟨g30, hc, by rw [c2 g31 g30]⟩
      · exact Or.inr ⟨g30, hc, by rw [c1 g31 g30, hi1]⟩
    · rw [handBacks_append]
      rcases hst with ⟨g30, hc⟩ | ⟨g30, hc⟩
      · rw [c2 g31 g30, hc]
        rfl
      · rw [c1 g31 g30, hc, hi1]
        simp [handBacks, handBack]
  · intro frame1 trace hr
    obtain ⟨new, ht, hfa, hcount⟩ :=
      axi_resend_count axi drv be fuel (b.meta &&& 0x3FFFFFFF) n frame [] frame1 trace hr
    rw [List.nil_append] at ht
    subst ht
    obtain ⟨b1, hb1, _, hi1, g31, hst⟩ := handed_back_state (b.meta &&& 0x3FFFFFFF)
      (handBacks be (b.meta &&& 0x3FFFFFFF) [] trace) frame frame1 k b hfa hk h31 h30 rfl huniq
      hcount
    obtain ⟨c1, c2, _⟩ := axi_retBuffer_cases axi b1.data b1.meta b1.allocSize hopen2
    refine ⟨b1, hb1, ?_, ?_⟩
    · rcases hst with ⟨g30, hc⟩ | ⟨g30, hc⟩
      · exact Or.inl ⟨g30, hc, by rw [c2 g31 g30]⟩
      · exact Or.inr ⟨g30, hc, by rw [c1 g31 g30, hi1]⟩
    · rw [handBacks_append]
      rcases hst with ⟨g30, hc⟩ | ⟨g30, hc⟩
      · rw [c2 g31 g30, hc]
        rfl
      · rw [c1 g31 g30, hc, hi1]
        simp [handBacks, handBack]
  · intro tr s hs he
    obtain ⟨rest1, new, hf, _, hfa, _, hok⟩ :=
      pgp_acceptBuffers_count card drv be fuel 0 frame [] tr s hs
    rw [List.nil_append] at hf
    constructor
    · intro fuel2 s2 hs2
      rw [hf] at hs2
      obtain ⟨hf2, hnew⟩ := pgp_acceptBuffers_marked card drv be fuel2 rest1 [] s.trace s2
        (fun y hy _ => (hok he y hy).2) hs2
      rw [List.nil_append] at hf2
      exact ⟨by rw [hf2, hf], hnew⟩
    · intro _ fuel2
      have hst := pgp_acceptBuffers_stale card drv be fuel2 rest1 [] s.trace (hok he)
      unfold PgpCard.acceptFrame
      rw [hf, hst, List.nil_append, ← hf, ← he]
  · intro tr s hs he
    obtain ⟨rest1, new, hf, _, hfa, _, hok⟩ :=
      axi_acceptBuffers_count axi drv be fuel 0 frame [] tr s hs
    rw [List.nil_append] at hf
    constructor
    · intro fuel2 s2 hs2
      rw [hf] at hs2
      obtain ⟨hf2, hnew⟩ := axi_acceptBuffers_marked axi drv be fuel2 rest1 [] s.trace s2
        (hok he) hs2
      rw [List.nil_append] at hf2
      exact ⟨by rw [hf2, hf], hnew⟩
    · intro hall fuel2
      have h31all : ∀ y ∈ rest1, y.meta &&& 0x80000000 ≠ 0 :=
        frame_sentAs_bit31 frame rest1 hfa
          (fun x hx => (meta_bit31 x.meta).mpr (hall x hx))
      have hst := axi_acceptBuffers_stale axi drv be fuel2 rest1 [] s.trace
        (fun y hy => ⟨h31all y hy, hok he y hy (h31all y hy)⟩)
      unfold AxiStream.acceptFrame
      rw [hf, hst, List.nil_append, ← hf, ← he]

/-- Witness of `index_handed_back_once`: the zero-copy buffer over DMA index 5, sent twice on
the example card with a backend that accepts every write, is marked after one successful
`dmaWriteIndex` on index 5, and its drop makes no driver call. -/
theorem index_handed_back_once_witness :
    ∃ b1, [{ filledBuffer with meta := 0xC0000005 }][0]? = some b1 ∧
      ((b1.meta.testBit 30 = true ∧
          handBacks echoBackend (filledBuffer.meta &&& 0x3FFFFFFF) []
            [DmaCall.dmaWriteIndex 5 64 0 0] = 1 ∧
          (pgpExample.retBuffer b1.data b1.meta b1.allocSize).2 = []) ∨
        (b1.meta.testBit 30 = false ∧
          handBacks echoBackend (filledBuffer.meta &&& 0x3FFFFFFF) []
            [DmaCall.dmaWriteIndex 5 64 0 0] = 0 ∧
          (pgpExample.retBuffer b1.data b1.meta b1.allocSize).2 =
            [DmaCall.dmaRetIndex (filledBuffer.meta &&& 0x3FFFFFFF)])) ∧
      handBacks echoBackend (filledBuffer.meta &&& 0x3FFFFFFF) []
        ([DmaCall.dmaWriteIndex 5 64 0 0] ++
          (pgpExample.retBuffer b1.data b1.meta b1.allocSize).2) = 1 :=
  (index_handed_back_once pgpExample axiExample plainDriver echoBackend 1 [filledBuffer] 0
    filledBuffer 2 (by decide) (by decide) rfl (by decide) (by decide)
    (fun j b2 hj hne => by
      cases j with
      | zero => exact absurd rfl hne
      | succ j => simp at hj)).1
    [{ filledBuffer with meta := 0xC0000005 }] [DmaCall.dmaWriteIndex 5 64 0 0] (by decide)

end rogue.hardware

/-! ## PGP card: framing of the receive loop -/

namespace rogue.hardware.pgp

open rogue.interfaces.stream rogue.hardware

/-- The error word of a frame after one more buffer: the buffer's error or-ed in. -/
theorem errorsOr_append (bufs : List Buffer) (b : Buffer) :
    errorsOr (bufs ++ [b]) = b.error ||| errorsOr bufs := by
  unfold errorsOr
  rw [List.foldl_append]
  rfl

/-- The assignment to the local `buff` leaves the frame being filled, the frames sent and the
state of the thread alone. -/
theorem assignBuff_effect (card : PgpCard) (st : Receiver) (p : Pool) (b : Buffer) :
    (card.assignBuff st p b).buff = some b ∧ (card.assignBuff st p b).frame = st.frame ∧
      (card.assignBuff st p b).sent = st.sent ∧ (card.assignBuff st p b).error = st.error := by
  unfold PgpCard.assignBuff
  cases st.buff <;> exact ⟨rfl, rfl, rfl, rfl⟩

/-- The block `if ( res > 0 ) { ... }` on a state that holds the buffer `b`: nothing happens
for `res <= 0`; otherwise the buffer gets size `res` and the error word, is appended to the
frame, whose error word is or-ed, and the frame is sent and replaced by an empty one when the
continue flag is 0. -/
theorem deliver_effect (st : Receiver) (b : Buffer) (res : Int) (error cont : Nat)
    (hb : st.buff = some b) :
    (PgpCard.deliver st res error cont).error = st.error ∧
      (¬ res > 0 →
        (PgpCard.deliver st res error cont).frame = st.frame ∧
          (PgpCard.deliver st res error cont).sent = st.sent) ∧
      (res > 0 → cont = 0 →
        (PgpCard.deliver st res error cont).sent =
            st.sent ++ [{ st.frame with
              error := error ||| st.frame.error
              buffers := st.frame.buffers ++ [{ b with count := res.toNat, error := error }] }] ∧
          (PgpCard.deliver st res error cont).frame = Frame.create) ∧
      (res > 0 → cont ≠ 0 →
        (PgpCard.deliver st res error cont).sent = st.sent ∧
          (PgpCard.deliver st res error cont).frame =
            { st.frame with
              error := error ||| st.frame.error
              buffers := st.frame.buffers ++ [{ b with count := res.toNat, error := error }] }) := by
  unfold PgpCard.deliver
  refine ⟨?_, ?_, ?_, ?_⟩
  · split_ifs <;> simp only [hb]
  · intro h
    rw [if_neg h]
    exact ⟨rfl, rfl⟩
  · intro h hc
    rw [if_pos h]
    simp only [hb, if_pos hc]
    constructor <;> first | rfl | trivial
  · intro h hc
    rw [if_pos h]
    simp only [hb, if_neg hc]
    constructor <;> first | rfl | trivial

/-- One round of the receive loop, `malloc` not failing: a round without successful read
leaves the frame being filled and the frames sent alone; a successful read of `n` bytes with
error word `e` appends a buffer of size `n` and error `e` to the frame and ors `e` into its
error word, and the frame is sent and replaced by an empty one when the continue flag is 0. -/
theorem round_effect (card : PgpCard) (pgpGetCont : Nat → Nat) (st : Receiver) (r : Round)
    (hst : st.error = none)
    (hmalloc : ∀ res flags error meta, r ≠ Round.read res flags error meta 0) :
    (card.round pgpGetCont st r).error = none ∧
      (r.success = none →
        (card.round pgpGetCont st r).frame = st.frame ∧
          (card.round pgpGetCont st r).sent = st.sent) ∧
      (∀ n e fl, r.success = some (n, e, fl) →
        ∃ b1 : Buffer, b1.count = n ∧ b1.error = e ∧
          (pgpGetCont fl = 0 →
            (card.round pgpGetCont st r).sent =
                st.sent ++ [{ st.frame with
                  error := e ||| st.frame.error, buffers := st.frame.buffers ++ [b1] }] ∧
              (card.round pgpGetCont st r).frame = Frame.create) ∧
          (pgpGetCont fl ≠ 0 →
            (card.round pgpGetCont st r).sent = st.sent ∧
              (card.round pgpGetCont st r).frame =
                { st.frame with
                  error := e ||| st.frame.error, buffers := st.frame.buffers ++ [b1] })) := by
  cases r with
  | idle =>
    refine ⟨hst, fun _ => ⟨rfl, rfl⟩, fun n e fl h => ?_⟩
    simp [Round.success] at h
  | read res flags error meta mallocResult =>
    have hm : mallocResult ≠ 0 := by
      intro h
      exact hmalloc res flags error meta (by rw [h])
    have hsome : st.error.isSome = false := by rw [hst]; rfl
    simp only [PgpCard.round, hsome, Bool.false_eq_true, if_false]
    by_cases hpath : card.zeroCopyEn = false ∨ card.rawBuff = none
    · rw [if_pos hpath]
      rw [allocBuffer_eq st.pool card.bSize mallocResult none (Or.inr hm)]
      simp only []
      generalize hbdef : Buffer.create (st.pool.dataQ.headD mallocResult) st.pool.allocMeta
        (st.pool.bufSizeOf card.bSize) (st.pool.allocSizeOf card.bSize) = b
      generalize hp1 : ({ st.pool with
        dataQ := st.pool.dataQ.tail
        allocMeta := ((st.pool.allocMeta + 1) % 2 ^ 32) &&& 0xFFFFFF
        allocBytes := (st.pool.allocBytes + st.pool.allocSizeOf card.bSize) % 2 ^ 32
        allocCount := (st.pool.allocCount + 1) % 2 ^ 32 } : Pool) = p1
      obtain ⟨a1, a2, a3, a4⟩ := assignBuff_effect card st p1 b
      obtain ⟨d1, d2, d3, d4⟩ :=
        deliver_effect (card.assignBuff st p1 b) b res error (pgpGetCont flags) a1
      rw [a2, a3] at d2 d3 d4
      refine ⟨by rw [d1, a4, hst], ?_, ?_⟩
      · intro hs
        have hres : ¬ res > 0 := by
          intro hpos
          simp [Round.success, hpos] at hs
        exact d2 hres
      · intro n e fl hs
        have hres : res > 0 := by
          by_contra hneg
          simp [Round.success, hneg] at hs
        simp only [Round.success, if_pos hres, Option.some.injEq, Prod.mk.injEq] at hs
        obtain ⟨rfl, rfl, rfl⟩ := hs
        exact ⟨{ b with count := res.toNat, error := error }, rfl, rfl, d3 hres, d4 hres⟩
    · rw [if_neg hpath]
      by_cases hres : res > 0
      · rw [if_pos hres]
        generalize hcre : st.pool.createBuffer ((card.rawBuff.getD []).getD meta 0)
          (0x80000000 ||| meta) card.bSize card.bSize = created
        obtain ⟨a1, a2, a3, a4⟩ := assignBuff_effect card st created.1 created.2
        obtain ⟨d1, d2, d3, d4⟩ :=
          deliver_effect (card.assignBuff st created.1 created.2) created.2 res error
            (pgpGetCont flags) a1
        rw [a2, a3] at d2 d3 d4
        refine ⟨by rw [d1, a4, hst], ?_, ?_⟩
        · intro hs
          simp [Round.success, hres] at hs
        · intro n e fl hs
          simp only [Round.success, if_pos hres, Option.some.injEq, Prod.mk.injEq] at hs
          obtain ⟨rfl, rfl, rfl⟩ := hs
          exact ⟨{ created.2 with count := res.toNat, error := error }, rfl, rfl, d3 hres,
            d4 hres⟩
      · rw [if_neg hres]
        refine ⟨hst, fun _ => ⟨rfl, rfl⟩, fun n e fl hs => ?_⟩
        simp [Round.success, hres] at hs

end rogue.hardware.pgp

namespace rogue.hardware.pgp

open rogue.interfaces.stream rogue.hardware

/-- A round whose read returns 0 or less adds no buffer and sends nothing, whatever the state
of the thread. -/
theorem round_failed_read (card : PgpCard) (pgpGetCont : Nat → Nat) (st : Receiver)
    (res : Int) (flags error meta mallocResult : Nat) (hres : res ≤ 0) :
    (card.round pgpGetCont st (Round.read res flags error meta mallocResult)).frame =
        st.frame ∧
      (card.round pgpGetCont st (Round.read res flags error meta mallocResult)).sent =
        st.sent := by
  have hneg : ¬ res > 0 := not_lt.mpr hres
  simp only [PgpCard.round]
  split_ifs with h1 h2
  · exact ⟨rfl, rfl⟩
  · cases ha : st.pool.allocBuffer card.bSize none mallocResult with
    | error e => exact ⟨rfl, rfl⟩
    | ok r =>
      obtain ⟨p1, b, t⟩ := r
      simp only []
      obtain ⟨a1, a2, a3, _⟩ := assignBuff_effect card st p1 b
      obtain ⟨_, d2, _, _⟩ :=
        deliver_effect (card.assignBuff st p1 b) b res error (pgpGetCont flags) a1
      rw [a2, a3] at d2
      exact d2 hneg
  · exact ⟨rfl, rfl⟩

/-- The receive loop from any state of a running thread, `malloc` never failing: the frames
sent grow by the reference runs of the successful reads, started with the reads `cur` of the
frame being filled; the frame being filled ends as the reads left over; every error word is
the OR of the errors of the buffers of its frame. -/
theorem foldl_round_framing (card : PgpCard) (pgpGetCont : Nat → Nat) :
    ∀ (rounds : List Round) (st : Receiver) (cur : List (Nat × Nat × Nat)),
      st.error = none →
      (∀ r ∈ rounds, ∀ res flags error meta, r ≠ Round.read res flags error meta 0) →
      st.frame.buffers.map (fun b => (b.count, b.error)) = cur.map (fun r => (r.1, r.2.1)) →
      st.frame.error = errorsOr st.frame.buffers →
      (∀ f ∈ st.sent, f.error = errorsOr f.buffers) →
      (rounds.foldl (card.round pgpGetCont) st).error = none ∧
        (rounds.foldl (card.round pgpGetCont) st).sent.map
            (fun f => f.buffers.map (fun b => (b.count, b.error))) =
          st.sent.map (fun f => f.buffers.map (fun b => (b.count, b.error))) ++
            (frameRuns (fun r => decide (pgpGetCont r.2.2 = 0)) cur
              (rounds.filterMap Round.success)).map (List.map (fun r => (r.1, r.2.1))) ∧
        (rounds.foldl (card.round pgpGetCont) st).frame.buffers.map
            (fun b => (b.count, b.error)) =
          (frameRest (fun r => decide (pgpGetCont r.2.2 = 0)) cur
            (rounds.filterMap Round.success)).map (fun r => (r.1, r.2.1)) ∧
        (rounds.foldl (card.round pgpGetCont) st).frame.error =
          errorsOr (rounds.foldl (card.round pgpGetCont) st).frame.buffers ∧
        ∀ f ∈ (rounds.foldl (card.round pgpGetCont) st).sent, f.error = errorsOr f.buffers := by
  intro rounds
  induction rounds with
  | nil =>
    intro st cur hst _ hcur herr hsent
    simp only [List.foldl_nil, List.filterMap_nil, frameRuns, frameRest, List.map_nil,
      List.append_nil]
    exact ⟨hst, trivial, hcur, herr, hsent⟩
  | cons r rs ih =>
    intro st cur hst hmalloc hcur herr hsent
    obtain ⟨e1, e2, e3⟩ := round_effect card pgpGetCont st r hst
      (hmalloc r (List.mem_cons_self _ _))
    have hrs : ∀ x ∈ rs, ∀ res flags error meta, x ≠ Round.read res flags error meta 0 :=
      fun x hx => hmalloc x (List.mem_cons_of_mem _ hx)
    rw [List.foldl_cons]
    cases hs : r.success with
    | none =>
      obtain ⟨hf, hse⟩ := e2 hs
      have h := ih (card.round pgpGetCont st r) cur e1 hrs (by rw [hf]; exact hcur)
        (by rw [hf]; exact herr) (by rw [hse]; exact hsent)
      rw [hse] at h
      rw [List.filterMap_cons_none hs]
      exact h
    | some x =>
      obtain ⟨n, e, fl⟩ := x
      obtain ⟨b1, hn, he, h0, h1⟩ := e3 n e fl hs
      rw [List.filterMap_cons_some hs]
      have hbufs : (st.frame.buffers ++ [b1]).map (fun b => (b.count, b.error)) =
          (cur ++ [(n, e, fl)]).map (fun r => (r.1, r.2.1)) := by
        rw [List.map_append, List.map_append, hcur, List.map_singleton, List.map_singleton,
          hn, he]
      have herr2 : e ||| st.frame.error = errorsOr (st.frame.buffers ++ [b1]) := by
        rw [errorsOr_append, he, herr]
      by_cases hc : pgpGetCont fl = 0
      · obtain ⟨hse, hf⟩ := h0 hc
        have h := ih (card.round pgpGetCont st r) [] e1 hrs (by rw [hf]; rfl)
          (by rw [hf]; rfl)
          (by
            rw [hse]
            intro f hfm
            rcases List.mem_append.mp hfm with hin | hin
            · exact hsent f hin
            · rw [List.mem_singleton] at hin
              rw [hin]
              exact herr2)
        rw [hse] at h
        obtain ⟨g1, g2, g3, g4, g5⟩ := h
        refine ⟨g1, ?_, ?_, g4, g5⟩
        · rw [g2]
          simp only [frameRuns, hc, decide_True, if_true, List.map_append, List.map_cons,
            List.map_nil, List.append_assoc, List.singleton_append, hbufs]
        · rw [g3]
          simp only [frameRest, hc, decide_True, if_true]
      · obtain ⟨hse, hf⟩ := h1 hc
        have h := ih (card.round pgpGetCont st r) (cur ++ [(n, e, fl)]) e1 hrs
          (by rw [hf]; exact hbufs) (by rw [hf]; exact herr2) (by rw [hse]; exact hsent)
        rw [hse] at h
        obtain ⟨g1, g2, g3, g4, g5⟩ := h
        refine ⟨g1, ?_, ?_, g4, g5⟩
        · rw [g2]
          simp only [frameRuns, hc, decide_False, Bool.false_eq_true, if_false]
        · rw [g3]
          simp only [frameRest, hc, decide_False, Bool.false_eq_true, if_false]

/-- The reference framing is the split of the reads into maximal runs: the runs followed by the
reads left over are all the reads in order, every run ends at a read for which `last` holds
and holds no other such read, and no such read is left over. -/
theorem frameRuns_spec {α : Type} (last : α → Bool) :
    ∀ (xs cur : List α), (∀ x ∈ cur, last x = false) →
      (frameRuns last cur xs).flatten ++ frameRest last cur xs = cur ++ xs ∧
        (∀ run ∈ frameRuns last cur xs,
          ∃ pre x, run = pre ++ [x] ∧ last x = true ∧ ∀ y ∈ pre, last y = false) ∧
        ∀ y ∈ frameRest last cur xs, last y = false := by
  intro xs
  induction xs with
  | nil =>
    intro cur hcur
    simp only [frameRuns, frameRest, List.flatten_nil, List.nil_append, List.append_nil,
      List.not_mem_nil, false_implies, implies_true, true_and]
    exact hcur
  | cons x xs ih =>
    intro cur hcur
    by_cases hl : last x = true
    · obtain ⟨i1, i2, i3⟩ := ih [] (fun y hy => by simp at hy)
      simp only [frameRuns, frameRest, hl, if_true]
      refine ⟨?_, ?_, i3⟩
      · rw [List.flatten_cons, List.append_assoc, i1]
        simp
      · intro run hrun
        rcases List.mem_cons.mp hrun with rfl | hin
        · exact ⟨cur, x, rfl, hl, hcur⟩
        · exact i2 run hin
    · have hl2 : last x = false := by
        cases h : last x
        · rfl
        · exact absurd h hl
      obtain ⟨i1, i2, i3⟩ := ih (cur ++ [x]) (by
        intro y hy
        rcases List.mem_append.mp hy with hin | hin
        · exact hcur y hin
        · rw [List.mem_singleton] at hin
          rw [hin]
          exact hl2)
      simp only [frameRuns, frameRest, hl2, Bool.false_eq_true, if_false]
      refine ⟨?_, i2, i3⟩
      rw [i1]
      simp

/-- C27 (PGP card receive framing): over every sequence of rounds of the receive loop, `malloc`
never failing, the frames passed to `sendFrame` are, in order, the maximal runs of consecutive
successful reads that end at a read whose continue flag is 0; each buffer carries the payload
size and the error word of its read, the error word of each frame sent is the bitwise OR of
the errors of its buffers, the frame being filled holds the reads after the last such read
(it is a new empty frame right after a frame was sent), the thread is still running, and a
round whose read returns 0 or less adds no buffer and sends nothing. -/
theorem receive_framing (card : PgpCard) (pgpGetCont : Nat → Nat) (rounds : List Round)
    (hmalloc : ∀ r ∈ rounds, ∀ res flags error meta, r ≠ Round.read res flags error meta 0) :
    (card.runThread pgpGetCont rounds).error = none ∧
      (card.runThread pgpGetCont rounds).sent.map
          (fun f => f.buffers.map (fun b => (b.count, b.error))) =
        (frameRuns (fun r => decide (pgpGetCont r.2.2 = 0)) []
          (rounds.filterMap Round.success)).map (List.map (fun r => (r.1, r.2.1))) ∧
      (card.runThread pgpGetCont rounds).frame.buffers.map (fun b => (b.count, b.error)) =
        (frameRest (fun r => decide (pgpGetCont r.2.2 = 0)) []
          (rounds.filterMap Round.success)).map (fun r => (r.1, r.2.1)) ∧
      (∀ f ∈ (card.runThread pgpGetCont rounds).sent, f.error = errorsOr f.buffers) ∧
      (card.runThread pgpGetCont rounds).frame.error =
        errorsOr (card.runThread pgpGetCont rounds).frame.buffers ∧
      (∀ (st : Receiver) (res : Int) (flags error meta mallocResult : Nat), res ≤ 0 →
        (card.round pgpGetCont st (Round.read res flags error meta mallocResult)).frame =
            st.frame ∧
          (card.round pgpGetCont st (Round.read res flags error meta mallocResult)).sent =
            st.sent) := by
  obtain ⟨g1, g2, g3, g4, g5⟩ := foldl_round_framing card pgpGetCont rounds
    { pool := card.pool, buff := none, frame := Frame.create, sent := [], released := [],
      error := none } [] rfl hmalloc rfl rfl (fun f hf => by simp at hf)
  simp only [List.map_nil, List.nil_append] at g2
  exact ⟨g1, g2, g3, g5, g4, fun st res flags error meta mallocResult hres =>
    round_failed_read card pgpGetCont st res flags error meta mallocResult hres⟩

/-- Witness of `receive_framing`: five rounds on a card without DMA table, with reads of 10
bytes (continue flag set), nothing, 0 bytes, 20 bytes and 5 bytes, give two frames, of the
reads of 10 and 20 bytes and of the read of 5 bytes. -/
theorem receive_framing_witness :
    (pgpSoftware.runThread (fun f => f &&& 1)
        [.read 10 1 4 0 0x1000, .idle, .read 0 0 0 0 0x2000, .read 20 0 2 0 0x3000,
          .read 5 0 1 0 0x4000]).sent.map
        (fun f => f.buffers.map (fun b => (b.count, b.error))) =
      (frameRuns (fun r => decide ((fun f => f &&& 1) r.2.2 = 0)) []
        (List.filterMap Round.success
          [.read 10 1 4 0 0x1000, .idle, .read 0 0 0 0 0x2000, .read 20 0 2 0 0x3000,
            .read 5 0 1 0 0x4000])).map (List.map (fun r => (r.1, r.2.1))) :=
  (receive_framing pgpSoftware (fun f => f &&& 1)
    [.read 10 1 4 0 0x1000, .idle, .read 0 0 0 0 0x2000, .read 20 0 2 0 0x3000,
      .read 5 0 1 0 0x4000]
    (fun r hr res flags error meta h => by
      subst h
      simp at hr)).2.1

end rogue.hardware.pgp
